import Mathlib

set_option autoImplicit false

/-! Shallow embedding of the `_odict` ordered dictionary of `odict/pyodict.py`:
a backing dict mapping each key to a `[prev, value, next]` record, plus a list
head link `lh` and tail link `lt`, forming a doubly-linked list over the keys.
Keys and values are modelled as naturals; the backing dict is an association
list with python-dict update semantics (replace in place, append when new);
errors carry the state at the raise point, the source raises before mutating. -/

/-- A link field: the `_nil` sentinel or a reference to a key. -/
inductive Link where
  | nil : Link
  | key : Nat → Link
deriving DecidableEq, Repr

/-- The `[prev, value, next]` record stored for each key. -/
structure Entry where
  prev : Link
  val : Nat
  next : Link
deriving DecidableEq, Repr

/-- The ordered dict state: backing dict plus list head `lh` and tail `lt`. -/
structure Odict where
  entries : List (Nat × Entry)
  lh : Link
  lt : Link
deriving DecidableEq, Repr

/-- Error taxonomy (spec section 7): `KeyError` on a missing key is
`keyNotFound`; `KeyError` on an empty container is `emptyContainer`;
`KeyError('No next/previous key')` is `noSuchNeighbor`; `ValueError` and
`TypeError` for equal/keyword arguments are `invalidArgument`. -/
inductive Err where
  | keyNotFound : Err
  | emptyContainer : Err
  | noSuchNeighbor : Err
  | invalidArgument : Err
deriving DecidableEq, Repr

/-- Equality of fallible results is decidable (used to evaluate the
development on concrete states). -/
instance instDecEqExcept {α β : Type} [DecidableEq α] [DecidableEq β] :
    DecidableEq (Except α β)
  | Except.error a, Except.error b =>
    if h : a = b then Decidable.isTrue (by rw [h]) else Decidable.isFalse (by simp [h])
  | Except.error _, Except.ok _ => Decidable.isFalse (by simp)
  | Except.ok _, Except.error _ => Decidable.isFalse (by simp)
  | Except.ok a, Except.ok b =>
    if h : a = b then Decidable.isTrue (by rw [h]) else Decidable.isFalse (by simp [h])

/-- Python dict lookup (`dict.__getitem__`), first matching key. -/
def dictGet (d : List (Nat × Entry)) (k : Nat) : Option Entry :=
  match d with
  | [] => none
  | (k', e) :: rest => if k' = k then some e else dictGet rest k

/-- Python dict store (`dict.__setitem__`): replace in place if the key is
present, append at the end otherwise. -/
def dictSet (d : List (Nat × Entry)) (k : Nat) (e : Entry) : List (Nat × Entry) :=
  match d with
  | [] => [(k, e)]
  | (k', e') :: rest => if k' = k then (k, e) :: rest else (k', e') :: dictSet rest k e

/-- Python dict removal (`dict.__delitem__`), first matching key. -/
def dictDel (d : List (Nat × Entry)) (k : Nat) : List (Nat × Entry) :=
  match d with
  | [] => []
  | (k', e') :: rest => if k' = k then rest else (k', e') :: dictDel rest k

/-- The in-place statement `dict_.__getitem__(self, k)[2] = x` (set the next
link of the record stored at `k`). Only ever applied to keys that are present;
on an absent key the source raises and this model leaves the state unchanged. -/
def Odict.updNext (s : Odict) (k : Nat) (x : Link) : Odict :=
  match dictGet s.entries k with
  | some e => ⟨dictSet s.entries k ⟨e.prev, e.val, x⟩, s.lh, s.lt⟩
  | none => s

/-- The in-place statement `dict_.__getitem__(self, k)[0] = x` (set the prev
link of the record stored at `k`). Only ever applied to keys that are present. -/
def Odict.updPrev (s : Odict) (k : Nat) (x : Link) : Odict :=
  match dictGet s.entries k with
  | some e => ⟨dictSet s.entries k ⟨x, e.val, e.next⟩, s.lh, s.lt⟩
  | none => s

/-- The consecutive statements `val[0] = pl; val[2] = nl` on the record stored
at `k` (the record's value field is kept). -/
def Odict.setLinks (s : Odict) (k : Nat) (pl nl : Link) : Odict :=
  match dictGet s.entries k with
  | some e => ⟨dictSet s.entries k ⟨pl, e.val, nl⟩, s.lh, s.lt⟩
  | none => s

/-- Forward key traversal (`_odict.__iter__` / `keys`), fuelled: the source
walks `next` links from `lh` until the sentinel; a fuel of the dict size is
enough for every well-formed state. -/
def keysFrom (s : Odict) : Nat → Link → List Nat
  | 0, _ => []
  | _ + 1, Link.nil => []
  | fuel + 1, Link.key k =>
    match dictGet s.entries k with
    | some e => k :: keysFrom s fuel e.next
    | none => [k]

/-- `_odict.keys`. -/
def Odict.keys (s : Odict) : List Nat :=
  keysFrom s s.entries.length s.lh

/-- The link the forward walk is at after `fuel` steps from `x`. -/
def endFrom (s : Odict) : Nat → Link → Link
  | 0, x => x
  | _ + 1, Link.nil => Link.nil
  | fuel + 1, Link.key k =>
    match dictGet s.entries k with
    | some e => endFrom s fuel e.next
    | none => Link.key k

/-- The link at which the full forward traversal stops. -/
def Odict.endLink (s : Odict) : Link :=
  endFrom s s.entries.length s.lh

/-- Backward key traversal (`_odict.riterkeys` / `rkeys`): walks `prev` links
from `lt`. -/
def rkeysFrom (s : Odict) : Nat → Link → List Nat
  | 0, _ => []
  | _ + 1, Link.nil => []
  | fuel + 1, Link.key k =>
    match dictGet s.entries k with
    | some e => k :: rkeysFrom s fuel e.prev
    | none => [k]

/-- `_odict.rkeys`. -/
def Odict.rkeys (s : Odict) : List Nat :=
  rkeysFrom s s.entries.length s.lt

/-- `_odict.iteritems` (fuelled): the record is read before yielding. -/
def itemsFrom (s : Odict) : Nat → Link → List (Nat × Nat)
  | 0, _ => []
  | _ + 1, Link.nil => []
  | fuel + 1, Link.key k =>
    match dictGet s.entries k with
    | some e => (k, e.val) :: itemsFrom s fuel e.next
    | none => []

/-- `_odict.items`. -/
def Odict.items (s : Odict) : List (Nat × Nat) :=
  itemsFrom s s.entries.length s.lh

/-- `_odict.__len__` (`len(self.keys())`). -/
def Odict.length (s : Odict) : Nat :=
  s.keys.length

/-- `_odict.__getitem__`: value lookup, `KeyError` when absent. -/
def Odict.getItem (s : Odict) (k : Nat) : Except Err Nat :=
  match dictGet s.entries k with
  | some e => Except.ok e.val
  | none => Except.error Err.keyNotFound

/-- `_odict.get`: value lookup with an optional default (`None` when not
supplied); never raises. -/
def Odict.getDefault (s : Odict) (k : Nat) (x : Option Nat) : Option Nat :=
  match dictGet s.entries k with
  | some e => some e.val
  | none => x

/-- `_odict.__setitem__`: overwrite the value in place when the key is
present; otherwise create `[old tail, v, nil]`, store it, link the old tail
(or the head when the dict was empty) to the new key, and move `lt`. -/
def Odict.setItem (s : Odict) (k v : Nat) : Odict :=
  match dictGet s.entries k with
  | some e => ⟨dictSet s.entries k ⟨e.prev, v, e.next⟩, s.lh, s.lt⟩
  | none =>
    let lt := s.lt
    let s1 : Odict := ⟨dictSet s.entries k ⟨lt, v, Link.nil⟩, s.lh, s.lt⟩
    let s2 := match lt with
      | Link.nil => { s1 with lh := Link.key k }
      | Link.key ltk => s1.updNext ltk (Link.key k)
    { s2 with lt := Link.key k }

/-- `_odict.__delitem__`: splice the record out (predecessor's next or `lh`,
successor's prev or `lt`), then remove it from the dict. -/
def Odict.delItem (s : Odict) (k : Nat) : Except (Err × Odict) Odict :=
  match dictGet s.entries k with
  | none => Except.error (Err.keyNotFound, s)
  | some e =>
    let s1 := match e.prev with
      | Link.nil => { s with lh := e.next }
      | Link.key p => s.updNext p e.next
    let s2 := match e.next with
      | Link.nil => { s1 with lt := e.prev }
      | Link.key q => s1.updPrev q e.prev
    Except.ok ⟨dictDel s2.entries k, s2.lh, s2.lt⟩

/-- `_odict.pop`: try the lookup, delete and return the value; on `KeyError`
re-raise when no default was supplied, else return the default. -/
def Odict.pop (s : Odict) (k : Nat) (default : Option Nat) :
    Except (Err × Odict) (Nat × Odict) :=
  match dictGet s.entries k with
  | some e =>
    match s.delItem k with
    | Except.ok s' => Except.ok (e.val, s')
    | Except.error err => Except.error err
  | none =>
    match default with
    | none => Except.error (Err.keyNotFound, s)
    | some v => Except.ok (v, s)

/-- `_odict.popitem`: pop at the tail key; any `KeyError` from the inner pop
is re-raised as the ordered-dictionary-is-empty `KeyError`. -/
def Odict.popitem (s : Odict) : Except (Err × Odict) ((Nat × Nat) × Odict) :=
  match s.lt with
  | Link.nil => Except.error (Err.emptyContainer, s)
  | Link.key k =>
    match s.pop k none with
    | Except.ok (v, s') => Except.ok ((k, v), s')
    | Except.error (_, s') => Except.error (Err.emptyContainer, s')

/-- `_odict.firstkey`: the head link when the dict is non-empty (python
truthiness, `len(self.keys()) != 0`), else the empty-container `KeyError`. -/
def Odict.firstkey (s : Odict) : Except (Err × Odict) (Link × Odict) :=
  if s.keys.length ≠ 0 then Except.ok (s.lh, s) else Except.error (Err.emptyContainer, s)

/-- `_odict.lastkey`: the tail link when the dict is non-empty. -/
def Odict.lastkey (s : Odict) : Except (Err × Odict) (Link × Odict) :=
  if s.keys.length ≠ 0 then Except.ok (s.lt, s) else Except.error (Err.emptyContainer, s)

/-- `_odict.next_key`: `KeyError` when absent, `KeyError('No next key')` when
the key is last, else the next key. -/
def Odict.next_key (s : Odict) (k : Nat) : Except (Err × Odict) (Nat × Odict) :=
  match dictGet s.entries k with
  | none => Except.error (Err.keyNotFound, s)
  | some e =>
    match e.next with
    | Link.nil => Except.error (Err.noSuchNeighbor, s)
    | Link.key n => Except.ok (n, s)

/-- `_odict.prev_key`: `KeyError` when absent, `KeyError('No previous key')`
when the key is first, else the previous key. -/
def Odict.prev_key (s : Odict) (k : Nat) : Except (Err × Odict) (Nat × Odict) :=
  match dictGet s.entries k with
  | none => Except.error (Err.keyNotFound, s)
  | some e =>
    match e.prev with
    | Link.nil => Except.error (Err.noSuchNeighbor, s)
    | Link.key p => Except.ok (p, s)

/-- `_odict.clear`: empty the dict and reset both list links. -/
def Odict.clear (_ : Odict) : Odict :=
  ⟨[], Link.nil, Link.nil⟩

/-- `_odict.__init__` / `update` body applied to a pair sequence: repeated
`__setitem__` in the given order. -/
def odinit (s : Odict) (data : List (Nat × Nat)) : Odict :=
  data.foldl (fun t kv => t.setItem kv.1 kv.2) s

/-- An `_odict` built from a pair sequence (ordered construction). -/
def fromList (data : List (Nat × Nat)) : Odict :=
  odinit ⟨[], Link.nil, Link.nil⟩ data

/-- `_odict.update`: raises `TypeError` when keyword arguments are given (the
ordering trap), otherwise repeated `__setitem__` over the pairs. -/
def Odict.update (s : Odict) (kwds : Bool) (data : List (Nat × Nat)) :
    Except (Err × Odict) Odict :=
  if kwds then Except.error (Err.invalidArgument, s) else Except.ok (odinit s data)

/-- One stable-insertion step of python's stable `sorted` with
`key=lambda x: x[1]`: an earlier element stays before later equal ones. -/
def insertByVal (x : Nat × Nat) : List (Nat × Nat) → List (Nat × Nat)
  | [] => [x]
  | y :: ys => if x.2 ≤ y.2 then x :: y :: ys else y :: insertByVal x ys

/-- Stable sort of pairs ascending by value, modelling python's `sorted` with
`key=lambda x: x[1]` (a stable sort). -/
def sortByVal : List (Nat × Nat) → List (Nat × Nat)
  | [] => []
  | x :: xs => insertByVal x (sortByVal xs)

/-- `_odict.sort` with default arguments: stable sort of `items()` ascending
by value, then `self.clear()` and `self.__init__(sorted items)`. -/
def Odict.sortDefault (s : Odict) : Odict :=
  odinit s.clear (sortByVal s.items)

/-- `list.index` (python), first position of `x`. -/
def listIndex (x : Nat) : List Nat → Option Nat
  | [] => none
  | y :: ys => if y = x then some 0 else (listIndex x ys).map (· + 1)

/-- The guarded statement `if x != _nil: dict_.__getitem__(self, x)[2] = t`. -/
def Odict.relinkNext (s : Odict) (x t : Link) : Odict :=
  match x with
  | Link.nil => s
  | Link.key p => s.updNext p t

/-- The guarded statement `if x != _nil: dict_.__getitem__(self, x)[0] = t`. -/
def Odict.relinkPrev (s : Odict) (x t : Link) : Odict :=
  match x with
  | Link.nil => s
  | Link.key q => s.updPrev q t

/-- The statement `dict_.__setitem__(self, k, e)`. -/
def Odict.storeEntry (s : Odict) (k : Nat) (e : Entry) : Odict :=
  ⟨dictSet s.entries k e, s.lh, s.lt⟩

/-- The guarded statement `if x == _nil: lh = k`. -/
def Odict.setHeadIfNil (s : Odict) (x : Link) (k : Nat) : Odict :=
  if x = Link.nil then { s with lh := Link.key k } else s

/-- The guarded statement `if x == _nil: lt = k`. -/
def Odict.setTailIfNil (s : Odict) (x : Link) (k : Nat) : Odict :=
  if x = Link.nil then { s with lt := Link.key k } else s

/-- `_odict.swap`: raise on equal keys, read both records, build the two new
records with the adjacency fixups, rewire the four neighbours, store the two
new records, then update `lh`/`lt` from the new records' sentinel fields. -/
def Odict.swap (s : Odict) (a b : Nat) : Except (Err × Odict) Odict :=
  if a = b then Except.error (Err.invalidArgument, s)
  else
    match dictGet s.entries a with
    | none => Except.error (Err.keyNotFound, s)
    | some ea =>
      match dictGet s.entries b with
      | none => Except.error (Err.keyNotFound, s)
      | some eb =>
        let c1 := eb.prev = Link.key a
        let c2 := ea.prev = Link.key b
        let na0 := if c1 then Link.key b else eb.prev
        let nb2 := if c1 then Link.key a else ea.next
        let nb0 := if c2 then Link.key a else ea.prev
        let na2 := if c2 then Link.key b else eb.next
        let s1 := s.relinkNext na0 (Link.key a)
        let s2 := s1.relinkPrev na2 (Link.key a)
        let s3 := s2.relinkNext nb0 (Link.key b)
        let s4 := s3.relinkPrev nb2 (Link.key b)
        let s5 := s4.storeEntry a ⟨na0, ea.val, na2⟩
        let s6 := s5.storeEntry b ⟨nb0, eb.val, nb2⟩
        let s7 := s6.setHeadIfNil na0 a
        let s8 := s7.setTailIfNil na2 a
        let s9 := s8.setHeadIfNil nb0 b
        let sA := s9.setTailIfNil nb2 b
        Except.ok sA

/-- `_odict.insertbefore`: raise on equal keys, locate `ref` in `keys()`
(raising `KeyError` when absent), wire the predecessor (or `lh`) to the new
key, point `ref`'s prev at it and store the new record. The new key is NOT
checked for absence. -/
def Odict.insertbefore (s : Odict) (ref k v : Nat) : Except (Err × Odict) Odict :=
  if ref = k then Except.error (Err.invalidArgument, s)
  else
    match listIndex ref s.keys with
    | none => Except.error (Err.keyNotFound, s)
    | some index =>
      if 0 < index then
        match s.keys.get? (index - 1) with
        | some prevkey =>
          let s1 := s.updNext prevkey (Link.key k)
          let s2 := s1.updPrev ref (Link.key k)
          Except.ok ⟨dictSet s2.entries k ⟨Link.key prevkey, v, Link.key ref⟩, s2.lh, s2.lt⟩
        | none => Except.error (Err.keyNotFound, s)
      else
        let s1 := { s with lh := Link.key k }
        let s2 := s1.updPrev ref (Link.key k)
        Except.ok ⟨dictSet s2.entries k ⟨Link.nil, v, Link.key ref⟩, s2.lh, s2.lt⟩

/-- `_odict.insertafter`: mirror image of `insertbefore` on the next side. -/
def Odict.insertafter (s : Odict) (ref k v : Nat) : Except (Err × Odict) Odict :=
  if ref = k then Except.error (Err.invalidArgument, s)
  else
    match listIndex ref s.keys with
    | none => Except.error (Err.keyNotFound, s)
    | some index =>
      if index < s.keys.length - 1 then
        match s.keys.get? (index + 1) with
        | some nextkey =>
          let s1 := s.updPrev nextkey (Link.key k)
          let s2 := s1.updNext ref (Link.key k)
          Except.ok ⟨dictSet s2.entries k ⟨Link.key ref, v, Link.key nextkey⟩, s2.lh, s2.lt⟩
        | none => Except.error (Err.keyNotFound, s)
      else
        let s1 := { s with lt := Link.key k }
        let s2 := s1.updNext ref (Link.key k)
        Except.ok ⟨dictSet s2.entries k ⟨Link.key ref, v, Link.nil⟩, s2.lh, s2.lt⟩

/-- The splice block shared verbatim by `movebefore` and `moveafter` (the
source's four-way unlink of `key`'s record: predecessor's next or `lh`, then
successor's prev or `lt`, re-reading `key`'s record between the two steps as
the source's aliased in-place reads do). -/
def Odict.spliceOut (s : Odict) (k : Nat) (val : Entry) : Odict :=
  let s1 := match val.prev with
    | Link.nil => { s with lh := val.next }
    | Link.key p => s.updNext p val.next
  let val1 := (dictGet s1.entries k).getD val
  match val1.next with
  | Link.nil => { s1 with lt := val1.prev }
  | Link.key q => s1.updPrev q val1.prev

/-- `_odict.movebefore`: splice `key` out of the chain, then relink it just
before `ref`, reading `ref`'s record from the spliced state (the source
mutates aliased records, so its reads there already see the splice). -/
def Odict.movebefore (s : Odict) (ref k : Nat) : Except (Err × Odict) Odict :=
  if ref = k then Except.error (Err.invalidArgument, s)
  else
    match dictGet s.entries k with
    | none => Except.error (Err.keyNotFound, s)
    | some val =>
      match dictGet s.entries ref with
      | none => Except.error (Err.keyNotFound, s)
      | some _ =>
        let s2 := s.spliceOut k val
        let refv := (dictGet s2.entries ref).getD val
        match refv.prev with
        | Link.nil =>
          let s3 := s2.setLinks k Link.nil (Link.key ref)
          let s4 := s3.updPrev ref (Link.key k)
          Except.ok { s4 with lh := Link.key k }
        | Link.key p =>
          let rpn := ((dictGet s2.entries p).getD val).next
          let s3 := s2.setLinks k (Link.key p) rpn
          let s4 := s3.updPrev ref (Link.key k)
          Except.ok (s4.updNext p (Link.key k))

/-- `_odict.moveafter`: splice `key` out of the chain, then relink it just
after `ref`, reading `ref`'s record from the spliced state. -/
def Odict.moveafter (s : Odict) (ref k : Nat) : Except (Err × Odict) Odict :=
  if ref = k then Except.error (Err.invalidArgument, s)
  else
    match dictGet s.entries k with
    | none => Except.error (Err.keyNotFound, s)
    | some val =>
      match dictGet s.entries ref with
      | none => Except.error (Err.keyNotFound, s)
      | some _ =>
        let s2 := s.spliceOut k val
        let refv := (dictGet s2.entries ref).getD val
        match refv.next with
        | Link.nil =>
          let s3 := s2.setLinks k (Link.key ref) Link.nil
          let s4 := s3.updNext ref (Link.key k)
          Except.ok { s4 with lt := Link.key k }
        | Link.key n =>
          let s3 := s2.setLinks k (Link.key ref) (Link.key n)
          let s4 := s3.updNext ref (Link.key k)
          Except.ok (s4.updPrev n (Link.key k))

/-- `_odict.movefirst`: `movebefore(first_key, key)` unless `key` already is
the first key (then no mutation at all). -/
def Odict.movefirst (s : Odict) (k : Nat) : Except (Err × Odict) Odict :=
  match s.firstkey with
  | Except.error e => Except.error e
  | Except.ok (fk, s') =>
    if fk ≠ Link.key k then
      match fk with
      | Link.key f => s'.movebefore f k
      | Link.nil => Except.error (Err.keyNotFound, s')
    else Except.ok s'

/-- `_odict.movelast`: `moveafter(last_key, key)` unless `key` already is the
last key. -/
def Odict.movelast (s : Odict) (k : Nat) : Except (Err × Odict) Odict :=
  match s.lastkey with
  | Except.error e => Except.error e
  | Except.ok (lk, s') =>
    if lk ≠ Link.key k then
      match lk with
      | Link.key f => s'.moveafter f k
      | Link.nil => Except.error (Err.keyNotFound, s')
    else Except.ok s'

/-! Lemmas about the backing-dict primitives. -/

/-- The link naming the last element of a key list (`Nil` when the list is
empty). -/
def lastK (ks : List Nat) : Link :=
  ks.foldl (fun _ j => Link.key j) Link.nil

/-- Every record whose prev link names a key points at a record whose next
link names it back. -/
def prevConsistentB (s : Odict) : Bool :=
  s.entries.all (fun kv =>
    match kv.2.prev with
    | Link.nil => true
    | Link.key p =>
      match dictGet s.entries p with
      | some ep => ep.next == Link.key kv.1
      | none => false)

/-- Every record whose next link names a key points at a record whose prev
link names it back. -/
def nextConsistentB (s : Odict) : Bool :=
  s.entries.all (fun kv =>
    match kv.2.next with
    | Link.nil => true
    | Link.key n =>
      match dictGet s.entries n with
      | some en => en.prev == Link.key kv.1
      | none => false)

/-- The linked-structure invariants: the forward traversal visits every
stored key exactly once and stops at nil right after the tail key, the
backward traversal is its exact reverse, neighbor links are mutually
consistent, and the dict is empty exactly when both list links are nil. -/
@[reducible] def Invariants (s : Odict) : Prop :=
  s.keys.Nodup ∧
  s.keys.Perm (s.entries.map Prod.fst) ∧
  s.endLink = Link.nil ∧
  s.lt = lastK s.keys ∧
  s.rkeys = s.keys.reverse ∧
  prevConsistentB s = true ∧
  nextConsistentB s = true ∧
  (s.entries = [] ↔ (s.lh = Link.nil ∧ s.lt = Link.nil))

/-- States reachable from the empty odict by the public mutating operations,
each call succeeding (and the inserted key absent for the two inserts). -/
inductive Reachable : Odict → Prop where
  | empty : Reachable ⟨[], Link.nil, Link.nil⟩
  | set {s : Odict} (k v : Nat) : Reachable s → Reachable (s.setItem k v)
  | del {s s' : Odict} (k : Nat) : Reachable s →
      s.delItem k = Except.ok s' → Reachable s'
  | swap {s s' : Odict} (a b : Nat) : Reachable s →
      s.swap a b = Except.ok s' → Reachable s'
  | mvb {s s' : Odict} (ref k : Nat) : Reachable s →
      s.movebefore ref k = Except.ok s' → Reachable s'
  | mva {s s' : Odict} (ref k : Nat) : Reachable s →
      s.moveafter ref k = Except.ok s' → Reachable s'
  | insb {s s' : Odict} (ref k v : Nat) : Reachable s →
      dictGet s.entries k = none →
      s.insertbefore ref k v = Except.ok s' → Reachable s'
  | insa {s s' : Odict} (ref k v : Nat) : Reachable s →
      dictGet s.entries k = none →
      s.insertafter ref k v = Except.ok s' → Reachable s'
  | sort {s : Odict} : Reachable s → Reachable s.sortDefault
  | clear {s : Odict} : Reachable s → Reachable s.clear

theorem dictGet_dictSet (d : List (Nat × Entry)) (k k' : Nat) (e : Entry) :
    dictGet (dictSet d k e) k' = if k' = k then some e else dictGet d k' := by
  induction d with
  | nil =>
    by_cases h : k' = k
    · simp [dictSet, dictGet, h]
    · simp [dictSet, dictGet, h, Ne.symm h]
  | cons he rest ih =>
    obtain ⟨k0, e0⟩ := he
    by_cases h0 : k0 = k
    · subst h0
      by_cases h : k' = k0
      · simp [dictSet, dictGet, h]
      · simp [dictSet, dictGet, h, Ne.symm h]
    · by_cases h : k0 = k'
      · subst h
        simp [dictSet, dictGet, h0, Ne.symm h0]
      · simp [dictSet, dictGet, h0, h, ih]

theorem mapFst_dictSet_mem (d : List (Nat × Entry)) (k : Nat) (e : Entry)
    (h : k ∈ d.map Prod.fst) : (dictSet d k e).map Prod.fst = d.map Prod.fst := by
  induction d with
  | nil => simp at h
  | cons he rest ih =>
    obtain ⟨k0, e0⟩ := he
    by_cases h0 : k0 = k
    · subst h0; simp [dictSet]
    · simp only [List.map_cons, List.mem_cons] at h
      rcases h with h | h
      · exact absurd h.symm h0
      · simp [dictSet, h0, ih h]

theorem mapFst_dictSet_new (d : List (Nat × Entry)) (k : Nat) (e : Entry)
    (h : k ∉ d.map Prod.fst) : (dictSet d k e).map Prod.fst = d.map Prod.fst ++ [k] := by
  induction d with
  | nil => simp [dictSet]
  | cons he rest ih =>
    obtain ⟨k0, e0⟩ := he
    simp only [List.map_cons, List.mem_cons] at h
    push_neg at h
    simp [dictSet, Ne.symm h.1, ih h.2]

theorem dictGet_eq_none_iff (d : List (Nat × Entry)) (k : Nat) :
    dictGet d k = none ↔ k ∉ d.map Prod.fst := by
  induction d with
  | nil => simp [dictGet]
  | cons he rest ih =>
    obtain ⟨k0, e0⟩ := he
    by_cases h : k0 = k
    · subst h; simp [dictGet]
    · simp [dictGet, h, ih, Ne.symm h]

theorem dictGet_isSome_iff (d : List (Nat × Entry)) (k : Nat) :
    (dictGet d k).isSome ↔ k ∈ d.map Prod.fst := by
  rcases h : dictGet d k with _ | e
  · simp [(dictGet_eq_none_iff d k).mp h]
  · simp only [Option.isSome_some, true_iff]
    by_contra hmem
    rw [(dictGet_eq_none_iff d k).mpr hmem] at h
    exact Option.noConfusion h

theorem mapFst_dictDel (d : List (Nat × Entry)) (k : Nat) :
    (dictDel d k).map Prod.fst = (d.map Prod.fst).erase k := by
  induction d with
  | nil => simp [dictDel]
  | cons he rest ih =>
    obtain ⟨k0, e0⟩ := he
    by_cases h : k0 = k
    · subst h; simp [dictDel, List.erase_cons_head]
    · simp [dictDel, h, List.erase_cons_tail, ih]

theorem dictGet_dictDel (d : List (Nat × Entry)) (k k' : Nat)
    (hnd : (d.map Prod.fst).Nodup) :
    dictGet (dictDel d k) k' = if k' = k then none else dictGet d k' := by
  induction d with
  | nil => simp [dictDel, dictGet]
  | cons he rest ih =>
    obtain ⟨k0, e0⟩ := he
    simp only [List.map_cons, List.nodup_cons] at hnd
    by_cases h0 : k0 = k
    · subst h0
      by_cases h : k' = k0
      · subst h
        simp [dictDel, (dictGet_eq_none_iff rest k').mpr hnd.1]
      · simp [dictDel, dictGet, h, Ne.symm h]
    · by_cases h : k0 = k'
      · subst h
        simp [dictDel, dictGet, h0, Ne.symm h0]
      · simp [dictDel, dictGet, h0, h, ih hnd.2]

/-! The doubly-linked segment predicate: `Seg d p x l z` says that starting at
link `x` the records of `d` spell out exactly the pairs of `l`, the first
record's prev link being `p`, each later record's prev link naming its
predecessor, and the last record's next link being `z` (for an empty `l`,
`x = z`). -/

/-- Doubly-linked segment over the backing dict. -/
inductive Seg (d : List (Nat × Entry)) : Link → Link → List (Nat × Nat) → Link → Prop
  | nil (p x : Link) : Seg d p x [] x
  | cons {p : Link} {k v : Nat} {x1 z : Link} {rest : List (Nat × Nat)} :
      dictGet d k = some ⟨p, v, x1⟩ → Seg d (Link.key k) x1 rest z →
      Seg d p (Link.key k) ((k, v) :: rest) z

/-- The link naming the last key of `l`, or `p` when `l` is empty. -/
def lastL (p : Link) : List (Nat × Nat) → Link
  | [] => p
  | (k, _) :: rest => lastL (Link.key k) rest

/-- The link naming the first key of `l`, or `z` when `l` is empty. -/
def headL (z : Link) : List (Nat × Nat) → Link
  | [] => z
  | (k, _) :: _ => Link.key k

theorem lastL_append (p : Link) (l₁ l₂ : List (Nat × Nat)) :
    lastL p (l₁ ++ l₂) = lastL (lastL p l₁) l₂ := by
  induction l₁ generalizing p with
  | nil => rfl
  | cons he rest ih => obtain ⟨k, v⟩ := he; simp [lastL, ih]

theorem lastL_concat (p : Link) (l : List (Nat × Nat)) (k v : Nat) :
    lastL p (l ++ [(k, v)]) = Link.key k := by
  rw [lastL_append]; rfl

theorem lastL_eq_nil_iff (l : List (Nat × Nat)) : lastL Link.nil l = Link.nil ↔ l = [] := by
  constructor
  · intro h
    rcases List.eq_nil_or_concat l with rfl | ⟨l', ⟨k, v⟩, rfl⟩
    · rfl
    · rw [List.concat_eq_append, lastL_concat] at h; exact absurd h (by simp)
  · intro h; subst h; rfl

theorem headL_eq_nil_iff (l : List (Nat × Nat)) : headL Link.nil l = Link.nil ↔ l = [] := by
  cases l with
  | nil => simp [headL]
  | cons he rest => obtain ⟨k, v⟩ := he; simp [headL]

theorem Seg.head_eq {d : List (Nat × Entry)} {p x z : Link} {l : List (Nat × Nat)}
    (h : Seg d p x l z) : x = headL z l := by
  cases h with
  | nil => rfl
  | cons hk hrest => rfl

theorem Seg.nil_inv {d : List (Nat × Entry)} {p x z : Link}
    (h : Seg d p x [] z) : x = z := by
  cases h; rfl

theorem Seg.frame {d d' : List (Nat × Entry)} {p x z : Link} {l : List (Nat × Nat)}
    (hf : ∀ k, k ∈ l.map Prod.fst → dictGet d' k = dictGet d k)
    (h : Seg d p x l z) : Seg d' p x l z := by
  induction h with
  | nil p x => exact Seg.nil p x
  | cons hk hrest ih =>
    refine Seg.cons ?_ (ih ?_)
    · rw [hf _ (by simp)]; exact hk
    · intro k' hk'; exact hf k' (by simp [hk'])

theorem Seg.append {d : List (Nat × Entry)} {p x m z : Link} {l₁ l₂ : List (Nat × Nat)}
    (h1 : Seg d p x l₁ m) (h2 : Seg d (lastL p l₁) m l₂ z) :
    Seg d p x (l₁ ++ l₂) z := by
  induction h1 with
  | nil p x => exact h2
  | cons hk hrest ih => exact Seg.cons hk (ih h2)

theorem Seg.split {d : List (Nat × Entry)} {p x z : Link} (l₁ l₂ : List (Nat × Nat))
    (h : Seg d p x (l₁ ++ l₂) z) :
    Seg d p x l₁ (headL z l₂) ∧ Seg d (lastL p l₁) (headL z l₂) l₂ z := by
  induction l₁ generalizing p x with
  | nil =>
    simp only [List.nil_append] at h
    have hx := h.head_eq
    subst hx
    exact ⟨Seg.nil p _, h⟩
  | cons he rest ih =>
    obtain ⟨k, v⟩ := he
    cases h with
    | cons hk hrest =>
      obtain ⟨ha, hb⟩ := ih hrest
      exact ⟨Seg.cons hk ha, hb⟩

theorem Seg.single {d : List (Nat × Entry)} {p z : Link} {k v : Nat}
    (h : dictGet d k = some ⟨p, v, z⟩) : Seg d p (Link.key k) [(k, v)] z :=
  Seg.cons h (Seg.nil (Link.key k) z)

/-- Walking the forward traversal across a segment consumes exactly its
length in fuel and continues from the segment's exit link. -/
theorem Seg.keys_walk {d : List (Nat × Entry)} {p x z : Link} {l : List (Nat × Nat)}
    (h : Seg d p x l z) (s : Odict) (hd : s.entries = d) (m : Nat) :
    keysFrom s (l.length + m) x = l.map Prod.fst ++ keysFrom s m z := by
  induction h generalizing m with
  | nil p x => simp
  | cons hk hrest ih =>
    rename_i p k v x1 z' rest
    have : rest.length + 1 + m = (rest.length + m) + 1 := by omega
    simp only [List.length_cons, this, keysFrom, hd, hk, List.map_cons, List.cons_append]
    rw [ih m]

theorem Seg.items_walk {d : List (Nat × Entry)} {p x z : Link} {l : List (Nat × Nat)}
    (h : Seg d p x l z) (s : Odict) (hd : s.entries = d) (m : Nat) :
    itemsFrom s (l.length + m) x = l ++ itemsFrom s m z := by
  induction h generalizing m with
  | nil p x => simp
  | cons hk hrest ih =>
    rename_i p k v x1 z' rest
    have : rest.length + 1 + m = (rest.length + m) + 1 := by omega
    simp only [List.length_cons, this, itemsFrom, hd, hk, List.cons_append]
    rw [ih m]

theorem Seg.end_walk {d : List (Nat × Entry)} {p x z : Link} {l : List (Nat × Nat)}
    (h : Seg d p x l z) (s : Odict) (hd : s.entries = d) (m : Nat) :
    endFrom s (l.length + m) x = endFrom s m z := by
  induction h generalizing m with
  | nil p x => simp
  | cons hk hrest ih =>
    rename_i p k v x1 z' rest
    have : rest.length + 1 + m = (rest.length + m) + 1 := by omega
    simp only [List.length_cons, this, endFrom, hd, hk]
    rw [ih m]

/-- Walking the backward traversal from the last key of a segment yields the
reversed keys and continues from the link before the segment. -/
theorem Seg.rkeys_walk {d : List (Nat × Entry)} {p x z : Link} {l : List (Nat × Nat)}
    (h : Seg d p x l z) (s : Odict) (hd : s.entries = d) (m : Nat) :
    rkeysFrom s (l.length + m) (lastL p l) =
      (l.map Prod.fst).reverse ++ rkeysFrom s m p := by
  induction h generalizing m with
  | nil p x => simp [lastL]
  | cons hk hrest ih =>
    rename_i p k v x1 z' rest
    have hfuel : rest.length + 1 + m = rest.length + (m + 1) := by omega
    simp only [List.length_cons, lastL, hfuel]
    rw [ih (m + 1)]
    simp only [rkeysFrom, hd, hk, List.map_cons, List.reverse_cons, List.append_assoc,
      List.singleton_append]

/-- Decomposition of a segment at a member key: the key splits the list and
its stored record names its neighbours. -/
theorem Seg.mem_entry {d : List (Nat × Entry)} {p x z : Link} {l : List (Nat × Nat)}
    (h : Seg d p x l z) {k : Nat} (hk : k ∈ l.map Prod.fst) :
    ∃ l₁ v l₂, l = l₁ ++ (k, v) :: l₂ ∧
      dictGet d k = some ⟨lastL p l₁, v, headL z l₂⟩ := by
  induction h with
  | nil p x => simp at hk
  | cons hk0 hrest ih =>
    rename_i p k0 v0 x1 z rest
    by_cases hkk : k = k0
    · subst hkk
      refine ⟨[], v0, rest, rfl, ?_⟩
      rw [hk0, hrest.head_eq]
      rfl
    · simp only [List.map_cons, List.mem_cons] at hk
      rcases hk with hk | hk
      · exact absurd hk hkk
      · obtain ⟨l₁, v, l₂, heq, hget⟩ := ih hk
        exact ⟨(k0, v0) :: l₁, v, l₂, by rw [heq]; rfl, hget⟩


/-- Inversion of a segment at a cons. -/
theorem Seg.consx {d : List (Nat × Entry)} {p z : Link} {k v : Nat}
    {rest : List (Nat × Nat)} (x1 : Link) (hk : dictGet d k = some ⟨p, v, x1⟩)
    (hrest : Seg d (Link.key k) x1 rest z) : Seg d p (Link.key k) ((k, v) :: rest) z :=
  Seg.cons hk hrest

theorem Seg.cons_inv {d : List (Nat × Entry)} {p x z : Link} {k v : Nat}
    {rest : List (Nat × Nat)} (h : Seg d p x ((k, v) :: rest) z) :
    ∃ x1, dictGet d k = some ⟨p, v, x1⟩ ∧ Seg d (Link.key k) x1 rest z ∧ x = Link.key k := by
  cases h with
  | cons hk hrest => exact ⟨_, hk, hrest, rfl⟩

/-- A non-empty list's `lastL` names a member key. -/
theorem lastL_mem (q : Link) (l : List (Nat × Nat)) (hl : l ≠ []) :
    ∃ kk, lastL q l = Link.key kk ∧ kk ∈ l.map Prod.fst := by
  rcases List.eq_nil_or_concat l with rfl | ⟨l'', ⟨kk, vv⟩, rfl⟩
  · exact absurd rfl hl
  · rw [List.concat_eq_append, lastL_concat]
    exact ⟨kk, rfl, by simp⟩

/-- Rewiring the two boundary records of a non-empty segment: if in `d'` the
first record's prev became `p'`, the last record's next became `z'`, and all
records of the segment are otherwise unchanged, the segment holds in `d'`
between `p'` and `z'`. -/
theorem Seg.retargetBoth {d d' : List (Nat × Entry)} {p p' x z z' : Link}
    {l : List (Nat × Nat)}
    (h : Seg d p x l z) (hne : l ≠ []) (hnd : (l.map Prod.fst).Nodup)
    (hmod : ∀ k v, (k, v) ∈ l → ∃ e, dictGet d k = some e ∧
      dictGet d' k = some ⟨(if Link.key k = headL z l then p' else e.prev), e.val,
        (if Link.key k = lastL p l then z' else e.next)⟩) :
    Seg d' p' x l z' := by
  induction l generalizing p p' x with
  | nil => exact absurd rfl hne
  | cons hd0 tl ih =>
    obtain ⟨k0, v0⟩ := hd0
    obtain ⟨x1, hk0, hrest, rfl⟩ := h.cons_inv
    obtain ⟨e, hge, hge'⟩ := hmod k0 v0 (by simp)
    rw [hk0] at hge
    obtain rfl : e = ⟨p, v0, x1⟩ := by injection hge with hh; exact hh.symm
    simp only [List.map_cons, List.nodup_cons] at hnd
    cases tl with
    | nil =>
      have hx1 : x1 = z := hrest.nil_inv
      subst hx1
      refine Seg.single ?_
      rw [hge']
      simp [headL, lastL]
    | cons hd1 tl1 =>
      obtain ⟨k1, v1⟩ := hd1
      obtain ⟨x2, hk1, hrest1, hx1⟩ := hrest.cons_inv
      have hk0_ne_last : Link.key k0 ≠ lastL (Link.key k0) ((k1, v1) :: tl1) := by
        obtain ⟨kk, hkl, hklmem⟩ := lastL_mem (Link.key k0) ((k1, v1) :: tl1) (by simp)
        rw [hkl]
        intro hcon
        injection hcon with hcon
        exact hnd.1 (hcon ▸ hklmem)
      have hget0 : dictGet d' k0 = some ⟨p', v0, x1⟩ := by
        rw [hge']
        have h1 : (Link.key k0 = headL z ((k0, v0) :: (k1, v1) :: tl1)) = True := by
          simp [headL]
        have h2 : lastL p ((k0, v0) :: (k1, v1) :: tl1) =
            lastL (Link.key k0) ((k1, v1) :: tl1) := rfl
        rw [h2]
        simp [h1, hk0_ne_last]
      subst hx1
      refine Seg.cons hget0 ?_
      refine ih hrest (by simp) hnd.2 ?_
      intro k v hkv
      obtain ⟨e2, hg2, hg2'⟩ := hmod k v (List.mem_cons_of_mem _ hkv)
      have hkne : k ≠ k0 := by
        intro hcon
        exact hnd.1 (hcon ▸ List.mem_map_of_mem Prod.fst hkv)
      refine ⟨e2, hg2, ?_⟩
      rw [hg2']
      have houter : (Link.key k = headL z ((k0, v0) :: (k1, v1) :: tl1)) = False := by
        simp [headL, hkne]
      have hlast_eq : lastL p ((k0, v0) :: (k1, v1) :: tl1) =
          lastL (Link.key k0) ((k1, v1) :: tl1) := rfl
      by_cases hfirst : k = k1
      · subst hfirst
        obtain rfl : e2 = ⟨Link.key k0, v1, x2⟩ := Option.some.inj (hg2.symm.trans hk1)
        simp [hlast_eq, headL, hkne]
      · have hinner : (Link.key k = headL z ((k1, v1) :: tl1)) = False := by
          simp [headL, hfirst]
        simp [houter, hinner, hlast_eq]

/-- The representation invariant: the state's links spell out exactly the
pair list `l` (head to tail), the tail link names `l`'s last key, the backing
dict holds exactly `l`'s keys, and those keys are distinct. -/
structure Represents (s : Odict) (l : List (Nat × Nat)) : Prop where
  seg : Seg s.entries Link.nil s.lh l Link.nil
  tail_eq : s.lt = lastL Link.nil l
  perm : (s.entries.map Prod.fst).Perm (l.map Prod.fst)
  nodup : (l.map Prod.fst).Nodup

theorem Represents.entries_length {s : Odict} {l : List (Nat × Nat)}
    (h : Represents s l) : s.entries.length = l.length := by
  have := h.perm.length_eq
  simpa using this

theorem Represents.entries_nodup {s : Odict} {l : List (Nat × Nat)}
    (h : Represents s l) : (s.entries.map Prod.fst).Nodup :=
  h.perm.nodup_iff.mpr h.nodup

theorem Represents.mem_iff {s : Odict} {l : List (Nat × Nat)} (h : Represents s l)
    (k : Nat) : k ∈ s.entries.map Prod.fst ↔ k ∈ l.map Prod.fst :=
  h.perm.mem_iff

theorem Represents.get_none_iff {s : Odict} {l : List (Nat × Nat)}
    (h : Represents s l) (k : Nat) :
    dictGet s.entries k = none ↔ k ∉ l.map Prod.fst := by
  rw [dictGet_eq_none_iff, h.mem_iff]

theorem Represents.keys_eq {s : Odict} {l : List (Nat × Nat)}
    (h : Represents s l) : s.keys = l.map Prod.fst := by
  have hw := h.seg.keys_walk s rfl 0
  rw [Odict.keys, h.entries_length]
  simpa [keysFrom] using hw

theorem Represents.items_eq {s : Odict} {l : List (Nat × Nat)}
    (h : Represents s l) : s.items = l := by
  have hw := h.seg.items_walk s rfl 0
  rw [Odict.items, h.entries_length]
  simpa [itemsFrom] using hw

theorem Represents.rkeys_eq {s : Odict} {l : List (Nat × Nat)}
    (h : Represents s l) : s.rkeys = (l.map Prod.fst).reverse := by
  have hw := h.seg.rkeys_walk s rfl 0
  rw [Odict.rkeys, h.entries_length, h.tail_eq]
  simpa [rkeysFrom] using hw

theorem Represents.endLink_eq {s : Odict} {l : List (Nat × Nat)}
    (h : Represents s l) : s.endLink = Link.nil := by
  have hw := h.seg.end_walk s rfl 0
  rw [Odict.endLink, h.entries_length]
  simpa [endFrom] using hw

theorem Represents.length_eq {s : Odict} {l : List (Nat × Nat)}
    (h : Represents s l) : s.length = l.length := by
  rw [Odict.length, h.keys_eq, List.length_map]

theorem Represents.lh_eq {s : Odict} {l : List (Nat × Nat)}
    (h : Represents s l) : s.lh = headL Link.nil l :=
  h.seg.head_eq

theorem Represents.get_mem {s : Odict} {l : List (Nat × Nat)} (h : Represents s l)
    {k : Nat} (hk : k ∈ l.map Prod.fst) :
    ∃ l₁ v l₂, l = l₁ ++ (k, v) :: l₂ ∧
      dictGet s.entries k = some ⟨lastL Link.nil l₁, v, headL Link.nil l₂⟩ :=
  h.seg.mem_entry hk

/-- The empty odict represents the empty list. -/
theorem represents_empty : Represents ⟨[], Link.nil, Link.nil⟩ [] :=
  ⟨Seg.nil Link.nil Link.nil, rfl, List.Perm.refl [], List.nodup_nil⟩

/-- Value overwrite on the abstract pair list. -/
def updateVal (l : List (Nat × Nat)) (k v : Nat) : List (Nat × Nat) :=
  l.map (fun kv => if kv.1 = k then (k, v) else kv)

theorem mapFst_updateVal (l : List (Nat × Nat)) (k v : Nat) :
    (updateVal l k v).map Prod.fst = l.map Prod.fst := by
  induction l with
  | nil => rfl
  | cons hd tl ih =>
    obtain ⟨k0, v0⟩ := hd
    by_cases h : k0 = k
    · subst h; simp [updateVal] at ih ⊢; exact ih
    · simp [updateVal, h] at ih ⊢; exact ih

theorem Seg.updVal {d : List (Nat × Entry)} {p x z : Link} {l : List (Nat × Nat)}
    {k v : Nat} {e : Entry} (h : Seg d p x l z) (hk : dictGet d k = some e) :
    Seg (dictSet d k ⟨e.prev, v, e.next⟩) p x (updateVal l k v) z := by
  induction h with
  | nil p x => exact Seg.nil p x
  | cons hk0 hrest ih =>
    rename_i p k0 v0 x1 z rest
    by_cases hkk : k0 = k
    · subst hkk
      rw [hk0] at hk
      obtain rfl : e = ⟨p, v0, x1⟩ := (Option.some.inj hk).symm
      have : updateVal ((k0, v0) :: rest) k0 v = (k0, v) :: updateVal rest k0 v := by
        simp [updateVal]
      rw [this]
      refine Seg.cons ?_ ih
      rw [dictGet_dictSet]
      simp
    · have : updateVal ((k0, v0) :: rest) k v = (k0, v0) :: updateVal rest k v := by
        simp [updateVal, hkk]
      rw [this]
      refine Seg.cons ?_ ih
      rw [dictGet_dictSet]
      have hkk2 : ¬k0 = k := hkk
      rw [if_neg hkk2]
      exact hk0

theorem lastL_cons (p : Link) (x : Nat × Nat) (rest : List (Nat × Nat)) :
    lastL p (x :: rest) = lastL (Link.key x.1) rest := rfl

theorem lastL_updateVal (p : Link) (l : List (Nat × Nat)) (k v : Nat) :
    lastL p (updateVal l k v) = lastL p l := by
  induction l generalizing p with
  | nil => rfl
  | cons hd tl ih =>
    rw [show updateVal (hd :: tl) k v = (if hd.1 = k then (k, v) else hd) :: updateVal tl k v
          from rfl, lastL_cons, lastL_cons]
    have h1 : ((if hd.1 = k then (k, v) else hd) : Nat × Nat).1 = hd.1 := by
      by_cases h : hd.1 = k <;> simp [h]
    rw [h1]
    exact ih _

/-- `__setitem__` on a present key: value replaced in place. -/
theorem setItem_represents_mem {s : Odict} {l : List (Nat × Nat)} {k v : Nat}
    {e : Entry} (h : Represents s l) (hk : dictGet s.entries k = some e) :
    Represents (s.setItem k v) (updateVal l k v) := by
  rw [Odict.setItem, hk]
  refine ⟨h.seg.updVal hk, ?_, ?_, ?_⟩
  · rw [lastL_updateVal]
    exact h.tail_eq
  · rw [mapFst_updateVal]
    have hmem : k ∈ s.entries.map Prod.fst := by
      rw [← dictGet_isSome_iff, hk]; rfl
    rw [mapFst_dictSet_mem _ _ _ hmem]
    exact h.perm
  · rw [mapFst_updateVal]; exact h.nodup

/-- `__setitem__` on an absent key: appended at the tail. -/
theorem setItem_represents_new {s : Odict} {l : List (Nat × Nat)} {k v : Nat}
    (h : Represents s l) (hk : dictGet s.entries k = none) :
    Represents (s.setItem k v) (l ++ [(k, v)]) := by
  have hkmem : k ∉ l.map Prod.fst := (h.get_none_iff k).mp hk
  have hkde : k ∉ s.entries.map Prod.fst := (dictGet_eq_none_iff _ _).mp hk
  rcases List.eq_nil_or_concat l with rfl | ⟨l', ⟨q, vq⟩, rfl⟩
  · have hlh : s.lh = Link.nil := by simpa [headL] using h.lh_eq
    have hlt : s.lt = Link.nil := by simpa [lastL] using h.tail_eq
    have hent : s.entries = [] := by
      have hp := h.perm
      simp only [List.map_nil] at hp
      exact List.map_eq_nil_iff.mp hp.eq_nil
    rw [Odict.setItem, hk]
    simp only [hlt, hent]
    refine ⟨?_, rfl, by simp [dictSet], by simp⟩
    refine Seg.single ?_
    simp [dictSet, dictGet]
  · rw [List.concat_eq_append] at *
    have hlt : s.lt = Link.key q := by rw [h.tail_eq, lastL_concat]
    have hqmem : q ∈ (l' ++ [(q, vq)]).map Prod.fst := by simp
    have hkq : k ≠ q := fun hh => hkmem (hh ▸ hqmem)
    obtain ⟨hseg1, hseg2⟩ := h.seg.split (l') ([(q, vq)])
    obtain ⟨x1, hgq, hrest, hhd⟩ := hseg2.cons_inv
    have hx1 : x1 = Link.nil := hrest.nil_inv
    subst hx1
    have hqnl' : q ∉ l'.map Prod.fst := by
      have := h.nodup
      simp only [List.map_append, List.nodup_append] at this
      intro hin
      exact this.2.2 hin (by simp)
    rw [Odict.setItem, hk]
    simp only [hlt]
    have hgq1 : dictGet (dictSet s.entries k ⟨Link.key q, v, Link.nil⟩) q =
        some ⟨lastL Link.nil l', vq, Link.nil⟩ := by
      rw [dictGet_dictSet, if_neg (fun hh => hkq hh.symm)]
      exact hgq
    simp only [Odict.updNext, hgq1]
    refine ⟨?_, ?_, ?_, ?_⟩
    · rw [List.append_assoc]
      have hl2 : ((q, vq) :: [(k, v)] : List (Nat × Nat)) = [(q, vq)] ++ [(k, v)] := rfl
      refine Seg.append (m := Link.key q) ?_ ?_
      · refine hseg1.frame ?_
        intro k' hk'
        have hk'k : k' ≠ k := fun hh => hkmem (hh ▸ by simp [hk'])
        have hk'q : k' ≠ q := fun hh => hqnl' (hh ▸ hk')
        rw [dictGet_dictSet, if_neg hk'q, dictGet_dictSet, if_neg hk'k]
      · refine Seg.cons ?_ (Seg.single ?_)
        · rw [dictGet_dictSet, if_pos rfl]
        · rw [dictGet_dictSet, if_neg hkq, dictGet_dictSet, if_pos rfl]
    · rw [List.append_assoc, lastL_append]
      rfl
    · have h1 : (dictSet (dictSet s.entries k ⟨Link.key q, v, Link.nil⟩) q
          ⟨lastL Link.nil l', vq, Link.key k⟩).map Prod.fst =
          (dictSet s.entries k ⟨Link.key q, v, Link.nil⟩).map Prod.fst := by
        refine mapFst_dictSet_mem _ _ _ ?_
        rw [← dictGet_isSome_iff, hgq1]; rfl
      rw [h1, mapFst_dictSet_new _ _ _ hkde]
      have h2 : ((l' ++ [(q, vq)]) ++ [(k, v)]).map Prod.fst
          = (l' ++ [(q, vq)]).map Prod.fst ++ [k] := by simp
      rw [h2]
      exact h.perm.append_right [k]
    · have h2 : ((l' ++ [(q, vq)]) ++ [(k, v)]).map Prod.fst
          = (l' ++ [(q, vq)]).map Prod.fst ++ [k] := by simp
      rw [h2, List.nodup_append]
      refine ⟨h.nodup, List.nodup_singleton k, ?_⟩
      intro a ha hb
      simp only [List.mem_singleton] at hb
      exact hkmem (hb ▸ ha)

/-- `clear` yields the empty representation from any state. -/
theorem clear_represents (s : Odict) : Represents s.clear [] :=
  represents_empty

theorem erase_mid (A B : List Nat) (k : Nat) (hkA : k ∉ A) :
    (A ++ k :: B).erase k = A ++ B := by
  rw [List.erase_append_right _ hkA, List.erase_cons_head]

/-- Distinctness facts at a decomposition point. -/
theorem nodup_mid {l₁ l₂ : List (Nat × Nat)} {k : Nat} {vk : Nat}
    (h : ((l₁ ++ (k, vk) :: l₂).map Prod.fst).Nodup) :
    k ∉ l₁.map Prod.fst ∧ k ∉ l₂.map Prod.fst ∧
      (l₁.map Prod.fst).Disjoint (l₂.map Prod.fst) ∧
      (l₁.map Prod.fst).Nodup ∧ (l₂.map Prod.fst).Nodup := by
  simp only [List.map_append, List.map_cons, List.nodup_append, List.nodup_cons] at h
  obtain ⟨hA, ⟨hkB, hB⟩, hdisj⟩ := h
  refine ⟨fun hin => hdisj hin (by simp), hkB, ?_, hA, hB⟩
  intro a ha hb
  exact hdisj ha (by simp [hb])

/-- Evaluation of `updPrev` at a present key. -/
theorem updPrev_eq {s : Odict} {k : Nat} {e : Entry}
    (h : dictGet s.entries k = some e) (x : Link) :
    s.updPrev k x = ⟨dictSet s.entries k ⟨x, e.val, e.next⟩, s.lh, s.lt⟩ := by
  rw [Odict.updPrev, h]

/-- Evaluation of `updNext` at a present key. -/
theorem updNext_eq {s : Odict} {k : Nat} {e : Entry}
    (h : dictGet s.entries k = some e) (x : Link) :
    s.updNext k x = ⟨dictSet s.entries k ⟨e.prev, e.val, x⟩, s.lh, s.lt⟩ := by
  rw [Odict.updNext, h]

/-- Evaluation of `setLinks` at a present key. -/
theorem setLinks_eq {s : Odict} {k : Nat} {e : Entry}
    (h : dictGet s.entries k = some e) (pl nl : Link) :
    s.setLinks k pl nl = ⟨dictSet s.entries k ⟨pl, e.val, nl⟩, s.lh, s.lt⟩ := by
  rw [Odict.setLinks, h]


/-- `__delitem__` on a present key splices it out of the representation. -/
theorem delItem_represents {s : Odict} {l₁ l₂ : List (Nat × Nat)} {k vk : Nat}
    (h : Represents s (l₁ ++ (k, vk) :: l₂)) :
    ∃ s', s.delItem k = Except.ok s' ∧ Represents s' (l₁ ++ l₂) := by
  obtain ⟨hseg1, hseg2⟩ := h.seg.split (l₁) ((k, vk) :: l₂)
  obtain ⟨x1, hgk, hsegB, hhd⟩ := hseg2.cons_inv
  have hx1 : x1 = headL Link.nil l₂ := hsegB.head_eq
  subst hx1
  have hh1 : headL Link.nil ((k, vk) :: l₂) = Link.key k := rfl
  rw [hh1] at hseg1 hseg2
  obtain ⟨hkA, hkB, hdisj, hndA, hndB⟩ := nodup_mid h.nodup
  have hperm' : ((dictDel s.entries k).map Prod.fst).Perm ((l₁ ++ l₂).map Prod.fst) := by
    rw [mapFst_dictDel]
    have hp2 := h.perm.erase k
    rw [List.map_append, List.map_cons, erase_mid _ _ _ hkA] at hp2
    rw [List.map_append]
    exact hp2
  have hndup' : ((l₁ ++ l₂).map Prod.fst).Nodup := by
    simp only [List.map_append, List.nodup_append]
    exact ⟨hndA, hndB, hdisj⟩
  rcases List.eq_nil_or_concat l₁ with rfl | ⟨l₁', ⟨p, vp⟩, rfl⟩
  · cases l₂ with
    | nil =>
      refine ⟨⟨dictDel s.entries k, Link.nil, Link.nil⟩, ?_, ?_⟩
      · simp only [Odict.delItem, hgk, lastL, headL]
      · exact ⟨Seg.nil Link.nil Link.nil, rfl, by simpa using hperm', by simp⟩
    | cons hd2 l₂' =>
      obtain ⟨q, vq⟩ := hd2
      obtain ⟨x2, hgq, hsegB', hq⟩ := hsegB.cons_inv
      have hqk : q ≠ k := fun hcon => hkB (by simp [hcon])
      have hqB' : q ∉ l₂'.map Prod.fst := by
        have := hndB
        simp only [List.map_cons, List.nodup_cons] at this
        exact this.1
      refine ⟨⟨dictDel (dictSet s.entries q ⟨Link.nil, vq, x2⟩) k, Link.key q, s.lt⟩, ?_, ?_, ?_, ?_, hndup'⟩
      · simp only [Odict.delItem, hgk, lastL, headL, Odict.updPrev, hgq]
      · show Seg _ Link.nil (Link.key q) ([] ++ (q, vq) :: l₂') Link.nil
        have hqin : q ∈ s.entries.map Prod.fst := by
          rw [← dictGet_isSome_iff, hgq]; rfl
        rw [List.nil_append]
        refine Seg.consx (x2) ?_ ?_
        · rw [dictGet_dictDel _ _ _ (by rw [mapFst_dictSet_mem _ _ _ hqin]; exact h.entries_nodup),
            if_neg hqk, dictGet_dictSet, if_pos rfl]
        · refine hsegB'.frame ?_
          intro k' hk'
          have hqin2 : q ∈ s.entries.map Prod.fst := hqin
          have hk'k : k' ≠ k := by
            intro hcon
            rw [hcon] at hk'
            exact hkB (by simp only [List.map_cons, List.mem_cons]; exact Or.inr hk')
          have hk'q : k' ≠ q := fun hcon => hqB' (hcon ▸ hk')
          rw [dictGet_dictDel _ _ _ (by rw [mapFst_dictSet_mem _ _ _ hqin2]; exact h.entries_nodup),
            if_neg hk'k, dictGet_dictSet, if_neg hk'q]
      · rw [h.tail_eq]
        rfl
      · show ((dictDel (dictSet s.entries q ⟨Link.nil, vq, x2⟩) k).map Prod.fst).Perm _
        rw [mapFst_dictDel, mapFst_dictSet_mem _ _ _ (by rw [← dictGet_isSome_iff, hgq]; rfl)]
        rw [← mapFst_dictDel]
        exact hperm'
  · rw [List.concat_eq_append] at *
    rw [lastL_append] at hgk
    have hll : lastL (lastL Link.nil l₁') [(p, vp)] = Link.key p := rfl
    rw [hll] at hgk
    obtain ⟨hsegA, hsegP⟩ := hseg1.split (l₁') ([(p, vp)])
    obtain ⟨xp, hgp, hrestp, hp⟩ := hsegP.cons_inv
    have hxp : xp = Link.key k := hrestp.nil_inv
    subst hxp
    have hpk : p ≠ k := by
      intro hcon
      exact hkA (by simp [hcon])
    have hpA' : p ∉ l₁'.map Prod.fst := by
      have := hndA
      simp only [List.map_append, List.map_cons, List.map_nil, List.nodup_append] at this
      intro hin
      exact this.2.2 hin (by simp)
    have hpin : p ∈ s.entries.map Prod.fst := by
      rw [← dictGet_isSome_iff, hgp]; rfl
    have hhp : headL (Link.key k) [(p, vp)] = Link.key p := rfl
    rw [hhp] at hsegA hsegP
    cases l₂ with
    | nil =>
      refine ⟨⟨dictDel (dictSet s.entries p ⟨lastL Link.nil l₁', vp, Link.nil⟩) k, s.lh, Link.key p⟩,
        ?_, ?_, ?_, ?_, hndup'⟩
      · simp only [Odict.delItem, hgk, lastL, headL, Odict.updNext, hgp]
      · show Seg _ Link.nil s.lh ((l₁' ++ [(p, vp)]) ++ []) Link.nil
        rw [List.append_nil]
        refine Seg.append (m := Link.key p) ?_ (Seg.single ?_)
        · refine hsegA.frame ?_
          intro k' hk'
          have hk'k : k' ≠ k := by
            intro hcon
            rw [hcon] at hk'
            exact hkA (by simp only [List.map_append]; exact List.mem_append_left _ hk')
          have hk'p : k' ≠ p := fun hcon => hpA' (hcon ▸ hk')
          rw [dictGet_dictDel _ _ _ (by rw [mapFst_dictSet_mem _ _ _ hpin]; exact h.entries_nodup),
            if_neg hk'k, dictGet_dictSet, if_neg hk'p]
        · rw [dictGet_dictDel _ _ _ (by rw [mapFst_dictSet_mem _ _ _ hpin]; exact h.entries_nodup),
            if_neg hpk, dictGet_dictSet, if_pos rfl]
      · rw [List.append_nil, lastL_concat]
      · show ((dictDel (dictSet s.entries p ⟨lastL Link.nil l₁', vp, Link.nil⟩) k).map Prod.fst).Perm _
        rw [mapFst_dictDel, mapFst_dictSet_mem _ _ _ hpin, ← mapFst_dictDel]
        exact hperm'
    | cons hd2 l₂' =>
      obtain ⟨q, vq⟩ := hd2
      obtain ⟨x2, hgq, hsegB', hq⟩ := hsegB.cons_inv
      have hqk : q ≠ k := fun hcon => hkB (by simp [hcon])
      have hqp : q ≠ p := by
        intro hcon
        subst hcon
        exact hdisj (a := q) (by simp) (by simp)
      have hqB' : q ∉ l₂'.map Prod.fst := by
        have := hndB
        simp only [List.map_cons, List.nodup_cons] at this
        exact this.1
      have hqin : q ∈ s.entries.map Prod.fst := by
        rw [← dictGet_isSome_iff, hgq]; rfl
      have hgq1 : dictGet (dictSet s.entries p ⟨lastL Link.nil l₁', vp, Link.key q⟩) q =
          some ⟨Link.key k, vq, x2⟩ := by
        rw [dictGet_dictSet, if_neg hqp]
        exact hgq
      have hnd2 : ((dictSet (dictSet s.entries p ⟨lastL Link.nil l₁', vp, Link.key q⟩) q
          ⟨Link.key p, vq, x2⟩).map Prod.fst).Nodup := by
        rw [mapFst_dictSet_mem _ _ _ (by rw [← dictGet_isSome_iff, hgq1]; rfl),
          mapFst_dictSet_mem _ _ _ hpin]
        exact h.entries_nodup
      refine ⟨⟨dictDel (dictSet (dictSet s.entries p ⟨lastL Link.nil l₁', vp, Link.key q⟩) q
          ⟨Link.key p, vq, x2⟩) k, s.lh, s.lt⟩, ?_, ?_, ?_, ?_, hndup'⟩
      · simp only [Odict.delItem, hgk, lastL, headL, Odict.updNext, hgp, Odict.updPrev, hgq1]
      · show Seg _ Link.nil s.lh ((l₁' ++ [(p, vp)]) ++ (q, vq) :: l₂') Link.nil
        rw [List.append_assoc]
        refine Seg.append (m := Link.key p) ?_ ?_
        · refine hsegA.frame ?_
          intro k' hk'
          have hk'k : k' ≠ k := by
            intro hcon
            rw [hcon] at hk'
            exact hkA (by simp only [List.map_append]; exact List.mem_append_left _ hk')
          have hk'p : k' ≠ p := fun hcon => hpA' (hcon ▸ hk')
          have hk'q : k' ≠ q := by
            intro hcon
            exact hdisj (a := k') (by simp [hk']) (by simp [hcon])
          rw [dictGet_dictDel _ _ _ hnd2, if_neg hk'k, dictGet_dictSet, if_neg hk'q,
            dictGet_dictSet, if_neg hk'p]
        · show Seg _ (lastL Link.nil l₁') (Link.key p) ((p, vp) :: (q, vq) :: l₂') Link.nil
          refine Seg.consx (Link.key q) ?_ (Seg.consx (x2) ?_ ?_)
          · rw [dictGet_dictDel _ _ _ hnd2, if_neg hpk, dictGet_dictSet, if_neg (Ne.symm hqp),
              dictGet_dictSet, if_pos rfl]
          · rw [dictGet_dictDel _ _ _ hnd2, if_neg hqk, dictGet_dictSet, if_pos rfl]
          · refine hsegB'.frame ?_
            intro k' hk'
            have hk'k : k' ≠ k := by
              intro hcon
              rw [hcon] at hk'
              exact hkB (by simp only [List.map_cons, List.mem_cons]; exact Or.inr hk')
            have hk'q : k' ≠ q := fun hcon => hqB' (hcon ▸ hk')
            have hk'p : k' ≠ p := by
              intro hcon
              exact hdisj (a := k') (by simp [hcon]) (by simp [hk'])
            rw [dictGet_dictDel _ _ _ hnd2, if_neg hk'k, dictGet_dictSet, if_neg hk'q,
              dictGet_dictSet, if_neg hk'p]
      · rw [h.tail_eq]
        simp [lastL_append, lastL]
      · show ((dictDel (dictSet (dictSet s.entries p ⟨lastL Link.nil l₁', vp, Link.key q⟩) q
            ⟨Link.key p, vq, x2⟩) k).map Prod.fst).Perm _
        rw [mapFst_dictDel, mapFst_dictSet_mem _ _ _ (by rw [← dictGet_isSome_iff, hgq1]; rfl),
          mapFst_dictSet_mem _ _ _ hpin, ← mapFst_dictDel]
        exact hperm'

/-- Effect of the splice block on a represented state: afterwards the links
spell out `l₁ ++ l₂`, head and tail match, the dict keys are unchanged, and
`k`'s (now stale) record is still present with its value intact. -/
theorem spliceOut_spec {s : Odict} {l₁ l₂ : List (Nat × Nat)} {k vk : Nat}
    (h : Represents s (l₁ ++ (k, vk) :: l₂)) :
    ∃ s2, s.spliceOut k ⟨lastL Link.nil l₁, vk, headL Link.nil l₂⟩ = s2 ∧
      Seg s2.entries Link.nil s2.lh (l₁ ++ l₂) Link.nil ∧
      s2.lt = lastL Link.nil (l₁ ++ l₂) ∧
      s2.entries.map Prod.fst = s.entries.map Prod.fst ∧
      dictGet s2.entries k = some ⟨lastL Link.nil l₁, vk, headL Link.nil l₂⟩ := by
  obtain ⟨hseg1, hseg2⟩ := h.seg.split (l₁) ((k, vk) :: l₂)
  obtain ⟨x1, hgk, hsegB, hhd⟩ := hseg2.cons_inv
  have hx1 : x1 = headL Link.nil l₂ := hsegB.head_eq
  subst hx1
  have hh1 : headL Link.nil ((k, vk) :: l₂) = Link.key k := rfl
  rw [hh1] at hseg1 hseg2
  obtain ⟨hkA, hkB, hdisj, hndA, hndB⟩ := nodup_mid h.nodup
  rcases List.eq_nil_or_concat l₁ with rfl | ⟨l₁', ⟨p, vp⟩, rfl⟩
  · cases l₂ with
    | nil =>
      refine ⟨⟨s.entries, Link.nil, Link.nil⟩, ?_, Seg.nil _ _, rfl, rfl, hgk⟩
      simp only [Odict.spliceOut, lastL, headL, hgk, Option.getD]
    | cons hd2 l₂' =>
      obtain ⟨q, vq⟩ := hd2
      obtain ⟨x2, hgq, hsegB', hq⟩ := hsegB.cons_inv
      have hqk : q ≠ k := fun hcon => hkB (by simp [hcon])
      have hqB' : q ∉ l₂'.map Prod.fst := by
        have := hndB
        simp only [List.map_cons, List.nodup_cons] at this
        exact this.1
      have hqin : q ∈ s.entries.map Prod.fst := by
        rw [← dictGet_isSome_iff, hgq]; rfl
      refine ⟨⟨dictSet s.entries q ⟨Link.nil, vq, x2⟩, Link.key q, s.lt⟩, ?_, ?_, ?_, ?_, ?_⟩
      · simp only [Odict.spliceOut, lastL, headL, hgk, Option.getD, Odict.updPrev, hgq]
      · show Seg _ Link.nil (Link.key q) ([] ++ (q, vq) :: l₂') Link.nil
        rw [List.nil_append]
        refine Seg.consx (x2) ?_ ?_
        · rw [dictGet_dictSet, if_pos rfl]
        · refine hsegB'.frame ?_
          intro k' hk'
          have hk'q : k' ≠ q := fun hcon => hqB' (hcon ▸ hk')
          rw [dictGet_dictSet, if_neg hk'q]
      · rw [h.tail_eq]
        rfl
      · exact mapFst_dictSet_mem _ _ _ hqin
      · rw [dictGet_dictSet, if_neg (fun hcon => hqk hcon.symm)]
        exact hgk
  · rw [List.concat_eq_append] at *
    rw [lastL_append] at hgk ⊢
    have hll : lastL (lastL Link.nil l₁') [(p, vp)] = Link.key p := rfl
    rw [hll] at hgk ⊢
    obtain ⟨hsegA, hsegP⟩ := hseg1.split (l₁') ([(p, vp)])
    obtain ⟨xp, hgp, hrestp, hhp⟩ := hsegP.cons_inv
    have hxp : xp = Link.key k := hrestp.nil_inv
    subst hxp
    have hpk : p ≠ k := fun hcon => hkA (by simp [hcon])
    have hpA' : p ∉ l₁'.map Prod.fst := by
      have := hndA
      simp only [List.map_append, List.map_cons, List.map_nil, List.nodup_append] at this
      intro hin
      exact this.2.2 hin (by simp)
    have hpin : p ∈ s.entries.map Prod.fst := by
      rw [← dictGet_isSome_iff, hgp]; rfl
    have hhp2 : headL (Link.key k) [(p, vp)] = Link.key p := rfl
    rw [hhp2] at hsegA hsegP
    have hgk1 : dictGet (dictSet s.entries p
        ⟨lastL Link.nil l₁', vp, headL Link.nil l₂⟩) k = some ⟨Link.key p, vk, headL Link.nil l₂⟩ := by
      rw [dictGet_dictSet, if_neg (fun hcon => hpk hcon.symm)]
      exact hgk
    cases l₂ with
    | nil =>
      refine ⟨⟨dictSet s.entries p ⟨lastL Link.nil l₁', vp, Link.nil⟩, s.lh, Link.key p⟩,
        ?_, ?_, ?_, ?_, ?_⟩
      · simp only [Odict.spliceOut, lastL, headL, Odict.updNext, hgp]
        have hgk1' : dictGet (dictSet s.entries p ⟨lastL Link.nil l₁', vp, Link.nil⟩) k =
            some ⟨Link.key p, vk, Link.nil⟩ := hgk1
        simp only [hgk1', Option.getD]
      · show Seg _ Link.nil s.lh ((l₁' ++ [(p, vp)]) ++ []) Link.nil
        rw [List.append_nil]
        refine Seg.append (m := Link.key p) ?_ (Seg.single ?_)
        · refine hsegA.frame ?_
          intro k' hk'
          have hk'p : k' ≠ p := fun hcon => hpA' (hcon ▸ hk')
          rw [dictGet_dictSet, if_neg hk'p]
        · rw [dictGet_dictSet, if_pos rfl]
      · rw [List.append_nil, lastL_concat]
      · exact mapFst_dictSet_mem _ _ _ hpin
      · exact hgk1
    | cons hd2 l₂' =>
      obtain ⟨q, vq⟩ := hd2
      obtain ⟨x2, hgq, hsegB', hq⟩ := hsegB.cons_inv
      have hqk : q ≠ k := fun hcon => hkB (by simp [hcon])
      have hqp : q ≠ p := by
        intro hcon
        subst hcon
        exact hdisj (a := q) (by simp) (by simp)
      have hqB' : q ∉ l₂'.map Prod.fst := by
        have := hndB
        simp only [List.map_cons, List.nodup_cons] at this
        exact this.1
      have hqin : q ∈ s.entries.map Prod.fst := by
        rw [← dictGet_isSome_iff, hgq]; rfl
      have hgq1 : dictGet (dictSet s.entries p ⟨lastL Link.nil l₁', vp, Link.key q⟩) q =
          some ⟨Link.key k, vq, x2⟩ := by
        rw [dictGet_dictSet, if_neg hqp]
        exact hgq
      refine ⟨⟨dictSet (dictSet s.entries p ⟨lastL Link.nil l₁', vp, Link.key q⟩) q
          ⟨Link.key p, vq, x2⟩, s.lh, s.lt⟩, ?_, ?_, ?_, ?_, ?_⟩
      · simp only [Odict.spliceOut, lastL, headL, Odict.updNext, hgp]
        have hgk1' : dictGet (dictSet s.entries p ⟨lastL Link.nil l₁', vp, Link.key q⟩) k =
            some ⟨Link.key p, vk, Link.key q⟩ := hgk1
        simp only [hgk1', Option.getD, Odict.updPrev, hgq1]
      · show Seg _ Link.nil s.lh ((l₁' ++ [(p, vp)]) ++ (q, vq) :: l₂') Link.nil
        rw [List.append_assoc]
        refine Seg.append (m := Link.key p) ?_ ?_
        · refine hsegA.frame ?_
          intro k' hk'
          have hk'p : k' ≠ p := fun hcon => hpA' (hcon ▸ hk')
          have hk'q : k' ≠ q := by
            intro hcon
            exact hdisj (a := k') (by simp [hk']) (by simp [hcon])
          rw [dictGet_dictSet, if_neg hk'q, dictGet_dictSet, if_neg hk'p]
        · show Seg _ (lastL Link.nil l₁') (Link.key p) ((p, vp) :: (q, vq) :: l₂') Link.nil
          refine Seg.consx (Link.key q) ?_ (Seg.consx (x2) ?_ ?_)
          · rw [dictGet_dictSet, if_neg (Ne.symm hqp), dictGet_dictSet, if_pos rfl]
          · rw [dictGet_dictSet, if_pos rfl]
          · refine hsegB'.frame ?_
            intro k' hk'
            have hk'q : k' ≠ q := fun hcon => hqB' (hcon ▸ hk')
            have hk'p : k' ≠ p := by
              intro hcon
              exact hdisj (a := k') (by simp [hcon]) (by simp [hk'])
            rw [dictGet_dictSet, if_neg hk'q, dictGet_dictSet, if_neg hk'p]
      · rw [h.tail_eq]
        simp [lastL_append, lastL]
      · rw [mapFst_dictSet_mem _ _ _ (by rw [← dictGet_isSome_iff, hgq1]; rfl),
          mapFst_dictSet_mem _ _ _ hpin]
      · rw [dictGet_dictSet, if_neg (fun hcon => hqk hcon.symm)]
        exact hgk1

theorem perm_move (A B C D : List Nat) (k : Nat) (hs : A ++ B = C ++ D) :
    (A ++ k :: B).Perm (C ++ k :: D) := by
  refine List.Perm.trans List.perm_middle ?_
  rw [hs]
  exact List.perm_middle.symm

/-- `movebefore` on a represented state: `key` is unlinked and relinked
immediately before `ref`, values unchanged. -/
theorem movebefore_represents {s : Odict} {l₁ l₂ r₁ r₂ : List (Nat × Nat)}
    {k vk ref vr : Nat}
    (h : Represents s (l₁ ++ (k, vk) :: l₂)) (hrk : ref ≠ k)
    (hsplit : l₁ ++ l₂ = r₁ ++ (ref, vr) :: r₂) :
    ∃ s', s.movebefore ref k = Except.ok s' ∧
      Represents s' (r₁ ++ (k, vk) :: (ref, vr) :: r₂) := by
  obtain ⟨hseg1, hseg2⟩ := h.seg.split (l₁) ((k, vk) :: l₂)
  obtain ⟨x1, hgk, hsegB, hhd⟩ := hseg2.cons_inv
  have hx1 : x1 = headL Link.nil l₂ := hsegB.head_eq
  subst hx1
  have hrefmem : ref ∈ s.entries.map Prod.fst := by
    rw [h.mem_iff]
    have : ref ∈ (l₁ ++ l₂).map Prod.fst := by rw [hsplit]; simp
    simp only [List.map_append, List.mem_append] at this
    rcases this with hin | hin
    · simp [hin]
    · simp [hin]
  obtain ⟨eref, heref⟩ : ∃ e, dictGet s.entries ref = some e := by
    rcases hget : dictGet s.entries ref with _ | e
    · rw [dictGet_eq_none_iff] at hget
      exact absurd hrefmem hget
    · exact ⟨e, rfl⟩
  obtain ⟨s2, hs2eq, hseg2', hlt2, hkeys2, hgk2⟩ := spliceOut_spec h
  rw [hsplit] at hseg2' hlt2
  obtain ⟨hsegR1, hsegRref⟩ := hseg2'.split (r₁) ((ref, vr) :: r₂)
  obtain ⟨xr, hgref2, hsegR2, hhdr⟩ := hsegRref.cons_inv
  have hxr : xr = headL Link.nil r₂ := hsegR2.head_eq
  subst hxr
  have hhr : headL Link.nil ((ref, vr) :: r₂) = Link.key ref := rfl
  rw [hhr] at hsegR1 hsegRref
  have htargetperm : (s.entries.map Prod.fst).Perm
      ((r₁ ++ (k, vk) :: (ref, vr) :: r₂).map Prod.fst) := by
    refine h.perm.trans ?_
    simp only [List.map_append, List.map_cons]
    refine perm_move _ _ _ _ _ ?_
    have := congrArg (List.map Prod.fst) hsplit
    simpa using this
  have hndT : ((r₁ ++ (k, vk) :: (ref, vr) :: r₂).map Prod.fst).Nodup := by
    rw [← List.Perm.nodup_iff htargetperm]
    exact h.entries_nodup
  obtain ⟨hkR1, hkRB, hdisjT, hndR1, hndRB⟩ := nodup_mid hndT
  have hkref : k ≠ ref := fun hcon => hkRB (by simp [hcon])
  have hkR2 : k ∉ r₂.map Prod.fst := fun hin => hkRB (by simp [hin])
  have hrefR2 : ref ∉ r₂.map Prod.fst := by
    have := hndRB
    simp only [List.map_cons, List.nodup_cons] at this
    exact this.1
  have hrefR1 : ref ∉ r₁.map Prod.fst := fun hin => hdisjT (a := ref) hin (by simp)
  rcases List.eq_nil_or_concat r₁ with rfl | ⟨r₁', ⟨p2, vp2⟩, rfl⟩
  · have hgref2' : dictGet s2.entries ref = some ⟨Link.nil, vr, headL Link.nil r₂⟩ := hgref2
    have hg3ref : dictGet (dictSet s2.entries k ⟨Link.nil, vk, Link.key ref⟩) ref =
        some ⟨Link.nil, vr, headL Link.nil r₂⟩ := by
      rw [dictGet_dictSet, if_neg hrk]
      exact hgref2'
    have hrun : s.movebefore ref k = Except.ok
        ⟨dictSet (dictSet s2.entries k ⟨Link.nil, vk, Link.key ref⟩) ref
          ⟨Link.key k, vr, headL Link.nil r₂⟩, Link.key k, s2.lt⟩ := by
      rw [Odict.movebefore, if_neg hrk, hgk, heref]
      simp only [hs2eq, hgref2', Option.getD, lastL, Odict.setLinks, hgk2,
        Odict.updPrev, hg3ref]
    refine ⟨_, hrun, ?_, ?_, ?_, hndT⟩
    · show Seg _ Link.nil (Link.key k) ([] ++ (k, vk) :: (ref, vr) :: r₂) Link.nil
      rw [List.nil_append]
      refine Seg.consx (Link.key ref) ?_ (Seg.consx (headL Link.nil r₂) ?_ ?_)
      · rw [dictGet_dictSet, if_neg hkref, dictGet_dictSet, if_pos rfl]
      · rw [dictGet_dictSet, if_pos rfl]
      · refine hsegR2.frame ?_
        intro k' hk'
        have hk'k : k' ≠ k := fun hcon => hkR2 (hcon ▸ hk')
        have hk'ref : k' ≠ ref := fun hcon => hrefR2 (hcon ▸ hk')
        rw [dictGet_dictSet, if_neg hk'ref, dictGet_dictSet, if_neg hk'k]
    · rw [hlt2]
      rfl
    · show ((dictSet (dictSet s2.entries k ⟨Link.nil, vk, Link.key ref⟩) ref
          ⟨Link.key k, vr, headL Link.nil r₂⟩).map Prod.fst).Perm _
      rw [mapFst_dictSet_mem _ _ _ (by rw [← dictGet_isSome_iff, hg3ref]; rfl),
        mapFst_dictSet_mem _ _ _ (by rw [← dictGet_isSome_iff, hgk2]; rfl), hkeys2]
      exact htargetperm
  · rw [List.concat_eq_append] at *
    rw [lastL_concat] at hgref2
    obtain ⟨hsegR1', hsegP2⟩ := hsegR1.split (r₁') ([(p2, vp2)])
    obtain ⟨xp, hgp2, hrestp2, hhp2⟩ := hsegP2.cons_inv
    have hxp : xp = Link.key ref := hrestp2.nil_inv
    subst hxp
    have hp2k : p2 ≠ k := by
      intro hcon
      exact hkR1 (by simp [hcon])
    have hp2ref : p2 ≠ ref := by
      intro hcon
      exact hrefR1 (by simp [hcon])
    have hp2R1' : p2 ∉ r₁'.map Prod.fst := by
      have := hndR1
      simp only [List.map_append, List.map_cons, List.map_nil, List.nodup_append] at this
      intro hin
      exact this.2.2 hin (by simp)
    have hh2 : headL (Link.key ref) [(p2, vp2)] = Link.key p2 := rfl
    rw [hh2] at hsegR1' hsegP2
    have hg3ref : dictGet (dictSet s2.entries k ⟨Link.key p2, vk, Link.key ref⟩) ref =
        some ⟨Link.key p2, vr, headL Link.nil r₂⟩ := by
      rw [dictGet_dictSet, if_neg hrk]
      exact hgref2
    have hg4p2 : dictGet (dictSet (dictSet s2.entries k ⟨Link.key p2, vk, Link.key ref⟩) ref
        ⟨Link.key k, vr, headL Link.nil r₂⟩) p2 =
        some ⟨lastL Link.nil r₁', vp2, Link.key ref⟩ := by
      rw [dictGet_dictSet, if_neg hp2ref, dictGet_dictSet, if_neg hp2k]
      exact hgp2
    have hrun : s.movebefore ref k = Except.ok
        ⟨dictSet (dictSet (dictSet s2.entries k ⟨Link.key p2, vk, Link.key ref⟩) ref
            ⟨Link.key k, vr, headL Link.nil r₂⟩) p2
          ⟨lastL Link.nil r₁', vp2, Link.key k⟩, s2.lh, s2.lt⟩ := by
      rw [Odict.movebefore, if_neg hrk, hgk, heref]
      simp only [hs2eq, hgref2, Option.getD, lastL_concat, Odict.setLinks, hgk2, hgp2,
        Odict.updPrev, hg3ref, Odict.updNext, hg4p2]
    refine ⟨_, hrun, ?_, ?_, ?_, hndT⟩
    · show Seg _ Link.nil s2.lh ((r₁' ++ [(p2, vp2)]) ++ (k, vk) :: (ref, vr) :: r₂) Link.nil
      rw [List.append_assoc]
      refine Seg.append (m := Link.key p2) ?_ ?_
      · refine hsegR1'.frame ?_
        intro k' hk'
        have hk'p2 : k' ≠ p2 := fun hcon => hp2R1' (hcon ▸ hk')
        have hk'k : k' ≠ k := by
          intro hcon
          rw [hcon] at hk'
          exact hkR1 (by simp only [List.map_append]; exact List.mem_append_left _ hk')
        have hk'ref : k' ≠ ref := by
          intro hcon
          rw [hcon] at hk'
          exact hrefR1 (by simp only [List.map_append]; exact List.mem_append_left _ hk')
        rw [dictGet_dictSet, if_neg hk'p2, dictGet_dictSet, if_neg hk'ref,
          dictGet_dictSet, if_neg hk'k]
      · show Seg _ (lastL Link.nil r₁') (Link.key p2)
          ((p2, vp2) :: (k, vk) :: (ref, vr) :: r₂) Link.nil
        refine Seg.consx (Link.key k) ?_
          (Seg.consx (Link.key ref) ?_ (Seg.consx (headL Link.nil r₂) ?_ ?_))
        · rw [dictGet_dictSet, if_pos rfl]
        · rw [dictGet_dictSet, if_neg hp2k.symm, dictGet_dictSet, if_neg hkref,
            dictGet_dictSet, if_pos rfl]
        · rw [dictGet_dictSet, if_neg hp2ref.symm, dictGet_dictSet, if_pos rfl]
        · refine hsegR2.frame ?_
          intro k' hk'
          have hk'p2 : k' ≠ p2 := by
            intro hcon
            rw [hcon] at hk'
            exact hdisjT (a := p2) (by simp) (by simp [hk'])
          have hk'k : k' ≠ k := fun hcon => hkR2 (hcon ▸ hk')
          have hk'ref : k' ≠ ref := fun hcon => hrefR2 (hcon ▸ hk')
          rw [dictGet_dictSet, if_neg hk'p2, dictGet_dictSet, if_neg hk'ref,
            dictGet_dictSet, if_neg hk'k]
    · rw [hlt2]
      simp [lastL_append, lastL]
    · show ((dictSet (dictSet (dictSet s2.entries k ⟨Link.key p2, vk, Link.key ref⟩) ref
          ⟨Link.key k, vr, headL Link.nil r₂⟩) p2
            ⟨lastL Link.nil r₁', vp2, Link.key k⟩).map Prod.fst).Perm _
      rw [mapFst_dictSet_mem _ _ _ (by rw [← dictGet_isSome_iff, hg4p2]; rfl),
        mapFst_dictSet_mem _ _ _ (by rw [← dictGet_isSome_iff, hg3ref]; rfl),
        mapFst_dictSet_mem _ _ _ (by rw [← dictGet_isSome_iff, hgk2]; rfl), hkeys2]
      exact htargetperm

/-- `moveafter` on a represented state: `key` is unlinked and relinked
immediately after `ref`, values unchanged. -/
theorem moveafter_represents {s : Odict} {l₁ l₂ r₁ r₂ : List (Nat × Nat)}
    {k vk ref vr : Nat}
    (h : Represents s (l₁ ++ (k, vk) :: l₂)) (hrk : ref ≠ k)
    (hsplit : l₁ ++ l₂ = r₁ ++ (ref, vr) :: r₂) :
    ∃ s', s.moveafter ref k = Except.ok s' ∧
      Represents s' (r₁ ++ (ref, vr) :: (k, vk) :: r₂) := by
  obtain ⟨hseg1, hseg2⟩ := h.seg.split (l₁) ((k, vk) :: l₂)
  obtain ⟨x1, hgk, hsegB, hhd⟩ := hseg2.cons_inv
  have hx1 : x1 = headL Link.nil l₂ := hsegB.head_eq
  subst hx1
  have hrefmem : ref ∈ s.entries.map Prod.fst := by
    rw [h.mem_iff]
    have : ref ∈ (l₁ ++ l₂).map Prod.fst := by rw [hsplit]; simp
    simp only [List.map_append, List.mem_append] at this
    rcases this with hin | hin
    · simp [hin]
    · simp [hin]
  obtain ⟨eref, heref⟩ : ∃ e, dictGet s.entries ref = some e := by
    rcases hget : dictGet s.entries ref with _ | e
    · rw [dictGet_eq_none_iff] at hget
      exact absurd hrefmem hget
    · exact ⟨e, rfl⟩
  obtain ⟨s2, hs2eq, hseg2', hlt2, hkeys2, hgk2⟩ := spliceOut_spec h
  rw [hsplit] at hseg2' hlt2
  obtain ⟨hsegR1, hsegRref⟩ := hseg2'.split (r₁) ((ref, vr) :: r₂)
  obtain ⟨xr, hgref2, hsegR2, hhdr⟩ := hsegRref.cons_inv
  have hxr : xr = headL Link.nil r₂ := hsegR2.head_eq
  subst hxr
  have hhr : headL Link.nil ((ref, vr) :: r₂) = Link.key ref := rfl
  rw [hhr] at hsegR1 hsegRref
  have htargetperm : (s.entries.map Prod.fst).Perm
      ((r₁ ++ (ref, vr) :: (k, vk) :: r₂).map Prod.fst) := by
    refine h.perm.trans ?_
    have hshape : (r₁ ++ (ref, vr) :: (k, vk) :: r₂).map Prod.fst =
        (r₁.map Prod.fst ++ [ref]) ++ k :: r₂.map Prod.fst := by simp
    rw [hshape]
    simp only [List.map_append, List.map_cons]
    refine perm_move _ _ _ _ _ ?_
    have := congrArg (List.map Prod.fst) hsplit
    simpa using this
  have hndT : ((r₁ ++ (ref, vr) :: (k, vk) :: r₂).map Prod.fst).Nodup := by
    rw [← List.Perm.nodup_iff htargetperm]
    exact h.entries_nodup
  have hndT' : (((r₁ ++ [(ref, vr)]) ++ (k, vk) :: r₂).map Prod.fst).Nodup := by
    rw [show (r₁ ++ [(ref, vr)]) ++ (k, vk) :: r₂ = r₁ ++ (ref, vr) :: (k, vk) :: r₂ from by simp]
    exact hndT
  obtain ⟨hkRA, hkR2, hdisjT, hndRA, hndR2⟩ := nodup_mid hndT'
  have hkref : k ≠ ref := fun hcon => hkRA (by simp [hcon])
  have hkR1 : k ∉ r₁.map Prod.fst := fun hin => hkRA (by simp [hin])
  have hrefR2 : ref ∉ r₂.map Prod.fst := fun hin => hdisjT (a := ref) (by simp) hin
  have hrefR1 : ref ∉ r₁.map Prod.fst := by
    have := hndRA
    simp only [List.map_append, List.map_cons, List.map_nil, List.nodup_append] at this
    intro hin
    exact this.2.2 hin (by simp)
  cases r₂ with
  | nil =>
    have hgref2' : dictGet s2.entries ref = some ⟨lastL Link.nil r₁, vr, Link.nil⟩ := hgref2
    have hg3ref : dictGet (dictSet s2.entries k ⟨Link.key ref, vk, Link.nil⟩) ref =
        some ⟨lastL Link.nil r₁, vr, Link.nil⟩ := by
      rw [dictGet_dictSet, if_neg hrk]
      exact hgref2'
    have hrun : s.moveafter ref k = Except.ok
        ⟨dictSet (dictSet s2.entries k ⟨Link.key ref, vk, Link.nil⟩) ref
          ⟨lastL Link.nil r₁, vr, Link.key k⟩, s2.lh, Link.key k⟩ := by
      rw [Odict.moveafter, if_neg hrk, hgk, heref]
      simp only [hs2eq, hgref2', Option.getD, Odict.setLinks, hgk2,
        Odict.updNext, hg3ref]
    refine ⟨_, hrun, ?_, ?_, ?_, hndT⟩
    · show Seg _ Link.nil s2.lh (r₁ ++ (ref, vr) :: (k, vk) :: []) Link.nil
      refine Seg.append (m := Link.key ref) ?_ ?_
      · refine hsegR1.frame ?_
        intro k' hk'
        have hk'k : k' ≠ k := fun hcon => hkR1 (hcon ▸ hk')
        have hk'ref : k' ≠ ref := fun hcon => hrefR1 (hcon ▸ hk')
        rw [dictGet_dictSet, if_neg hk'ref, dictGet_dictSet, if_neg hk'k]
      · refine Seg.consx (Link.key k) ?_ (Seg.consx (Link.nil) ?_ (Seg.nil _ _))
        · rw [dictGet_dictSet, if_pos rfl]
        · rw [dictGet_dictSet, if_neg hkref, dictGet_dictSet, if_pos rfl]
    · simp [lastL_append, lastL]
    · show ((dictSet (dictSet s2.entries k ⟨Link.key ref, vk, Link.nil⟩) ref
          ⟨lastL Link.nil r₁, vr, Link.key k⟩).map Prod.fst).Perm _
      rw [mapFst_dictSet_mem _ _ _ (by rw [← dictGet_isSome_iff, hg3ref]; rfl),
        mapFst_dictSet_mem _ _ _ (by rw [← dictGet_isSome_iff, hgk2]; rfl), hkeys2]
      exact htargetperm
  | cons hd2 r₂' =>
    obtain ⟨n, vn⟩ := hd2
    obtain ⟨x2, hgn, hsegR2', hhn⟩ := hsegR2.cons_inv
    have hnk : n ≠ k := by
      intro hcon
      exact hkR2 (by simp [hcon])
    have hnref : n ≠ ref := by
      intro hcon
      exact hrefR2 (by simp [hcon])
    have hnR2' : n ∉ r₂'.map Prod.fst := by
      have := hndR2
      simp only [List.map_cons, List.nodup_cons] at this
      exact this.1
    have hg3ref : dictGet (dictSet s2.entries k ⟨Link.key ref, vk, Link.key n⟩) ref =
        some ⟨lastL Link.nil r₁, vr, Link.key n⟩ := by
      rw [dictGet_dictSet, if_neg hrk]
      exact hgref2
    have hg4n : dictGet (dictSet (dictSet s2.entries k ⟨Link.key ref, vk, Link.key n⟩) ref
        ⟨lastL Link.nil r₁, vr, Link.key k⟩) n = some ⟨Link.key ref, vn, x2⟩ := by
      rw [dictGet_dictSet, if_neg hnref, dictGet_dictSet, if_neg hnk]
      exact hgn
    have hgref2n : dictGet s2.entries ref = some ⟨lastL Link.nil r₁, vr, Link.key n⟩ := hgref2
    have hrun : s.moveafter ref k = Except.ok
        ⟨dictSet (dictSet (dictSet s2.entries k ⟨Link.key ref, vk, Link.key n⟩) ref
            ⟨lastL Link.nil r₁, vr, Link.key k⟩) n
          ⟨Link.key k, vn, x2⟩, s2.lh, s2.lt⟩ := by
      rw [Odict.moveafter, if_neg hrk, hgk, heref]
      simp only [hs2eq, hgref2n, Option.getD, Odict.setLinks, hgk2,
        Odict.updNext, hg3ref, Odict.updPrev, hg4n]
    refine ⟨_, hrun, ?_, ?_, ?_, hndT⟩
    · show Seg _ Link.nil s2.lh (r₁ ++ (ref, vr) :: (k, vk) :: (n, vn) :: r₂') Link.nil
      refine Seg.append (m := Link.key ref) ?_ ?_
      · refine hsegR1.frame ?_
        intro k' hk'
        have hk'k : k' ≠ k := fun hcon => hkR1 (hcon ▸ hk')
        have hk'ref : k' ≠ ref := fun hcon => hrefR1 (hcon ▸ hk')
        have hk'n : k' ≠ n := by
          intro hcon
          rw [hcon] at hk'
          exact hdisjT (a := n) (by simp only [List.map_append]; exact List.mem_append_left _ hk')
            (by simp)
        rw [dictGet_dictSet, if_neg hk'n, dictGet_dictSet, if_neg hk'ref,
          dictGet_dictSet, if_neg hk'k]
      · refine Seg.consx (Link.key k) ?_ (Seg.consx (Link.key n) ?_
          (Seg.consx (x2) ?_ ?_))
        · rw [dictGet_dictSet, if_neg (fun hcon => hnref hcon.symm), dictGet_dictSet, if_pos rfl]
        · rw [dictGet_dictSet, if_neg (fun hcon => hnk hcon.symm), dictGet_dictSet,
            if_neg hkref, dictGet_dictSet, if_pos rfl]
        · rw [dictGet_dictSet, if_pos rfl]
        · refine hsegR2'.frame ?_
          intro k' hk'
          have hk'k : k' ≠ k := fun hcon => hkR2 (by simp [hcon ▸ hk'])
          have hk'ref : k' ≠ ref := fun hcon => hrefR2 (by simp [hcon ▸ hk'])
          have hk'n : k' ≠ n := fun hcon => hnR2' (hcon ▸ hk')
          rw [dictGet_dictSet, if_neg hk'n, dictGet_dictSet, if_neg hk'ref,
            dictGet_dictSet, if_neg hk'k]
    · rw [hlt2]
      simp [lastL_append, lastL]
    · show ((dictSet (dictSet (dictSet s2.entries k ⟨Link.key ref, vk, Link.key n⟩) ref
          ⟨lastL Link.nil r₁, vr, Link.key k⟩) n ⟨Link.key k, vn, x2⟩).map Prod.fst).Perm _
      rw [mapFst_dictSet_mem _ _ _ (by rw [← dictGet_isSome_iff, hg4n]; rfl),
        mapFst_dictSet_mem _ _ _ (by rw [← dictGet_isSome_iff, hg3ref]; rfl),
        mapFst_dictSet_mem _ _ _ (by rw [← dictGet_isSome_iff, hgk2]; rfl), hkeys2]
      exact htargetperm

theorem listIndex_append (A B : List Nat) (x : Nat) (hx : x ∉ A) :
    listIndex x (A ++ x :: B) = some A.length := by
  induction A with
  | nil => simp [listIndex]
  | cons a A' ih =>
    simp only [List.cons_append, listIndex, List.append_eq]
    rw [if_neg (fun hcon => hx (by simp [hcon])),
      ih (fun hin => hx (List.mem_cons_of_mem _ hin))]
    rfl

theorem get?_mid_last (A B : List Nat) (p : Nat) :
    ((A ++ [p]) ++ B).get? A.length = some p := by
  induction A with
  | nil => rfl
  | cons a A' ih => simpa using ih

theorem get?_mid_next (A B : List Nat) (x y : Nat) :
    (A ++ x :: y :: B).get? (A.length + 1) = some y := by
  induction A with
  | nil => rfl
  | cons a A' ih => simpa using ih

/-- `insertbefore` on a represented state with a fresh key: the new record is
linked immediately before `ref`. -/
theorem insertbefore_represents {s : Odict} {r₁ r₂ : List (Nat × Nat)} {k v ref vr : Nat}
    (h : Represents s (r₁ ++ (ref, vr) :: r₂)) (hrk : ref ≠ k)
    (hknot : k ∉ (r₁ ++ (ref, vr) :: r₂).map Prod.fst) :
    ∃ s', s.insertbefore ref k v = Except.ok s' ∧
      Represents s' (r₁ ++ (k, v) :: (ref, vr) :: r₂) := by
  obtain ⟨hseg1, hseg2⟩ := h.seg.split (r₁) ((ref, vr) :: r₂)
  obtain ⟨x1, hgref, hsegB, hhd⟩ := hseg2.cons_inv
  have hx1 : x1 = headL Link.nil r₂ := hsegB.head_eq
  subst hx1
  have hh1 : headL Link.nil ((ref, vr) :: r₂) = Link.key ref := rfl
  rw [hh1] at hseg1 hseg2
  obtain ⟨hrefR1, hrefR2, hdisj, hndR1, hndR2⟩ := nodup_mid h.nodup
  have hkR1 : k ∉ r₁.map Prod.fst := fun hin => hknot (by simp [hin])
  have hkR2 : k ∉ r₂.map Prod.fst := fun hin => hknot (by simp [hin])
  have hkd : k ∉ s.entries.map Prod.fst := fun hin => hknot ((h.mem_iff k).mp hin)
  have hidx : listIndex ref s.keys = some (r₁.map Prod.fst).length := by
    rw [h.keys_eq]
    simp only [List.map_append, List.map_cons]
    exact listIndex_append _ _ _ hrefR1
  have htargetperm : (s.entries.map Prod.fst ++ [k]).Perm
      ((r₁ ++ (k, v) :: (ref, vr) :: r₂).map Prod.fst) := by
    refine List.Perm.trans (List.perm_append_singleton k _) ?_
    refine List.Perm.trans (List.Perm.cons k h.perm) ?_
    simp only [List.map_append, List.map_cons]
    exact List.perm_middle.symm
  have hndT : ((r₁ ++ (k, v) :: (ref, vr) :: r₂).map Prod.fst).Nodup := by
    rw [← List.Perm.nodup_iff htargetperm]
    refine List.Nodup.append h.entries_nodup (List.nodup_singleton k) ?_
    intro a ha hb
    simp only [List.mem_singleton] at hb
    exact hkd (hb ▸ ha)
  rcases List.eq_nil_or_concat r₁ with rfl | ⟨r₁', ⟨p, vp⟩, rfl⟩
  · have hgref' : dictGet s.entries ref = some ⟨Link.nil, vr, headL Link.nil r₂⟩ := hgref
    have hrun : s.insertbefore ref k v = Except.ok
        ⟨dictSet (dictSet s.entries ref ⟨Link.key k, vr, headL Link.nil r₂⟩) k
          ⟨Link.nil, v, Link.key ref⟩, Link.key k, s.lt⟩ := by
      simp only [Odict.insertbefore, if_neg hrk, hidx, List.map_nil, List.length_nil,
        lt_self_iff_false, if_false, Odict.updPrev, hgref']
    refine ⟨_, hrun, ?_, ?_, ?_, hndT⟩
    · show Seg _ Link.nil (Link.key k) ([] ++ (k, v) :: (ref, vr) :: r₂) Link.nil
      rw [List.nil_append]
      have hkref : k ≠ ref := fun hcon => hrk hcon.symm
      refine Seg.consx (Link.key ref) ?_ (Seg.consx (headL Link.nil r₂) ?_ ?_)
      · rw [dictGet_dictSet, if_pos rfl]
      · rw [dictGet_dictSet, if_neg hrk, dictGet_dictSet, if_pos rfl]
      · refine hsegB.frame ?_
        intro k' hk'
        have hk'k : k' ≠ k := fun hcon => hkR2 (hcon ▸ hk')
        have hk'ref : k' ≠ ref := fun hcon => hrefR2 (hcon ▸ hk')
        rw [dictGet_dictSet, if_neg hk'k, dictGet_dictSet, if_neg hk'ref]
    · rw [h.tail_eq]
      rfl
    · show ((dictSet (dictSet s.entries ref ⟨Link.key k, vr, headL Link.nil r₂⟩) k
          ⟨Link.nil, v, Link.key ref⟩).map Prod.fst).Perm _
      rw [mapFst_dictSet_new _ _ _ (by
          rw [mapFst_dictSet_mem _ _ _ (by rw [← dictGet_isSome_iff, hgref']; rfl)]
          exact hkd),
        mapFst_dictSet_mem _ _ _ (by rw [← dictGet_isSome_iff, hgref']; rfl)]
      exact htargetperm
  · rw [List.concat_eq_append] at *
    rw [lastL_concat] at hgref
    obtain ⟨hsegR1', hsegP⟩ := hseg1.split (r₁') ([(p, vp)])
    obtain ⟨xp, hgp, hrestp, hhp⟩ := hsegP.cons_inv
    have hxp : xp = Link.key ref := hrestp.nil_inv
    subst hxp
    have hpk : p ≠ k := fun hcon => hkR1 (by simp [hcon])
    have hpref : p ≠ ref := fun hcon => hrefR1 (by simp [hcon])
    have hpR1' : p ∉ r₁'.map Prod.fst := by
      have := hndR1
      simp only [List.map_append, List.map_cons, List.map_nil, List.nodup_append] at this
      intro hin
      exact this.2.2 hin (by simp)
    have hh2 : headL (Link.key ref) [(p, vp)] = Link.key p := rfl
    rw [hh2] at hsegR1' hsegP
    have hgetp : s.keys.get? (((r₁' ++ [(p, vp)]).map Prod.fst).length - 1) = some p := by
      rw [h.keys_eq]
      simp only [List.map_append, List.map_cons, List.map_nil, List.length_append,
        List.length_cons, List.length_nil]
      have hlen : (r₁'.map Prod.fst).length + (0 + 1) - 1 = (r₁'.map Prod.fst).length := by omega
      rw [hlen]
      exact get?_mid_last _ _ _
    have hgref1 : dictGet (dictSet s.entries p ⟨lastL Link.nil r₁', vp, Link.key k⟩) ref =
        some ⟨Link.key p, vr, headL Link.nil r₂⟩ := by
      rw [dictGet_dictSet, if_neg hpref.symm]
      exact hgref
    have hlen : (List.map Prod.fst (r₁' ++ [(p, vp)])).length = r₁'.length + 1 := by simp
    rw [hlen] at hidx hgetp
    rw [show r₁'.length + 1 - 1 = r₁'.length from by omega] at hgetp
    have hrun : s.insertbefore ref k v = Except.ok
        ⟨dictSet (dictSet (dictSet s.entries p ⟨lastL Link.nil r₁', vp, Link.key k⟩) ref
            ⟨Link.key k, vr, headL Link.nil r₂⟩) k
          ⟨Link.key p, v, Link.key ref⟩, s.lh, s.lt⟩ := by
      simp only [Odict.insertbefore, if_neg hrk, hidx, Nat.zero_lt_succ, if_true,
        Nat.add_sub_cancel, hgetp, Odict.updNext, hgp, Odict.updPrev, hgref1]
    refine ⟨_, hrun, ?_, ?_, ?_, hndT⟩
    · show Seg _ Link.nil s.lh ((r₁' ++ [(p, vp)]) ++ (k, v) :: (ref, vr) :: r₂) Link.nil
      rw [List.append_assoc]
      refine Seg.append (m := Link.key p) ?_ ?_
      · refine hsegR1'.frame ?_
        intro k' hk'
        have hk'p : k' ≠ p := fun hcon => hpR1' (hcon ▸ hk')
        have hk'k : k' ≠ k := by
          intro hcon
          rw [hcon] at hk'
          exact hkR1 (by simp only [List.map_append]; exact List.mem_append_left _ hk')
        have hk'ref : k' ≠ ref := by
          intro hcon
          rw [hcon] at hk'
          exact hrefR1 (by simp only [List.map_append]; exact List.mem_append_left _ hk')
        rw [dictGet_dictSet, if_neg hk'k, dictGet_dictSet, if_neg hk'ref,
          dictGet_dictSet, if_neg hk'p]
      · show Seg _ (lastL Link.nil r₁') (Link.key p)
          ((p, vp) :: (k, v) :: (ref, vr) :: r₂) Link.nil
        refine Seg.consx (Link.key k) ?_ (Seg.consx (Link.key ref) ?_
          (Seg.consx (headL Link.nil r₂) ?_ ?_))
        · rw [dictGet_dictSet, if_neg hpk, dictGet_dictSet, if_neg hpref,
            dictGet_dictSet, if_pos rfl]
        · rw [dictGet_dictSet, if_pos rfl]
        · rw [dictGet_dictSet, if_neg hrk, dictGet_dictSet, if_pos rfl]
        · refine hsegB.frame ?_
          intro k' hk'
          have hk'k : k' ≠ k := fun hcon => hkR2 (hcon ▸ hk')
          have hk'ref : k' ≠ ref := fun hcon => hrefR2 (hcon ▸ hk')
          have hk'p : k' ≠ p := by
            intro hcon
            rw [hcon] at hk'
            exact hdisj (a := p) (by simp) hk'
          rw [dictGet_dictSet, if_neg hk'k, dictGet_dictSet, if_neg hk'ref,
            dictGet_dictSet, if_neg hk'p]
    · rw [h.tail_eq]
      simp [lastL_append, lastL]
    · show ((dictSet (dictSet (dictSet s.entries p ⟨lastL Link.nil r₁', vp, Link.key k⟩) ref
          ⟨Link.key k, vr, headL Link.nil r₂⟩) k
            ⟨Link.key p, v, Link.key ref⟩).map Prod.fst).Perm _
      rw [mapFst_dictSet_new _ _ _ (by
          rw [mapFst_dictSet_mem _ _ _ (by rw [← dictGet_isSome_iff, hgref1]; rfl),
            mapFst_dictSet_mem _ _ _ (by rw [← dictGet_isSome_iff, hgp]; rfl)]
          exact hkd),
        mapFst_dictSet_mem _ _ _ (by rw [← dictGet_isSome_iff, hgref1]; rfl),
        mapFst_dictSet_mem _ _ _ (by rw [← dictGet_isSome_iff, hgp]; rfl)]
      exact htargetperm

/-- `insertafter` on a represented state with a fresh key: the new record is
linked immediately after `ref`. -/
theorem insertafter_represents {s : Odict} {r₁ r₂ : List (Nat × Nat)} {k v ref vr : Nat}
    (h : Represents s (r₁ ++ (ref, vr) :: r₂)) (hrk : ref ≠ k)
    (hknot : k ∉ (r₁ ++ (ref, vr) :: r₂).map Prod.fst) :
    ∃ s', s.insertafter ref k v = Except.ok s' ∧
      Represents s' (r₁ ++ (ref, vr) :: (k, v) :: r₂) := by
  obtain ⟨hseg1, hseg2⟩ := h.seg.split (r₁) ((ref, vr) :: r₂)
  obtain ⟨x1, hgref, hsegB, hhd⟩ := hseg2.cons_inv
  have hx1 : x1 = headL Link.nil r₂ := hsegB.head_eq
  subst hx1
  have hh1 : headL Link.nil ((ref, vr) :: r₂) = Link.key ref := rfl
  rw [hh1] at hseg1 hseg2
  obtain ⟨hrefR1, hrefR2, hdisj, hndR1, hndR2⟩ := nodup_mid h.nodup
  have hkR1 : k ∉ r₁.map Prod.fst := fun hin => hknot (by simp [hin])
  have hkR2 : k ∉ r₂.map Prod.fst := fun hin => hknot (by simp [hin])
  have hkd : k ∉ s.entries.map Prod.fst := fun hin => hknot ((h.mem_iff k).mp hin)
  have hkref : k ≠ ref := fun hcon => hrk hcon.symm
  have hidx : listIndex ref s.keys = some (r₁.map Prod.fst).length := by
    rw [h.keys_eq]
    simp only [List.map_append, List.map_cons]
    exact listIndex_append _ _ _ hrefR1
  have hkeyslen : s.keys.length = (r₁.map Prod.fst).length + 1 + (r₂.map Prod.fst).length := by
    rw [h.keys_eq]
    simp
    omega
  have htargetperm : (s.entries.map Prod.fst ++ [k]).Perm
      ((r₁ ++ (ref, vr) :: (k, v) :: r₂).map Prod.fst) := by
    refine List.Perm.trans (List.perm_append_singleton k _) ?_
    refine List.Perm.trans (List.Perm.cons k h.perm) ?_
    have hshape : (r₁ ++ (ref, vr) :: (k, v) :: r₂).map Prod.fst =
        (r₁.map Prod.fst ++ [ref]) ++ k :: r₂.map Prod.fst := by simp
    rw [hshape]
    have hshape2 : (r₁ ++ (ref, vr) :: r₂).map Prod.fst =
        (r₁.map Prod.fst ++ [ref]) ++ r₂.map Prod.fst := by simp
    rw [hshape2]
    exact List.perm_middle.symm
  have hndT : ((r₁ ++ (ref, vr) :: (k, v) :: r₂).map Prod.fst).Nodup := by
    rw [← List.Perm.nodup_iff htargetperm]
    refine List.Nodup.append h.entries_nodup (List.nodup_singleton k) ?_
    intro a ha hb
    simp only [List.mem_singleton] at hb
    exact hkd (hb ▸ ha)
  cases r₂ with
  | nil =>
    have hgref' : dictGet s.entries ref = some ⟨lastL Link.nil r₁, vr, Link.nil⟩ := hgref
    have hcond : ¬ ((r₁.map Prod.fst).length < s.keys.length - 1) := by
      rw [hkeyslen]
      simp
    have hrun : s.insertafter ref k v = Except.ok
        ⟨dictSet (dictSet s.entries ref ⟨lastL Link.nil r₁, vr, Link.key k⟩) k
          ⟨Link.key ref, v, Link.nil⟩, s.lh, Link.key k⟩ := by
      simp only [Odict.insertafter, if_neg hrk, hidx, if_neg hcond,
        Odict.updNext, hgref']
    refine ⟨_, hrun, ?_, ?_, ?_, hndT⟩
    · show Seg _ Link.nil s.lh (r₁ ++ (ref, vr) :: (k, v) :: []) Link.nil
      refine Seg.append (m := Link.key ref) ?_ ?_
      · refine hseg1.frame ?_
        intro k' hk'
        have hk'k : k' ≠ k := fun hcon => hkR1 (hcon ▸ hk')
        have hk'ref : k' ≠ ref := fun hcon => hrefR1 (hcon ▸ hk')
        rw [dictGet_dictSet, if_neg hk'k, dictGet_dictSet, if_neg hk'ref]
      · refine Seg.consx (Link.key k) ?_ (Seg.consx (Link.nil) ?_ (Seg.nil _ _))
        · rw [dictGet_dictSet, if_neg hkref.symm, dictGet_dictSet, if_pos rfl]
        · rw [dictGet_dictSet, if_pos rfl]
    · simp [lastL_append, lastL]
    · show ((dictSet (dictSet s.entries ref ⟨lastL Link.nil r₁, vr, Link.key k⟩) k
          ⟨Link.key ref, v, Link.nil⟩).map Prod.fst).Perm _
      rw [mapFst_dictSet_new _ _ _ (by
          rw [mapFst_dictSet_mem _ _ _ (by rw [← dictGet_isSome_iff, hgref']; rfl)]
          exact hkd),
        mapFst_dictSet_mem _ _ _ (by rw [← dictGet_isSome_iff, hgref']; rfl)]
      exact htargetperm
  | cons hd2 r₂' =>
    obtain ⟨n, vn⟩ := hd2
    obtain ⟨x2, hgn, hsegB', hhn⟩ := hsegB.cons_inv
    have hgrefn : dictGet s.entries ref = some ⟨lastL Link.nil r₁, vr, Link.key n⟩ := hgref
    have hnk : n ≠ k := fun hcon => hkR2 (by simp [hcon])
    have hnref : n ≠ ref := fun hcon => hrefR2 (by simp [hcon])
    have hnR2' : n ∉ r₂'.map Prod.fst := by
      have := hndR2
      simp only [List.map_cons, List.nodup_cons] at this
      exact this.1
    have hcond : (r₁.map Prod.fst).length < s.keys.length - 1 := by
      rw [hkeyslen]
      simp
      omega
    have hgetn : s.keys.get? ((r₁.map Prod.fst).length + 1) = some n := by
      rw [h.keys_eq]
      simp only [List.map_append, List.map_cons]
      exact get?_mid_next _ _ _ _
    have hgref1 : dictGet (dictSet s.entries n ⟨Link.key k, vn, x2⟩) ref =
        some ⟨lastL Link.nil r₁, vr, Link.key n⟩ := by
      rw [dictGet_dictSet, if_neg hnref.symm]
      exact hgrefn
    have hrun : s.insertafter ref k v = Except.ok
        ⟨dictSet (dictSet (dictSet s.entries n ⟨Link.key k, vn, x2⟩) ref
            ⟨lastL Link.nil r₁, vr, Link.key k⟩) k
          ⟨Link.key ref, v, Link.key n⟩, s.lh, s.lt⟩ := by
      simp only [Odict.insertafter, if_neg hrk, hidx, if_pos hcond, hgetn,
        Odict.updPrev, hgn, Odict.updNext, hgref1]
    refine ⟨_, hrun, ?_, ?_, ?_, hndT⟩
    · show Seg _ Link.nil s.lh (r₁ ++ (ref, vr) :: (k, v) :: (n, vn) :: r₂') Link.nil
      refine Seg.append (m := Link.key ref) ?_ ?_
      · refine hseg1.frame ?_
        intro k' hk'
        have hk'k : k' ≠ k := fun hcon => hkR1 (hcon ▸ hk')
        have hk'ref : k' ≠ ref := fun hcon => hrefR1 (hcon ▸ hk')
        have hk'n : k' ≠ n := by
          intro hcon
          rw [hcon] at hk'
          exact hdisj (a := n) hk' (by simp)
        rw [dictGet_dictSet, if_neg hk'k, dictGet_dictSet, if_neg hk'ref,
          dictGet_dictSet, if_neg hk'n]
      · refine Seg.consx (Link.key k) ?_ (Seg.consx (Link.key n) ?_
          (Seg.consx (x2) ?_ ?_))
        · rw [dictGet_dictSet, if_neg hkref.symm, dictGet_dictSet, if_pos rfl]
        · rw [dictGet_dictSet, if_pos rfl]
        · rw [dictGet_dictSet, if_neg hnk, dictGet_dictSet, if_neg hnref,
            dictGet_dictSet, if_pos rfl]
        · refine hsegB'.frame ?_
          intro k' hk'
          have hk'k : k' ≠ k := fun hcon => hkR2 (by simp [hcon ▸ hk'])
          have hk'ref : k' ≠ ref := fun hcon => hrefR2 (by simp [hcon ▸ hk'])
          have hk'n : k' ≠ n := fun hcon => hnR2' (hcon ▸ hk')
          rw [dictGet_dictSet, if_neg hk'k, dictGet_dictSet, if_neg hk'ref,
            dictGet_dictSet, if_neg hk'n]
    · rw [h.tail_eq]
      simp [lastL_append, lastL]
    · show ((dictSet (dictSet (dictSet s.entries n ⟨Link.key k, vn, x2⟩) ref
          ⟨lastL Link.nil r₁, vr, Link.key k⟩) k
            ⟨Link.key ref, v, Link.key n⟩).map Prod.fst).Perm _
      rw [mapFst_dictSet_new _ _ _ (by
          rw [mapFst_dictSet_mem _ _ _ (by rw [← dictGet_isSome_iff, hgref1]; rfl),
            mapFst_dictSet_mem _ _ _ (by rw [← dictGet_isSome_iff, hgn]; rfl)]
          exact hkd),
        mapFst_dictSet_mem _ _ _ (by rw [← dictGet_isSome_iff, hgref1]; rfl),
        mapFst_dictSet_mem _ _ _ (by rw [← dictGet_isSome_iff, hgn]; rfl)]
      exact htargetperm

/-! Projection lemmas for the guarded-statement helpers, used to query the
state built by `swap` without unfolding it. -/

theorem updNext_lh (s : Odict) (k : Nat) (x : Link) : (s.updNext k x).lh = s.lh := by
  rw [Odict.updNext.eq_def]
  rcases dictGet s.entries k with _ | e <;> rfl

theorem updNext_lt (s : Odict) (k : Nat) (x : Link) : (s.updNext k x).lt = s.lt := by
  rw [Odict.updNext.eq_def]
  rcases dictGet s.entries k with _ | e <;> rfl

theorem updPrev_lh (s : Odict) (k : Nat) (x : Link) : (s.updPrev k x).lh = s.lh := by
  rw [Odict.updPrev.eq_def]
  rcases dictGet s.entries k with _ | e <;> rfl

theorem updPrev_lt (s : Odict) (k : Nat) (x : Link) : (s.updPrev k x).lt = s.lt := by
  rw [Odict.updPrev.eq_def]
  rcases dictGet s.entries k with _ | e <;> rfl

theorem relinkNext_lh (s : Odict) (x t : Link) : (s.relinkNext x t).lh = s.lh := by
  rw [Odict.relinkNext.eq_def]
  rcases x with _ | p
  · rfl
  · exact updNext_lh s p t

theorem relinkNext_lt (s : Odict) (x t : Link) : (s.relinkNext x t).lt = s.lt := by
  rw [Odict.relinkNext.eq_def]
  rcases x with _ | p
  · rfl
  · exact updNext_lt s p t

theorem relinkPrev_lh (s : Odict) (x t : Link) : (s.relinkPrev x t).lh = s.lh := by
  rw [Odict.relinkPrev.eq_def]
  rcases x with _ | q
  · rfl
  · exact updPrev_lh s q t

theorem relinkPrev_lt (s : Odict) (x t : Link) : (s.relinkPrev x t).lt = s.lt := by
  rw [Odict.relinkPrev.eq_def]
  rcases x with _ | q
  · rfl
  · exact updPrev_lt s q t

theorem relinkNext_keys (s : Odict) (x t : Link) :
    (s.relinkNext x t).entries.map Prod.fst = s.entries.map Prod.fst := by
  rcases x with _ | p
  · rfl
  · show (s.updNext p t).entries.map Prod.fst = _
    rw [Odict.updNext.eq_def]
    rcases hg : dictGet s.entries p with _ | e
    · rfl
    · exact mapFst_dictSet_mem _ _ _ (by rw [← dictGet_isSome_iff, hg]; rfl)

theorem relinkPrev_keys (s : Odict) (x t : Link) :
    (s.relinkPrev x t).entries.map Prod.fst = s.entries.map Prod.fst := by
  rcases x with _ | q
  · rfl
  · show (s.updPrev q t).entries.map Prod.fst = _
    rw [Odict.updPrev.eq_def]
    rcases hg : dictGet s.entries q with _ | e
    · rfl
    · exact mapFst_dictSet_mem _ _ _ (by rw [← dictGet_isSome_iff, hg]; rfl)

theorem relinkNext_get {s : Odict} {k : Nat} {e : Entry}
    (hk : dictGet s.entries k = some e) (x t : Link) :
    dictGet (s.relinkNext x t).entries k =
      some (if x = Link.key k then ⟨e.prev, e.val, t⟩ else e) := by
  rcases x with _ | p
  · show dictGet s.entries k = _
    rw [hk, if_neg (fun hcon => Link.noConfusion hcon)]
  · show dictGet (s.updNext p t).entries k = _
    rw [Odict.updNext.eq_def]
    by_cases hpk : p = k
    · subst hpk
      rw [hk]
      show dictGet (dictSet s.entries p ⟨e.prev, e.val, t⟩) p = _
      rw [dictGet_dictSet, if_pos rfl]
      simp
    · rcases hg : dictGet s.entries p with _ | ep
      · show dictGet s.entries k = _
        rw [hk, if_neg (fun hcon => hpk (Link.key.inj hcon))]
      · show dictGet (dictSet s.entries p ⟨ep.prev, ep.val, t⟩) k = _
        rw [dictGet_dictSet, if_neg (fun hcon => hpk hcon.symm), hk,
          if_neg (fun hcon => hpk (Link.key.inj hcon))]

theorem relinkPrev_get {s : Odict} {k : Nat} {e : Entry}
    (hk : dictGet s.entries k = some e) (x t : Link) :
    dictGet (s.relinkPrev x t).entries k =
      some (if x = Link.key k then ⟨t, e.val, e.next⟩ else e) := by
  rcases x with _ | q
  · show dictGet s.entries k = _
    rw [hk, if_neg (fun hcon => Link.noConfusion hcon)]
  · show dictGet (s.updPrev q t).entries k = _
    rw [Odict.updPrev.eq_def]
    by_cases hqk : q = k
    · subst hqk
      rw [hk]
      show dictGet (dictSet s.entries q ⟨t, e.val, e.next⟩) q = _
      rw [dictGet_dictSet, if_pos rfl]
      simp
    · rcases hg : dictGet s.entries q with _ | eq2
      · show dictGet s.entries k = _
        rw [hk, if_neg (fun hcon => hqk (Link.key.inj hcon))]
      · show dictGet (dictSet s.entries q ⟨t, eq2.val, eq2.next⟩) k = _
        rw [dictGet_dictSet, if_neg (fun hcon => hqk hcon.symm), hk,
          if_neg (fun hcon => hqk (Link.key.inj hcon))]

theorem storeEntry_get (s : Odict) (k k' : Nat) (e : Entry) :
    dictGet (s.storeEntry k e).entries k' = if k' = k then some e else dictGet s.entries k' :=
  dictGet_dictSet _ _ _ _

theorem storeEntry_lh (s : Odict) (k : Nat) (e : Entry) : (s.storeEntry k e).lh = s.lh := rfl

theorem storeEntry_lt (s : Odict) (k : Nat) (e : Entry) : (s.storeEntry k e).lt = s.lt := rfl

theorem storeEntry_keys_mem {s : Odict} {k : Nat} (e : Entry)
    (hk : k ∈ s.entries.map Prod.fst) :
    (s.storeEntry k e).entries.map Prod.fst = s.entries.map Prod.fst :=
  mapFst_dictSet_mem _ _ _ hk

theorem setHeadIfNil_entries (s : Odict) (x : Link) (k : Nat) :
    (s.setHeadIfNil x k).entries = s.entries := by
  rw [Odict.setHeadIfNil]
  by_cases h : x = Link.nil <;> simp [h]

theorem setHeadIfNil_lt (s : Odict) (x : Link) (k : Nat) :
    (s.setHeadIfNil x k).lt = s.lt := by
  rw [Odict.setHeadIfNil]
  by_cases h : x = Link.nil <;> simp [h]

theorem setHeadIfNil_lh (s : Odict) (x : Link) (k : Nat) :
    (s.setHeadIfNil x k).lh = if x = Link.nil then Link.key k else s.lh := by
  rw [Odict.setHeadIfNil]
  by_cases h : x = Link.nil <;> simp [h]

theorem setTailIfNil_entries (s : Odict) (x : Link) (k : Nat) :
    (s.setTailIfNil x k).entries = s.entries := by
  rw [Odict.setTailIfNil]
  by_cases h : x = Link.nil <;> simp [h]

theorem setTailIfNil_lh (s : Odict) (x : Link) (k : Nat) :
    (s.setTailIfNil x k).lh = s.lh := by
  rw [Odict.setTailIfNil]
  by_cases h : x = Link.nil <;> simp [h]

theorem setTailIfNil_lt (s : Odict) (x : Link) (k : Nat) :
    (s.setTailIfNil x k).lt = if x = Link.nil then Link.key k else s.lt := by
  rw [Odict.setTailIfNil]
  by_cases h : x = Link.nil <;> simp [h]

/-! Link shape helpers. -/

theorem lastL_nil_eq_key {l : List (Nat × Nat)} {k : Nat}
    (h : lastL Link.nil l = Link.key k) : k ∈ l.map Prod.fst := by
  rcases List.eq_nil_or_concat l with rfl | ⟨l', ⟨q, vq⟩, rfl⟩
  · exact absurd h (by simp [lastL])
  · rw [List.concat_eq_append, lastL_concat] at h
    injection h with h
    simp [h]

theorem lastL_key_eq_key {a : Nat} {l : List (Nat × Nat)} {k : Nat}
    (h : lastL (Link.key a) l = Link.key k) : k = a ∨ k ∈ l.map Prod.fst := by
  rcases List.eq_nil_or_concat l with rfl | ⟨l', ⟨q, vq⟩, rfl⟩
  · left
    injection h with h
    exact h.symm
  · right
    rw [List.concat_eq_append, lastL_concat] at h
    injection h with h
    simp [h]

theorem headL_nil_eq_key {l : List (Nat × Nat)} {k : Nat}
    (h : headL Link.nil l = Link.key k) : k ∈ l.map Prod.fst := by
  cases l with
  | nil => exact absurd h (by simp [headL])
  | cons hd tl =>
    obtain ⟨k0, v0⟩ := hd
    injection h with h
    simp [headL, h.symm]

theorem Seg.first_prev {d : List (Nat × Entry)} {p x z : Link} {l : List (Nat × Nat)}
    {k : Nat} (h : Seg d p x l z) (hfirst : headL z l = Link.key k) (hne : l ≠ []) :
    ∃ e, dictGet d k = some e ∧ e.prev = p := by
  cases l with
  | nil => exact absurd rfl hne
  | cons hd tl =>
    obtain ⟨k0, v0⟩ := hd
    obtain ⟨x1, hk0, hrest, hx⟩ := h.cons_inv
    obtain rfl : k0 = k := by injection hfirst with hh
    exact ⟨_, hk0, rfl⟩

theorem Seg.last_next {d : List (Nat × Entry)} {p x z : Link} {l : List (Nat × Nat)}
    {k : Nat} (h : Seg d p x l z) (hlast : lastL p l = Link.key k) (hne : l ≠ []) :
    ∃ e, dictGet d k = some e ∧ e.next = z := by
  rcases List.eq_nil_or_concat l with rfl | ⟨l', ⟨q, vq⟩, rfl⟩
  · exact absurd rfl hne
  · rw [List.concat_eq_append] at *
    rw [lastL_concat] at hlast
    obtain rfl : q = k := by injection hlast with hh
    obtain ⟨hs1, hs2⟩ := h.split (l') ([(q, vq)])
    obtain ⟨xq, hgq, hrest, hx⟩ := hs2.cons_inv
    have : xq = z := hrest.nil_inv
    subst this
    exact ⟨_, hgq, rfl⟩

/-- Rebuild a prefix segment whose last record's next link was redirected to
`bn` (the segment's entry head link also moves to `bn` when it is empty). -/
theorem seg_before_piece {d d' : List (Nat × Entry)} {x lh' z : Link}
    {l : List (Nat × Nat)} {bn : Nat}
    (h : Seg d Link.nil x l z) (hnd : (l.map Prod.fst).Nodup)
    (hmod : ∀ k v, (k, v) ∈ l → ∃ e, dictGet d k = some e ∧
        dictGet d' k = some ⟨e.prev, e.val,
          if Link.key k = lastL Link.nil l then Link.key bn else e.next⟩)
    (hlh1 : l = [] → lh' = Link.key bn)
    (hlh2 : l ≠ [] → lh' = x) :
    Seg d' Link.nil lh' l (Link.key bn) := by
  rcases List.eq_nil_or_concat l with rfl | ⟨l', kv, rfl⟩
  · rw [hlh1 rfl]
    exact Seg.nil _ _
  · rw [List.concat_eq_append] at *
    rw [hlh2 (by simp)]
    refine h.retargetBoth (by simp) hnd ?_
    intro k v hkv
    obtain ⟨e, hg, hg'⟩ := hmod k v hkv
    refine ⟨e, hg, ?_⟩
    rw [hg']
    by_cases hfirst : Link.key k = headL z (l' ++ [kv])
    · obtain ⟨e2, hg2, hprev⟩ := h.first_prev hfirst.symm (by simp)
      obtain rfl : e2 = e := Option.some.inj (hg2.symm.trans hg)
      rw [if_pos hfirst, ← hprev]
    · rw [if_neg hfirst]

/-- Rebuild a suffix segment whose first record's prev link was redirected to
`an`. -/
theorem seg_after_piece {d d' : List (Nat × Entry)} {p x z : Link}
    {l : List (Nat × Nat)} {an : Link}
    (h : Seg d p x l z) (hnd : (l.map Prod.fst).Nodup)
    (hmod : ∀ k v, (k, v) ∈ l → ∃ e, dictGet d k = some e ∧
        dictGet d' k = some ⟨(if Link.key k = headL z l then an else e.prev), e.val, e.next⟩) :
    Seg d' an x l z := by
  cases l with
  | nil =>
    have := h.nil_inv
    subst this
    exact Seg.nil _ _
  | cons hd tl =>
    refine h.retargetBoth (by simp) hnd ?_
    intro k v hkv
    obtain ⟨e, hg, hg'⟩ := hmod k v hkv
    refine ⟨e, hg, ?_⟩
    rw [hg']
    by_cases hlast : Link.key k = lastL p (hd :: tl)
    · obtain ⟨e2, hg2, hnext⟩ := h.last_next hlast.symm (by simp)
      obtain rfl : e2 = e := Option.some.inj (hg2.symm.trans hg)
      rw [if_pos hlast, ← hnext]
    · rw [if_neg hlast]

theorem perm_swap_mid (A C D : List Nat) (a b : Nat) :
    (A ++ a :: (C ++ b :: D)).Perm (A ++ b :: (C ++ a :: D)) := by
  have h1 : (A ++ a :: (C ++ b :: D)).Perm (a :: (A ++ (C ++ b :: D))) := List.perm_middle
  have h2 : A ++ (C ++ b :: D) = (A ++ C) ++ b :: D := by rw [List.append_assoc]
  have h3 : ((A ++ C) ++ b :: D).Perm (b :: ((A ++ C) ++ D)) := List.perm_middle
  have h4 : (A ++ b :: (C ++ a :: D)).Perm (b :: (A ++ (C ++ a :: D))) := List.perm_middle
  have h5 : A ++ (C ++ a :: D) = (A ++ C) ++ a :: D := by rw [List.append_assoc]
  have h6 : ((A ++ C) ++ a :: D).Perm (a :: ((A ++ C) ++ D)) := List.perm_middle
  refine h1.trans ?_
  rw [h2]
  refine (h3.cons a).trans ?_
  refine (List.Perm.swap b a _).trans ?_
  refine ((h6.symm).cons b).trans ?_
  rw [← h5]
  exact h4.symm

theorem lastL_indep {l : List (Nat × Nat)} (hl : l ≠ []) (p p' : Link) :
    lastL p l = lastL p' l := by
  rcases List.eq_nil_or_concat l with rfl | ⟨l', kv, rfl⟩
  · exact absurd rfl hl
  · obtain ⟨k, v⟩ := kv
    rw [List.concat_eq_append, lastL_concat, lastL_concat]

/-- One lookup through the whole relink/store chain built by `swap`, for a
key other than the two swapped ones. -/
theorem swapChain_get (a b : Nat) (na0 na2 nb0 nb2 : Link) (ea' eb' : Entry)
    {s : Odict} {k : Nat} {e : Entry}
    (hk : dictGet s.entries k = some e) (hka : k ≠ a) (hkb : k ≠ b) :
    dictGet ((((((s.relinkNext na0 (Link.key a)).relinkPrev na2
        (Link.key a)).relinkNext nb0 (Link.key b)).relinkPrev nb2
        (Link.key b)).storeEntry a ea').storeEntry b eb').entries k =
      some ⟨(if nb2 = Link.key k then Link.key b else
             if na2 = Link.key k then Link.key a else e.prev), e.val,
            (if nb0 = Link.key k then Link.key b else
             if na0 = Link.key k then Link.key a else e.next)⟩ := by
  have h1 := relinkNext_get hk na0 (Link.key a)
  have h2 := relinkPrev_get h1 na2 (Link.key a)
  have h3 := relinkNext_get h2 nb0 (Link.key b)
  have h4 := relinkPrev_get h3 nb2 (Link.key b)
  rw [storeEntry_get, if_neg hkb, storeEntry_get, if_neg hka, h4]
  by_cases c1 : na0 = Link.key k <;> by_cases c2 : na2 = Link.key k <;>
    by_cases c3 : nb0 = Link.key k <;> by_cases c4 : nb2 = Link.key k <;>
    simp [c1, c2, c3, c4]

theorem swapWrap_entries (t : Odict) (na0 na2 nb0 nb2 : Link) (a b : Nat) :
    ((((t.setHeadIfNil na0 a).setTailIfNil na2 a).setHeadIfNil nb0
        b).setTailIfNil nb2 b).entries = t.entries := by
  rw [setTailIfNil_entries, setHeadIfNil_entries, setTailIfNil_entries, setHeadIfNil_entries]

theorem swapWrap_lh (t : Odict) (na0 na2 nb0 nb2 : Link) (a b : Nat) :
    ((((t.setHeadIfNil na0 a).setTailIfNil na2 a).setHeadIfNil nb0
        b).setTailIfNil nb2 b).lh =
      if nb0 = Link.nil then Link.key b else
      if na0 = Link.nil then Link.key a else t.lh := by
  rw [setTailIfNil_lh, setHeadIfNil_lh, setTailIfNil_lh, setHeadIfNil_lh]

theorem swapWrap_lt (t : Odict) (na0 na2 nb0 nb2 : Link) (a b : Nat) :
    ((((t.setHeadIfNil na0 a).setTailIfNil na2 a).setHeadIfNil nb0
        b).setTailIfNil nb2 b).lt =
      if nb2 = Link.nil then Link.key b else
      if na2 = Link.nil then Link.key a else t.lt := by
  rw [setTailIfNil_lt, setHeadIfNil_lt, setTailIfNil_lt, setHeadIfNil_lt]

theorem swapChain_lh (s : Odict) (a b : Nat) (na0 na2 nb0 nb2 : Link) (ea' eb' : Entry) :
    ((((((s.relinkNext na0 (Link.key a)).relinkPrev na2
        (Link.key a)).relinkNext nb0 (Link.key b)).relinkPrev nb2
        (Link.key b)).storeEntry a ea').storeEntry b eb').lh = s.lh := by
  rw [storeEntry_lh, storeEntry_lh, relinkPrev_lh, relinkNext_lh, relinkPrev_lh, relinkNext_lh]

theorem swapChain_lt (s : Odict) (a b : Nat) (na0 na2 nb0 nb2 : Link) (ea' eb' : Entry) :
    ((((((s.relinkNext na0 (Link.key a)).relinkPrev na2
        (Link.key a)).relinkNext nb0 (Link.key b)).relinkPrev nb2
        (Link.key b)).storeEntry a ea').storeEntry b eb').lt = s.lt := by
  rw [storeEntry_lt, storeEntry_lt, relinkPrev_lt, relinkNext_lt, relinkPrev_lt, relinkNext_lt]

theorem swapChain_keys {s : Odict} {a b : Nat} (na0 na2 nb0 nb2 : Link) (ea' eb' : Entry)
    (hain : a ∈ s.entries.map Prod.fst) (hbin : b ∈ s.entries.map Prod.fst) :
    ((((((s.relinkNext na0 (Link.key a)).relinkPrev na2
        (Link.key a)).relinkNext nb0 (Link.key b)).relinkPrev nb2
        (Link.key b)).storeEntry a ea').storeEntry b eb').entries.map Prod.fst =
      s.entries.map Prod.fst := by
  have k1 := relinkNext_keys s na0 (Link.key a)
  have k2 := relinkPrev_keys (s.relinkNext na0 (Link.key a)) na2 (Link.key a)
  have k3 := relinkNext_keys ((s.relinkNext na0 (Link.key a)).relinkPrev na2 (Link.key a))
    nb0 (Link.key b)
  have k4 := relinkPrev_keys (((s.relinkNext na0 (Link.key a)).relinkPrev na2
    (Link.key a)).relinkNext nb0 (Link.key b)) nb2 (Link.key b)
  have k5 : ((((((s.relinkNext na0 (Link.key a)).relinkPrev na2
      (Link.key a)).relinkNext nb0 (Link.key b)).relinkPrev nb2
      (Link.key b)).storeEntry a ea')).entries.map Prod.fst =
      (((((s.relinkNext na0 (Link.key a)).relinkPrev na2
      (Link.key a)).relinkNext nb0 (Link.key b)).relinkPrev nb2
      (Link.key b))).entries.map Prod.fst := by
    refine storeEntry_keys_mem _ ?_
    rw [k4, k3, k2, k1]
    exact hain
  have k6 : b ∈ ((((((s.relinkNext na0 (Link.key a)).relinkPrev na2
      (Link.key a)).relinkNext nb0 (Link.key b)).relinkPrev nb2
      (Link.key b)).storeEntry a ea')).entries.map Prod.fst := by
    rw [k5, k4, k3, k2, k1]
    exact hbin
  rw [storeEntry_keys_mem _ k6, k5, k4, k3, k2, k1]

/-- `swap a b` when `a` occurs before `b` in the represented sequence: the two
records exchange positions; every other record and all values are unchanged. -/
theorem swap_represents_ab {s : Odict} {l₁ l₂ l₃ : List (Nat × Nat)} {a va b vb : Nat}
    (h : Represents s (l₁ ++ (a, va) :: (l₂ ++ (b, vb) :: l₃))) (hab : a ≠ b) :
    ∃ s', s.swap a b = Except.ok s' ∧
      Represents s' (l₁ ++ (b, vb) :: (l₂ ++ (a, va) :: l₃)) := by
  obtain ⟨hsegL1, hsegR⟩ := h.seg.split (l₁) ((a, va) :: (l₂ ++ (b, vb) :: l₃))
  obtain ⟨xa, hga, hsegA, hhda⟩ := hsegR.cons_inv
  obtain ⟨hsegL2, hsegR2⟩ := hsegA.split (l₂) ((b, vb) :: l₃)
  obtain ⟨xb, hgb, hsegL3, hhdb⟩ := hsegR2.cons_inv
  have hxb : xb = headL Link.nil l₃ := hsegL3.head_eq
  subst hxb
  have hxa : xa = headL (Link.key b) l₂ := hsegL2.head_eq
  subst hxa
  have hsegL1' : Seg s.entries Link.nil s.lh l₁ (Link.key a) := hsegL1
  have hsegL3' : Seg s.entries (Link.key b) (headL Link.nil l₃) l₃ Link.nil := hsegL3
  obtain ⟨haL1, haR, hdisj1, hndL1, hndR⟩ := nodup_mid h.nodup
  obtain ⟨hbL2, hbL3, hdisj23, hndL2, hndL3⟩ := nodup_mid hndR
  have haL2 : a ∉ l₂.map Prod.fst := fun hin => haR (by
    simp only [List.map_append, List.map_cons, List.mem_append, List.mem_cons]
    exact Or.inl hin)
  have haL3 : a ∉ l₃.map Prod.fst := fun hin => haR (by
    simp only [List.map_append, List.map_cons, List.mem_append, List.mem_cons]
    exact Or.inr (Or.inr hin))
  have hbL1 : b ∉ l₁.map Prod.fst := fun hin => hdisj1 hin (by simp)
  have hdisjL1L2 : ∀ k', k' ∈ l₁.map Prod.fst → k' ∈ l₂.map Prod.fst → False :=
    fun k' h1 h2 => hdisj1 h1 (by
      simp only [List.map_append, List.map_cons, List.mem_append, List.mem_cons]
      exact Or.inl h2)
  have hdisjL1L3 : ∀ k', k' ∈ l₁.map Prod.fst → k' ∈ l₃.map Prod.fst → False :=
    fun k' h1 h2 => hdisj1 h1 (by
      simp only [List.map_append, List.map_cons, List.mem_append, List.mem_cons]
      exact Or.inr (Or.inr h2))
  have hain : a ∈ s.entries.map Prod.fst := (h.mem_iff a).mpr (by simp)
  have hbin : b ∈ s.entries.map Prod.fst := (h.mem_iff b).mpr (by simp)
  have hpresent : ∀ k' : Nat, k' ∈ (l₁ ++ (a, va) :: (l₂ ++ (b, vb) :: l₃)).map Prod.fst →
      ∃ e, dictGet s.entries k' = some e := by
    intro k' hk'
    have hmem : k' ∈ s.entries.map Prod.fst := (h.mem_iff k').mpr hk'
    rcases hget : dictGet s.entries k' with _ | e
    · rw [dictGet_eq_none_iff] at hget
      exact absurd hmem hget
    · exact ⟨e, rfl⟩
  have htargetperm : (s.entries.map Prod.fst).Perm
      ((l₁ ++ (b, vb) :: (l₂ ++ (a, va) :: l₃)).map Prod.fst) := by
    refine h.perm.trans ?_
    simp only [List.map_append, List.map_cons]
    exact perm_swap_mid _ _ _ a b
  have hndT : ((l₁ ++ (b, vb) :: (l₂ ++ (a, va) :: l₃)).map Prod.fst).Nodup := by
    rw [← List.Perm.nodup_iff htargetperm]
    exact h.entries_nodup
  have hc2 : ¬ (lastL Link.nil l₁ = Link.key b) := fun hcon => hbL1 (lastL_nil_eq_key hcon)
  cases l₂ with
  | nil =>
    have hga' : dictGet s.entries a = some ⟨lastL Link.nil l₁, va, Link.key b⟩ := hga
    have hgb' : dictGet s.entries b = some ⟨Link.key a, vb, headL Link.nil l₃⟩ := hgb
    have hrun : s.swap a b = Except.ok
        ((((((((((s.relinkNext (Link.key b) (Link.key a)).relinkPrev (headL Link.nil l₃)
          (Link.key a)).relinkNext (lastL Link.nil l₁) (Link.key b)).relinkPrev (Link.key a)
          (Link.key b)).storeEntry a ⟨Link.key b, va, headL Link.nil l₃⟩).storeEntry b
          ⟨lastL Link.nil l₁, vb, Link.key a⟩).setHeadIfNil (Link.key b) a).setTailIfNil
          (headL Link.nil l₃) a).setHeadIfNil (lastL Link.nil l₁) b).setTailIfNil
          (Link.key a) b) := by
      rw [Odict.swap, if_neg hab, hga', hgb']
      simp only [eq_self_iff_true, if_true, if_neg hc2]
    refine ⟨_, hrun, ?_, ?_, ?_, hndT⟩
    · simp only [List.nil_append]
      rw [swapWrap_entries, swapWrap_lh, swapChain_lh,
        if_neg (show ¬(Link.key b = Link.nil) from fun hcon => Link.noConfusion hcon)]
      refine Seg.append (m := Link.key b) ?_ ?_
      · refine seg_before_piece hsegL1' hndL1 ?_ ?_ ?_
        · intro k' v' hkv
          have hk'mem : k' ∈ l₁.map Prod.fst := List.mem_map_of_mem Prod.fst hkv
          obtain ⟨e, he⟩ := hpresent k' (by
            simp only [List.map_append, List.map_cons, List.mem_append, List.mem_cons]
            exact Or.inl hk'mem)
          have hk'a : k' ≠ a := fun hcon => haL1 (hcon ▸ hk'mem)
          have hk'b : k' ≠ b := fun hcon => hbL1 (hcon ▸ hk'mem)
          refine ⟨e, he, ?_⟩
          rw [swapChain_get a b (Link.key b) (headL Link.nil l₃) (lastL Link.nil l₁)
            (Link.key a) ⟨Link.key b, va, headL Link.nil l₃⟩
            ⟨lastL Link.nil l₁, vb, Link.key a⟩ he hk'a hk'b,
            if_neg (show ¬(Link.key a = Link.key k') from
              fun hcon => hk'a (Link.key.inj hcon).symm),
            if_neg (show ¬(headL Link.nil l₃ = Link.key k') from
              fun hcon => hdisjL1L3 k' hk'mem (headL_nil_eq_key hcon)),
            if_neg (show ¬(Link.key b = Link.key k') from
              fun hcon => hk'b (Link.key.inj hcon).symm)]
          by_cases hlast : lastL Link.nil l₁ = Link.key k'
          · rw [if_pos hlast, if_pos hlast.symm]
          · rw [if_neg hlast, if_neg (fun hcon => hlast hcon.symm)]
        · intro hl1
          subst hl1
          rw [if_pos (show lastL Link.nil ([] : List (Nat × Nat)) = Link.nil from rfl)]
        · intro hl1
          obtain ⟨q0, hq0, hq0mem⟩ := lastL_mem Link.nil l₁ hl1
          rw [hq0, if_neg (fun hcon => Link.noConfusion hcon)]
      · refine Seg.consx (Link.key a) ?_ (Seg.consx (headL Link.nil l₃) ?_ ?_)
        · rw [storeEntry_get, if_pos rfl]
        · rw [storeEntry_get, if_neg hab, storeEntry_get, if_pos rfl]
        · refine seg_after_piece hsegL3' hndL3 ?_
          intro k' v' hkv
          have hk'mem : k' ∈ l₃.map Prod.fst := List.mem_map_of_mem Prod.fst hkv
          obtain ⟨e, he⟩ := hpresent k' (by
            simp only [List.map_append, List.map_cons, List.mem_append, List.mem_cons,
              List.map_nil, List.nil_append]
            exact Or.inr (Or.inr (Or.inr hk'mem)))
          have hk'a : k' ≠ a := fun hcon => haL3 (hcon ▸ hk'mem)
          have hk'b : k' ≠ b := fun hcon => hbL3 (hcon ▸ hk'mem)
          refine ⟨e, he, ?_⟩
          rw [swapChain_get a b (Link.key b) (headL Link.nil l₃) (lastL Link.nil l₁)
            (Link.key a) ⟨Link.key b, va, headL Link.nil l₃⟩
            ⟨lastL Link.nil l₁, vb, Link.key a⟩ he hk'a hk'b,
            if_neg (show ¬(Link.key a = Link.key k') from
              fun hcon => hk'a (Link.key.inj hcon).symm),
            if_neg (show ¬(lastL Link.nil l₁ = Link.key k') from
              fun hcon => hdisjL1L3 k' (lastL_nil_eq_key hcon) hk'mem),
            if_neg (show ¬(Link.key b = Link.key k') from
              fun hcon => hk'b (Link.key.inj hcon).symm)]
          by_cases hfirst : headL Link.nil l₃ = Link.key k'
          · rw [if_pos hfirst, if_pos hfirst.symm]
          · rw [if_neg hfirst, if_neg (fun hcon => hfirst hcon.symm)]
    · rw [swapWrap_lt, swapChain_lt,
        if_neg (show ¬(Link.key a = Link.nil) from fun hcon => Link.noConfusion hcon)]
      cases l₃ with
      | nil =>
        rw [if_pos (show headL Link.nil ([] : List (Nat × Nat)) = Link.nil from rfl)]
        simp [lastL_append, lastL]
      | cons hd3 t₃ =>
        obtain ⟨n3, vn3⟩ := hd3
        have hh3 : headL Link.nil ((n3, vn3) :: t₃) = Link.key n3 := rfl
        rw [hh3, if_neg (fun hcon => Link.noConfusion hcon), h.tail_eq]
        simp [lastL_append, lastL]
    · rw [swapWrap_entries, swapChain_keys _ _ _ _ _ _ hain hbin]
      exact htargetperm
  | cons hd2 l₂t =>
    obtain ⟨w, vw⟩ := hd2
    have hga' : dictGet s.entries a = some ⟨lastL Link.nil l₁, va, Link.key w⟩ := hga
    obtain ⟨q, hq, hqmem⟩ := lastL_mem (Link.key a) ((w, vw) :: l₂t) (by simp)
    have hgb' : dictGet s.entries b = some ⟨Link.key q, vb, headL Link.nil l₃⟩ := by
      have := hgb
      rw [hq] at this
      exact this
    have hqa : q ≠ a := fun hcon => haL2 (hcon ▸ hqmem)
    have hc1 : ¬ (Link.key q = Link.key a) := fun hcon => hqa (Link.key.inj hcon)
    have hsegL2'' : Seg s.entries (Link.key a) (Link.key w) ((w, vw) :: l₂t)
        (Link.key b) := hsegL2
    have hrun : s.swap a b = Except.ok
        ((((((((((s.relinkNext (Link.key q) (Link.key a)).relinkPrev (headL Link.nil l₃)
          (Link.key a)).relinkNext (lastL Link.nil l₁) (Link.key b)).relinkPrev (Link.key w)
          (Link.key b)).storeEntry a ⟨Link.key q, va, headL Link.nil l₃⟩).storeEntry b
          ⟨lastL Link.nil l₁, vb, Link.key w⟩).setHeadIfNil (Link.key q) a).setTailIfNil
          (headL Link.nil l₃) a).setHeadIfNil (lastL Link.nil l₁) b).setTailIfNil
          (Link.key w) b) := by
      rw [Odict.swap, if_neg hab, hga', hgb']
      simp only [if_neg hc1, if_neg hc2]
    refine ⟨_, hrun, ?_, ?_, ?_, hndT⟩
    · rw [swapWrap_entries, swapWrap_lh, swapChain_lh,
        if_neg (show ¬(Link.key q = Link.nil) from fun hcon => Link.noConfusion hcon)]
      refine Seg.append (m := Link.key b) ?_ ?_
      · refine seg_before_piece hsegL1' hndL1 ?_ ?_ ?_
        · intro k' v' hkv
          have hk'mem : k' ∈ l₁.map Prod.fst := List.mem_map_of_mem Prod.fst hkv
          obtain ⟨e, he⟩ := hpresent k' (by
            simp only [List.map_append, List.map_cons, List.mem_append, List.mem_cons]
            exact Or.inl hk'mem)
          have hk'a : k' ≠ a := fun hcon => haL1 (hcon ▸ hk'mem)
          have hk'b : k' ≠ b := fun hcon => hbL1 (hcon ▸ hk'mem)
          refine ⟨e, he, ?_⟩
          rw [swapChain_get a b (Link.key q) (headL Link.nil l₃) (lastL Link.nil l₁)
            (Link.key w) ⟨Link.key q, va, headL Link.nil l₃⟩
            ⟨lastL Link.nil l₁, vb, Link.key w⟩ he hk'a hk'b,
            if_neg (show ¬(Link.key w = Link.key k') from
              fun hcon => hdisjL1L2 k' hk'mem
                ((Link.key.inj hcon) ▸ (by simp : w ∈ ((w, vw) :: l₂t).map Prod.fst))),
            if_neg (show ¬(headL Link.nil l₃ = Link.key k') from
              fun hcon => hdisjL1L3 k' hk'mem (headL_nil_eq_key hcon)),
            if_neg (show ¬(Link.key q = Link.key k') from
              fun hcon => hdisjL1L2 k' hk'mem ((Link.key.inj hcon) ▸ hqmem))]
          by_cases hlast : lastL Link.nil l₁ = Link.key k'
          · rw [if_pos hlast, if_pos hlast.symm]
          · rw [if_neg hlast, if_neg (fun hcon => hlast hcon.symm)]
        · intro hl1
          subst hl1
          rw [if_pos (show lastL Link.nil ([] : List (Nat × Nat)) = Link.nil from rfl)]
        · intro hl1
          obtain ⟨q0, hq0, hq0mem⟩ := lastL_mem Link.nil l₁ hl1
          rw [hq0, if_neg (fun hcon => Link.noConfusion hcon)]
      · refine Seg.consx (Link.key w) ?_ ?_
        · rw [storeEntry_get, if_pos rfl]
        · refine Seg.append (m := Link.key a) ?_ ?_
          · refine hsegL2''.retargetBoth (by simp) hndL2 ?_
            intro k' v' hkv
            have hk'mem : k' ∈ ((w, vw) :: l₂t).map Prod.fst :=
              List.mem_map_of_mem Prod.fst hkv
            obtain ⟨e, he⟩ := hpresent k' (by
              simp only [List.map_append, List.map_cons, List.mem_append, List.mem_cons]
                at hk'mem ⊢
              tauto)
            have hk'a : k' ≠ a := fun hcon => haL2 (hcon ▸ hk'mem)
            have hk'b : k' ≠ b := fun hcon => hbL2 (hcon ▸ hk'mem)
            refine ⟨e, he, ?_⟩
            have hhd2 : headL (Link.key b) ((w, vw) :: l₂t) = Link.key w := rfl
            rw [hhd2, hq,
              swapChain_get a b (Link.key q) (headL Link.nil l₃) (lastL Link.nil l₁)
                (Link.key w) ⟨Link.key q, va, headL Link.nil l₃⟩
                ⟨lastL Link.nil l₁, vb, Link.key w⟩ he hk'a hk'b,
              if_neg (show ¬(headL Link.nil l₃ = Link.key k') from
                fun hcon => hdisj23 hk'mem (headL_nil_eq_key hcon)),
              if_neg (show ¬(lastL Link.nil l₁ = Link.key k') from
                fun hcon => hdisjL1L2 k' (lastL_nil_eq_key hcon) hk'mem)]
            by_cases hw : Link.key k' = Link.key w
            · rw [if_pos (show Link.key w = Link.key k' from hw.symm), if_pos hw]
              by_cases hqk : Link.key k' = Link.key q
              · rw [if_pos (show Link.key q = Link.key k' from hqk.symm), if_pos hqk]
              · rw [if_neg (show ¬ (Link.key q = Link.key k') from
                    fun hcon => hqk hcon.symm), if_neg hqk]
            · rw [if_neg (show ¬ (Link.key w = Link.key k') from
                  fun hcon => hw hcon.symm), if_neg hw]
              by_cases hqk : Link.key k' = Link.key q
              · rw [if_pos (show Link.key q = Link.key k' from hqk.symm), if_pos hqk]
              · rw [if_neg (show ¬ (Link.key q = Link.key k') from
                    fun hcon => hqk hcon.symm), if_neg hqk]
          · have hq2 : lastL (Link.key b) ((w, vw) :: l₂t) = Link.key q :=
              (lastL_indep (by simp) (Link.key b) (Link.key a)).trans hq
            rw [hq2]
            refine Seg.consx (headL Link.nil l₃) ?_ ?_
            · rw [storeEntry_get, if_neg hab, storeEntry_get, if_pos rfl]
            · refine seg_after_piece hsegL3' hndL3 ?_
              intro k' v' hkv
              have hk'mem : k' ∈ l₃.map Prod.fst := List.mem_map_of_mem Prod.fst hkv
              obtain ⟨e, he⟩ := hpresent k' (by
                simp only [List.map_append, List.map_cons, List.mem_append, List.mem_cons]
                  at hk'mem ⊢
                tauto)
              have hk'a : k' ≠ a := fun hcon => haL3 (hcon ▸ hk'mem)
              have hk'b : k' ≠ b := fun hcon => hbL3 (hcon ▸ hk'mem)
              refine ⟨e, he, ?_⟩
              rw [swapChain_get a b (Link.key q) (headL Link.nil l₃) (lastL Link.nil l₁)
                  (Link.key w) ⟨Link.key q, va, headL Link.nil l₃⟩
                  ⟨lastL Link.nil l₁, vb, Link.key w⟩ he hk'a hk'b,
                if_neg (show ¬(Link.key w = Link.key k') from
                  fun hcon => hdisj23
                    ((Link.key.inj hcon) ▸ (by simp : w ∈ ((w, vw) :: l₂t).map Prod.fst))
                    hk'mem),
                if_neg (show ¬(lastL Link.nil l₁ = Link.key k') from
                  fun hcon => hdisjL1L3 k' (lastL_nil_eq_key hcon) hk'mem),
                if_neg (show ¬(Link.key q = Link.key k') from
                  fun hcon => hdisj23 ((Link.key.inj hcon) ▸ hqmem) hk'mem)]
              by_cases hfirst : headL Link.nil l₃ = Link.key k'
              · rw [if_pos hfirst, if_pos hfirst.symm]
              · rw [if_neg hfirst, if_neg (fun hcon => hfirst hcon.symm)]
    · rw [swapWrap_lt, swapChain_lt,
        if_neg (show ¬(Link.key w = Link.nil) from fun hcon => Link.noConfusion hcon)]
      cases l₃ with
      | nil =>
        rw [if_pos (show headL Link.nil ([] : List (Nat × Nat)) = Link.nil from rfl)]
        simp [lastL_append, lastL]
      | cons hd3 t₃ =>
        obtain ⟨n3, vn3⟩ := hd3
        have hh3 : headL Link.nil ((n3, vn3) :: t₃) = Link.key n3 := rfl
        rw [hh3, if_neg (fun hcon => Link.noConfusion hcon), h.tail_eq]
        simp [lastL_append, lastL]
    · rw [swapWrap_entries, swapChain_keys _ _ _ _ _ _ hain hbin]
      exact htargetperm

/-- `swap a b` when `b` occurs before `a` in the represented sequence: the two
records exchange positions; every other record and all values are unchanged. -/
theorem swap_represents_ba {s : Odict} {l₁ l₂ l₃ : List (Nat × Nat)} {a va b vb : Nat}
    (h : Represents s (l₁ ++ (b, vb) :: (l₂ ++ (a, va) :: l₃))) (hab : a ≠ b) :
    ∃ s', s.swap a b = Except.ok s' ∧
      Represents s' (l₁ ++ (a, va) :: (l₂ ++ (b, vb) :: l₃)) := by
  obtain ⟨hsegL1, hsegR⟩ := h.seg.split (l₁) ((b, vb) :: (l₂ ++ (a, va) :: l₃))
  obtain ⟨xb, hgb, hsegB, hhdb⟩ := hsegR.cons_inv
  obtain ⟨hsegL2, hsegR2⟩ := hsegB.split (l₂) ((a, va) :: l₃)
  obtain ⟨xa, hga, hsegL3, hhda⟩ := hsegR2.cons_inv
  have hxa : xa = headL Link.nil l₃ := hsegL3.head_eq
  subst hxa
  have hxb : xb = headL (Link.key a) l₂ := hsegL2.head_eq
  subst hxb
  have hsegL1' : Seg s.entries Link.nil s.lh l₁ (Link.key b) := hsegL1
  have hsegL3' : Seg s.entries (Link.key a) (headL Link.nil l₃) l₃ Link.nil := hsegL3
  obtain ⟨hbL1, hbR, hdisj1, hndL1, hndR⟩ := nodup_mid h.nodup
  obtain ⟨haL2, haL3, hdisj23, hndL2, hndL3⟩ := nodup_mid hndR
  have hbL2 : b ∉ l₂.map Prod.fst := fun hin => hbR (by
    simp only [List.map_append, List.map_cons, List.mem_append, List.mem_cons]
    exact Or.inl hin)
  have hbL3 : b ∉ l₃.map Prod.fst := fun hin => hbR (by
    simp only [List.map_append, List.map_cons, List.mem_append, List.mem_cons]
    exact Or.inr (Or.inr hin))
  have haL1 : a ∉ l₁.map Prod.fst := fun hin => hdisj1 hin (by simp)
  have hdisjL1L2 : ∀ k', k' ∈ l₁.map Prod.fst → k' ∈ l₂.map Prod.fst → False :=
    fun k' h1 h2 => hdisj1 h1 (by
      simp only [List.map_append, List.map_cons, List.mem_append, List.mem_cons]
      exact Or.inl h2)
  have hdisjL1L3 : ∀ k', k' ∈ l₁.map Prod.fst → k' ∈ l₃.map Prod.fst → False :=
    fun k' h1 h2 => hdisj1 h1 (by
      simp only [List.map_append, List.map_cons, List.mem_append, List.mem_cons]
      exact Or.inr (Or.inr h2))
  have hain : a ∈ s.entries.map Prod.fst := (h.mem_iff a).mpr (by simp)
  have hbin : b ∈ s.entries.map Prod.fst := (h.mem_iff b).mpr (by simp)
  have hpresent : ∀ k' : Nat, k' ∈ (l₁ ++ (b, vb) :: (l₂ ++ (a, va) :: l₃)).map Prod.fst →
      ∃ e, dictGet s.entries k' = some e := by
    intro k' hk'
    have hmem : k' ∈ s.entries.map Prod.fst := (h.mem_iff k').mpr hk'
    rcases hget : dictGet s.entries k' with _ | e
    · rw [dictGet_eq_none_iff] at hget
      exact absurd hmem hget
    · exact ⟨e, rfl⟩
  have htargetperm : (s.entries.map Prod.fst).Perm
      ((l₁ ++ (a, va) :: (l₂ ++ (b, vb) :: l₃)).map Prod.fst) := by
    refine h.perm.trans ?_
    simp only [List.map_append, List.map_cons]
    exact perm_swap_mid _ _ _ b a
  have hndT : ((l₁ ++ (a, va) :: (l₂ ++ (b, vb) :: l₃)).map Prod.fst).Nodup := by
    rw [← List.Perm.nodup_iff htargetperm]
    exact h.entries_nodup
  have hc1 : ¬ (lastL Link.nil l₁ = Link.key a) := fun hcon => haL1 (lastL_nil_eq_key hcon)
  cases l₂ with
  | nil =>
    have hgb' : dictGet s.entries b = some ⟨lastL Link.nil l₁, vb, Link.key a⟩ := hgb
    have hga' : dictGet s.entries a = some ⟨Link.key b, va, headL Link.nil l₃⟩ := hga
    have hrun : s.swap a b = Except.ok
        ((((((((((s.relinkNext (lastL Link.nil l₁) (Link.key a)).relinkPrev (Link.key b)
          (Link.key a)).relinkNext (Link.key a) (Link.key b)).relinkPrev (headL Link.nil l₃)
          (Link.key b)).storeEntry a ⟨lastL Link.nil l₁, va, Link.key b⟩).storeEntry b
          ⟨Link.key a, vb, headL Link.nil l₃⟩).setHeadIfNil (lastL Link.nil l₁) a).setTailIfNil
          (Link.key b) a).setHeadIfNil (Link.key a) b).setTailIfNil
          (headL Link.nil l₃) b) := by
      rw [Odict.swap, if_neg hab, hga', hgb']
      simp only [eq_self_iff_true, if_true, if_neg hc1]
    refine ⟨_, hrun, ?_, ?_, ?_, hndT⟩
    · simp only [List.nil_append]
      rw [swapWrap_entries, swapWrap_lh, swapChain_lh,
        if_neg (show ¬(Link.key a = Link.nil) from fun hcon => Link.noConfusion hcon)]
      refine Seg.append (m := Link.key a) ?_ ?_
      · refine seg_before_piece hsegL1' hndL1 ?_ ?_ ?_
        · intro k' v' hkv
          have hk'mem : k' ∈ l₁.map Prod.fst := List.mem_map_of_mem Prod.fst hkv
          obtain ⟨e, he⟩ := hpresent k' (by
            simp only [List.map_append, List.map_cons, List.mem_append, List.mem_cons]
            exact Or.inl hk'mem)
          have hk'a : k' ≠ a := fun hcon => haL1 (hcon ▸ hk'mem)
          have hk'b : k' ≠ b := fun hcon => hbL1 (hcon ▸ hk'mem)
          refine ⟨e, he, ?_⟩
          rw [swapChain_get a b (lastL Link.nil l₁) (Link.key b) (Link.key a)
            (headL Link.nil l₃) ⟨lastL Link.nil l₁, va, Link.key b⟩
            ⟨Link.key a, vb, headL Link.nil l₃⟩ he hk'a hk'b,
            if_neg (show ¬(headL Link.nil l₃ = Link.key k') from
              fun hcon => hdisjL1L3 k' hk'mem (headL_nil_eq_key hcon)),
            if_neg (show ¬(Link.key b = Link.key k') from
              fun hcon => hk'b (Link.key.inj hcon).symm),
            if_neg (show ¬(Link.key a = Link.key k') from
              fun hcon => hk'a (Link.key.inj hcon).symm)]
          by_cases hlast : lastL Link.nil l₁ = Link.key k'
          · rw [if_pos hlast, if_pos hlast.symm]
          · rw [if_neg hlast, if_neg (fun hcon => hlast hcon.symm)]
        · intro hl1
          subst hl1
          rw [if_pos (show lastL Link.nil ([] : List (Nat × Nat)) = Link.nil from rfl)]
        · intro hl1
          obtain ⟨q0, hq0, hq0mem⟩ := lastL_mem Link.nil l₁ hl1
          rw [hq0, if_neg (fun hcon => Link.noConfusion hcon)]
      · refine Seg.consx (Link.key b) ?_ (Seg.consx (headL Link.nil l₃) ?_ ?_)
        · rw [storeEntry_get, if_neg hab, storeEntry_get, if_pos rfl]
        · rw [storeEntry_get, if_pos rfl]
        · refine seg_after_piece hsegL3' hndL3 ?_
          intro k' v' hkv
          have hk'mem : k' ∈ l₃.map Prod.fst := List.mem_map_of_mem Prod.fst hkv
          obtain ⟨e, he⟩ := hpresent k' (by
            simp only [List.map_append, List.map_cons, List.mem_append, List.mem_cons,
              List.map_nil, List.nil_append]
            exact Or.inr (Or.inr (Or.inr hk'mem)))
          have hk'a : k' ≠ a := fun hcon => haL3 (hcon ▸ hk'mem)
          have hk'b : k' ≠ b := fun hcon => hbL3 (hcon ▸ hk'mem)
          refine ⟨e, he, ?_⟩
          rw [swapChain_get a b (lastL Link.nil l₁) (Link.key b) (Link.key a)
            (headL Link.nil l₃) ⟨lastL Link.nil l₁, va, Link.key b⟩
            ⟨Link.key a, vb, headL Link.nil l₃⟩ he hk'a hk'b,
            if_neg (show ¬(Link.key b = Link.key k') from
              fun hcon => hk'b (Link.key.inj hcon).symm),
            if_neg (show ¬(Link.key a = Link.key k') from
              fun hcon => hk'a (Link.key.inj hcon).symm),
            if_neg (show ¬(lastL Link.nil l₁ = Link.key k') from
              fun hcon => hdisjL1L3 k' (lastL_nil_eq_key hcon) hk'mem)]
          by_cases hfirst : headL Link.nil l₃ = Link.key k'
          · rw [if_pos hfirst, if_pos hfirst.symm]
          · rw [if_neg hfirst, if_neg (fun hcon => hfirst hcon.symm)]
    · rw [swapWrap_lt, swapChain_lt,
        if_neg (show ¬(Link.key b = Link.nil) from fun hcon => Link.noConfusion hcon)]
      cases l₃ with
      | nil =>
        rw [if_pos (show headL Link.nil ([] : List (Nat × Nat)) = Link.nil from rfl)]
        simp [lastL_append, lastL]
      | cons hd3 t₃ =>
        obtain ⟨n3, vn3⟩ := hd3
        have hh3 : headL Link.nil ((n3, vn3) :: t₃) = Link.key n3 := rfl
        rw [hh3, if_neg (fun hcon => Link.noConfusion hcon), h.tail_eq]
        simp [lastL_append, lastL]
    · rw [swapWrap_entries, swapChain_keys _ _ _ _ _ _ hain hbin]
      exact htargetperm
  | cons hd2 l₂t =>
    obtain ⟨w, vw⟩ := hd2
    have hgb' : dictGet s.entries b = some ⟨lastL Link.nil l₁, vb, Link.key w⟩ := hgb
    obtain ⟨q, hq, hqmem⟩ := lastL_mem (Link.key b) ((w, vw) :: l₂t) (by simp)
    have hga' : dictGet s.entries a = some ⟨Link.key q, va, headL Link.nil l₃⟩ := by
      have := hga
      rw [hq] at this
      exact this
    have hqb : q ≠ b := fun hcon => hbL2 (hcon ▸ hqmem)
    have hc2 : ¬ (Link.key q = Link.key b) := fun hcon => hqb (Link.key.inj hcon)
    have hsegL2'' : Seg s.entries (Link.key b) (Link.key w) ((w, vw) :: l₂t)
        (Link.key a) := hsegL2
    have hrun : s.swap a b = Except.ok
        ((((((((((s.relinkNext (lastL Link.nil l₁) (Link.key a)).relinkPrev (Link.key w)
          (Link.key a)).relinkNext (Link.key q) (Link.key b)).relinkPrev (headL Link.nil l₃)
          (Link.key b)).storeEntry a ⟨lastL Link.nil l₁, va, Link.key w⟩).storeEntry b
          ⟨Link.key q, vb, headL Link.nil l₃⟩).setHeadIfNil (lastL Link.nil l₁) a).setTailIfNil
          (Link.key w) a).setHeadIfNil (Link.key q) b).setTailIfNil
          (headL Link.nil l₃) b) := by
      rw [Odict.swap, if_neg hab, hga', hgb']
      simp only [if_neg hc1, if_neg hc2]
    refine ⟨_, hrun, ?_, ?_, ?_, hndT⟩
    · rw [swapWrap_entries, swapWrap_lh, swapChain_lh,
        if_neg (show ¬(Link.key q = Link.nil) from fun hcon => Link.noConfusion hcon)]
      refine Seg.append (m := Link.key a) ?_ ?_
      · refine seg_before_piece hsegL1' hndL1 ?_ ?_ ?_
        · intro k' v' hkv
          have hk'mem : k' ∈ l₁.map Prod.fst := List.mem_map_of_mem Prod.fst hkv
          obtain ⟨e, he⟩ := hpresent k' (by
            simp only [List.map_append, List.map_cons, List.mem_append, List.mem_cons]
            exact Or.inl hk'mem)
          have hk'a : k' ≠ a := fun hcon => haL1 (hcon ▸ hk'mem)
          have hk'b : k' ≠ b := fun hcon => hbL1 (hcon ▸ hk'mem)
          refine ⟨e, he, ?_⟩
          rw [swapChain_get a b (lastL Link.nil l₁) (Link.key w) (Link.key q)
            (headL Link.nil l₃) ⟨lastL Link.nil l₁, va, Link.key w⟩
            ⟨Link.key q, vb, headL Link.nil l₃⟩ he hk'a hk'b,
            if_neg (show ¬(headL Link.nil l₃ = Link.key k') from
              fun hcon => hdisjL1L3 k' hk'mem (headL_nil_eq_key hcon)),
            if_neg (show ¬(Link.key w = Link.key k') from
              fun hcon => hdisjL1L2 k' hk'mem
                ((Link.key.inj hcon) ▸ (by simp : w ∈ ((w, vw) :: l₂t).map Prod.fst))),
            if_neg (show ¬(Link.key q = Link.key k') from
              fun hcon => hdisjL1L2 k' hk'mem ((Link.key.inj hcon) ▸ hqmem))]
          by_cases hlast : lastL Link.nil l₁ = Link.key k'
          · rw [if_pos hlast, if_pos hlast.symm]
          · rw [if_neg hlast, if_neg (fun hcon => hlast hcon.symm)]
        · intro hl1
          subst hl1
          rw [if_pos (show lastL Link.nil ([] : List (Nat × Nat)) = Link.nil from rfl)]
        · intro hl1
          obtain ⟨q0, hq0, hq0mem⟩ := lastL_mem Link.nil l₁ hl1
          rw [hq0, if_neg (fun hcon => Link.noConfusion hcon)]
      · refine Seg.consx (Link.key w) ?_ ?_
        · rw [storeEntry_get, if_neg hab, storeEntry_get, if_pos rfl]
        · refine Seg.append (m := Link.key b) ?_ ?_
          · refine hsegL2''.retargetBoth (by simp) hndL2 ?_
            intro k' v' hkv
            have hk'mem : k' ∈ ((w, vw) :: l₂t).map Prod.fst :=
              List.mem_map_of_mem Prod.fst hkv
            obtain ⟨e, he⟩ := hpresent k' (by
              simp only [List.map_append, List.map_cons, List.mem_append, List.mem_cons]
                at hk'mem ⊢
              tauto)
            have hk'a : k' ≠ a := fun hcon => haL2 (hcon ▸ hk'mem)
            have hk'b : k' ≠ b := fun hcon => hbL2 (hcon ▸ hk'mem)
            refine ⟨e, he, ?_⟩
            have hhd2 : headL (Link.key a) ((w, vw) :: l₂t) = Link.key w := rfl
            rw [hhd2, hq,
              swapChain_get a b (lastL Link.nil l₁) (Link.key w) (Link.key q)
                (headL Link.nil l₃) ⟨lastL Link.nil l₁, va, Link.key w⟩
                ⟨Link.key q, vb, headL Link.nil l₃⟩ he hk'a hk'b,
              if_neg (show ¬(headL Link.nil l₃ = Link.key k') from
                fun hcon => hdisj23 hk'mem (headL_nil_eq_key hcon)),
              if_neg (show ¬(lastL Link.nil l₁ = Link.key k') from
                fun hcon => hdisjL1L2 k' (lastL_nil_eq_key hcon) hk'mem)]
            by_cases hw : Link.key k' = Link.key w
            · rw [if_pos (show Link.key w = Link.key k' from hw.symm), if_pos hw]
              by_cases hqk : Link.key k' = Link.key q
              · rw [if_pos (show Link.key q = Link.key k' from hqk.symm), if_pos hqk]
              · rw [if_neg (show ¬ (Link.key q = Link.key k') from
                    fun hcon => hqk hcon.symm), if_neg hqk]
            · rw [if_neg (show ¬ (Link.key w = Link.key k') from
                  fun hcon => hw hcon.symm), if_neg hw]
              by_cases hqk : Link.key k' = Link.key q
              · rw [if_pos (show Link.key q = Link.key k' from hqk.symm), if_pos hqk]
              · rw [if_neg (show ¬ (Link.key q = Link.key k') from
                    fun hcon => hqk hcon.symm), if_neg hqk]
          · have hq2 : lastL (Link.key a) ((w, vw) :: l₂t) = Link.key q :=
              (lastL_indep (by simp) (Link.key a) (Link.key b)).trans hq
            rw [hq2]
            refine Seg.consx (headL Link.nil l₃) ?_ ?_
            · rw [storeEntry_get, if_pos rfl]
            · refine seg_after_piece hsegL3' hndL3 ?_
              intro k' v' hkv
              have hk'mem : k' ∈ l₃.map Prod.fst := List.mem_map_of_mem Prod.fst hkv
              obtain ⟨e, he⟩ := hpresent k' (by
                simp only [List.map_append, List.map_cons, List.mem_append, List.mem_cons]
                  at hk'mem ⊢
                tauto)
              have hk'a : k' ≠ a := fun hcon => haL3 (hcon ▸ hk'mem)
              have hk'b : k' ≠ b := fun hcon => hbL3 (hcon ▸ hk'mem)
              refine ⟨e, he, ?_⟩
              rw [swapChain_get a b (lastL Link.nil l₁) (Link.key w) (Link.key q)
                  (headL Link.nil l₃) ⟨lastL Link.nil l₁, va, Link.key w⟩
                  ⟨Link.key q, vb, headL Link.nil l₃⟩ he hk'a hk'b,
                if_neg (show ¬(Link.key w = Link.key k') from
                  fun hcon => hdisj23
                    ((Link.key.inj hcon) ▸ (by simp : w ∈ ((w, vw) :: l₂t).map Prod.fst))
                    hk'mem),
                if_neg (show ¬(Link.key q = Link.key k') from
                  fun hcon => hdisj23 ((Link.key.inj hcon) ▸ hqmem) hk'mem),
                if_neg (show ¬(lastL Link.nil l₁ = Link.key k') from
                  fun hcon => hdisjL1L3 k' (lastL_nil_eq_key hcon) hk'mem)]
              by_cases hfirst : headL Link.nil l₃ = Link.key k'
              · rw [if_pos hfirst, if_pos hfirst.symm]
              · rw [if_neg hfirst, if_neg (fun hcon => hfirst hcon.symm)]
    · rw [swapWrap_lt, swapChain_lt,
        if_neg (show ¬(Link.key w = Link.nil) from fun hcon => Link.noConfusion hcon)]
      cases l₃ with
      | nil =>
        rw [if_pos (show headL Link.nil ([] : List (Nat × Nat)) = Link.nil from rfl)]
        simp [lastL_append, lastL]
      | cons hd3 t₃ =>
        obtain ⟨n3, vn3⟩ := hd3
        have hh3 : headL Link.nil ((n3, vn3) :: t₃) = Link.key n3 := rfl
        rw [hh3, if_neg (fun hcon => Link.noConfusion hcon), h.tail_eq]
        simp [lastL_append, lastL]
    · rw [swapWrap_entries, swapChain_keys _ _ _ _ _ _ hain hbin]
      exact htargetperm

theorem dictGet_of_mem_nodup {d : List (Nat × Entry)} (hnd : (d.map Prod.fst).Nodup)
    {k : Nat} {e : Entry} (hmem : (k, e) ∈ d) : dictGet d k = some e := by
  induction d with
  | nil => simp at hmem
  | cons hd0 rest ih =>
    obtain ⟨k0, e0⟩ := hd0
    simp only [List.map_cons, List.nodup_cons] at hnd
    rcases List.mem_cons.mp hmem with heq | hmem'
    · injection heq with h1 h2
      subst h1
      subst h2
      show dictGet ((k, e) :: rest) k = some e
      simp [dictGet]
    · have hkmem : k ∈ rest.map Prod.fst := List.mem_map_of_mem Prod.fst hmem'
      have hk0 : ¬ (k0 = k) := fun hcon => hnd.1 (hcon ▸ hkmem)
      show dictGet ((k0, e0) :: rest) k = some e
      simp only [dictGet, if_neg hk0]
      exact ih hnd.2 hmem'

theorem mem_split_pairs {l : List (Nat × Nat)} {k : Nat} (hk : k ∈ l.map Prod.fst) :
    ∃ l₁ vk l₂, l = l₁ ++ (k, vk) :: l₂ := by
  obtain ⟨⟨k1, v1⟩, hmem, hfst⟩ := List.mem_map.mp hk
  obtain rfl : k1 = k := hfst
  obtain ⟨t1, t2, rfl⟩ := List.append_of_mem hmem
  exact ⟨t1, v1, t2, rfl⟩

theorem two_mem_split {l : List (Nat × Nat)} {a b : Nat} (ha : a ∈ l.map Prod.fst)
    (hb : b ∈ l.map Prod.fst) (hab : a ≠ b) :
    (∃ l₁ va l₂ vb l₃, l = l₁ ++ (a, va) :: (l₂ ++ (b, vb) :: l₃)) ∨
    (∃ l₁ vb l₂ va l₃, l = l₁ ++ (b, vb) :: (l₂ ++ (a, va) :: l₃)) := by
  obtain ⟨A, va, B, rfl⟩ := mem_split_pairs ha
  have hb' : b ∈ A.map Prod.fst ∨ b ∈ B.map Prod.fst := by
    simp only [List.map_append, List.map_cons, List.mem_append, List.mem_cons] at hb
    rcases hb with h | h | h
    · exact Or.inl h
    · exact absurd h.symm hab
    · exact Or.inr h
  rcases hb' with hbA | hbB
  · obtain ⟨A1, vb, A2, rfl⟩ := mem_split_pairs hbA
    right
    exact ⟨A1, vb, A2, va, B, by simp⟩
  · obtain ⟨B1, vb, B2, rfl⟩ := mem_split_pairs hbB
    left
    exact ⟨A, va, B1, vb, B2, rfl⟩

theorem listIndex_some_mem {x : Nat} {ys : List Nat} {i : Nat}
    (h : listIndex x ys = some i) : x ∈ ys := by
  induction ys generalizing i with
  | nil => simp [listIndex] at h
  | cons y ys' ih =>
    simp only [listIndex] at h
    by_cases hy : y = x
    · simp [hy]
    · rw [if_neg hy] at h
      rcases hmap : listIndex x ys' with _ | j
      · rw [hmap] at h
        simp at h
      · exact List.mem_cons_of_mem _ (ih hmap)

theorem listIndex_none_of_not_mem {x : Nat} {ys : List Nat} (h : x ∉ ys) :
    listIndex x ys = none := by
  induction ys with
  | nil => rfl
  | cons y ys' ih =>
    have hy : ¬ (y = x) := fun hcon => h (by simp [hcon])
    have hrest := ih (fun hin => h (List.mem_cons_of_mem _ hin))
    simp only [listIndex, if_neg hy, hrest]
    rfl

theorem foldK_lastL (l : List (Nat × Nat)) : ∀ p : Link,
    (l.map Prod.fst).foldl (fun _ j => Link.key j) p = lastL p l := by
  induction l with
  | nil => intro p; rfl
  | cons hd rest ih =>
    intro p
    obtain ⟨k, v⟩ := hd
    simp only [List.map_cons, List.foldl_cons]
    exact ih (Link.key k)

theorem updateVal_id {l : List (Nat × Nat)} {k : Nat} (h : k ∉ l.map Prod.fst) (v : Nat) :
    updateVal l k v = l := by
  induction l with
  | nil => rfl
  | cons y ys ih =>
    obtain ⟨ky, vy⟩ := y
    have hky : ¬ (ky = k) := fun hcon => h (by simp [hcon])
    have hrest : k ∉ ys.map Prod.fst := fun hin => h (by simp [hin])
    show (if ky = k then (k, v) else (ky, vy)) ::
        ys.map (fun kv => if kv.1 = k then (k, v) else kv) = (ky, vy) :: ys
    rw [if_neg hky]
    exact congrArg (List.cons (ky, vy)) (ih hrest)

theorem updateVal_mid (l₁ l₂ : List (Nat × Nat)) (k vk v : Nat)
    (h1 : k ∉ l₁.map Prod.fst) (h2 : k ∉ l₂.map Prod.fst) :
    updateVal (l₁ ++ (k, vk) :: l₂) k v = l₁ ++ (k, v) :: l₂ := by
  show (l₁ ++ (k, vk) :: l₂).map (fun kv => if kv.1 = k then (k, v) else kv) = _
  rw [List.map_append, List.map_cons]
  show updateVal l₁ k v ++ (if k = k then (k, v) else (k, vk)) :: updateVal l₂ k v = _
  rw [if_pos rfl, updateVal_id h1, updateVal_id h2]

theorem Represents.prev_consistent {s : Odict} {l : List (Nat × Nat)}
    (h : Represents s l) {k p : Nat} {e : Entry}
    (hk : dictGet s.entries k = some e) (hp : e.prev = Link.key p) :
    ∃ ep, dictGet s.entries p = some ep ∧ ep.next = Link.key k := by
  have hkmem : k ∈ l.map Prod.fst := by
    rw [← h.mem_iff, ← dictGet_isSome_iff, hk]
    rfl
  obtain ⟨A, v, B, hsplit, hrec⟩ := h.get_mem hkmem
  rw [hk] at hrec
  obtain rfl : e = ⟨lastL Link.nil A, v, headL Link.nil B⟩ := Option.some.inj hrec
  have hp' : lastL Link.nil A = Link.key p := hp
  rcases List.eq_nil_or_concat A with rfl | ⟨A', pv, rfl⟩
  · exact absurd hp' (by simp [lastL])
  · obtain ⟨p0, vp⟩ := pv
    rw [List.concat_eq_append] at hsplit hp'
    rw [lastL_concat] at hp'
    obtain rfl : p = p0 := (Link.key.inj hp').symm
    have hseg := h.seg
    rw [hsplit] at hseg
    obtain ⟨hs1, hs2⟩ := hseg.split (A' ++ [(p, vp)]) ((k, v) :: B)
    obtain ⟨hs11, hs12⟩ := hs1.split (A') ([(p, vp)])
    obtain ⟨xp, hgp, hrest, hhd⟩ := hs12.cons_inv
    have hxp : xp = headL Link.nil ((k, v) :: B) := hrest.nil_inv
    subst hxp
    exact ⟨_, hgp, rfl⟩

theorem Represents.next_consistent {s : Odict} {l : List (Nat × Nat)}
    (h : Represents s l) {k n : Nat} {e : Entry}
    (hk : dictGet s.entries k = some e) (hn : e.next = Link.key n) :
    ∃ en, dictGet s.entries n = some en ∧ en.prev = Link.key k := by
  have hkmem : k ∈ l.map Prod.fst := by
    rw [← h.mem_iff, ← dictGet_isSome_iff, hk]
    rfl
  obtain ⟨A, v, B, hsplit, hrec⟩ := h.get_mem hkmem
  rw [hk] at hrec
  obtain rfl : e = ⟨lastL Link.nil A, v, headL Link.nil B⟩ := Option.some.inj hrec
  have hn' : headL Link.nil B = Link.key n := hn
  cases B with
  | nil => exact absurd hn' (by simp [headL])
  | cons nb B' =>
    obtain ⟨n0, vn⟩ := nb
    obtain rfl : n = n0 := (Link.key.inj hn').symm
    have hseg := h.seg
    rw [hsplit] at hseg
    have hre : A ++ (k, v) :: (n, vn) :: B' = (A ++ [(k, v)]) ++ (n, vn) :: B' := by simp
    rw [hre] at hseg
    obtain ⟨hs1, hs2⟩ := hseg.split (A ++ [(k, v)]) ((n, vn) :: B')
    obtain ⟨xn, hgn, hrest, hhd⟩ := hs2.cons_inv
    refine ⟨_, hgn, ?_⟩
    show lastL Link.nil (A ++ [(k, v)]) = Link.key k
    rw [lastL_concat]

theorem Represents.invariants {s : Odict} {l : List (Nat × Nat)}
    (h : Represents s l) : Invariants s := by
  refine ⟨?_, ?_, h.endLink_eq, ?_, ?_, ?_, ?_, ?_⟩
  · rw [h.keys_eq]
    exact h.nodup
  · rw [h.keys_eq]
    exact h.perm.symm
  · rw [h.keys_eq, lastK, foldK_lastL]
    exact h.tail_eq
  · rw [h.rkeys_eq, h.keys_eq]
  · rw [prevConsistentB, List.all_eq_true]
    intro kv hkv
    obtain ⟨k, e⟩ := kv
    have hget : dictGet s.entries k = some e := dictGet_of_mem_nodup h.entries_nodup hkv
    rcases hprev : e.prev with _ | p
    · simp [hprev]
    · obtain ⟨ep, hgp, hnext⟩ := h.prev_consistent hget hprev
      simp [hprev, hgp, hnext]
  · rw [nextConsistentB, List.all_eq_true]
    intro kv hkv
    obtain ⟨k, e⟩ := kv
    have hget : dictGet s.entries k = some e := dictGet_of_mem_nodup h.entries_nodup hkv
    rcases hnext : e.next with _ | n
    · simp [hnext]
    · obtain ⟨en, hgn, hprev⟩ := h.next_consistent hget hnext
      simp [hnext, hgn, hprev]
  · constructor
    · intro hent
      have hl : l = [] := by
        have hp := h.perm
        rw [hent] at hp
        simp only [List.map_nil] at hp
        exact List.map_eq_nil_iff.mp hp.symm.eq_nil
      subst hl
      exact ⟨by simpa [headL] using h.lh_eq, by simpa [lastL] using h.tail_eq⟩
    · rintro ⟨hlh, hlt⟩
      have hl : l = [] := by
        have hh := h.lh_eq
        rw [hlh] at hh
        exact (headL_eq_nil_iff l).mp hh.symm
      subst hl
      have hp := h.perm
      simp only [List.map_nil] at hp
      exact List.map_eq_nil_iff.mp hp.eq_nil

theorem insertByVal_perm (x : Nat × Nat) (l : List (Nat × Nat)) :
    (insertByVal x l).Perm (x :: l) := by
  induction l with
  | nil => exact List.Perm.refl _
  | cons y ys ih =>
    by_cases hxy : x.2 ≤ y.2
    · simp only [insertByVal, if_pos hxy]
      exact List.Perm.refl _
    · simp only [insertByVal, if_neg hxy]
      exact (ih.cons y).trans (List.Perm.swap x y ys)

theorem sortByVal_perm (l : List (Nat × Nat)) : (sortByVal l).Perm l := by
  induction l with
  | nil => exact List.Perm.refl _
  | cons x xs ih =>
    simp only [sortByVal]
    exact (insertByVal_perm x (sortByVal xs)).trans (ih.cons x)

theorem insertByVal_pairwise {l : List (Nat × Nat)} (x : Nat × Nat)
    (h : l.Pairwise (fun u w => u.2 ≤ w.2)) :
    (insertByVal x l).Pairwise (fun u w => u.2 ≤ w.2) := by
  induction l with
  | nil => simp [insertByVal]
  | cons y ys ih =>
    rcases List.pairwise_cons.mp h with ⟨hy, hys⟩
    by_cases hxy : x.2 ≤ y.2
    · simp only [insertByVal, if_pos hxy]
      refine List.pairwise_cons.mpr ⟨?_, h⟩
      intro z hz
      rcases List.mem_cons.mp hz with rfl | hz'
      · exact hxy
      · exact Nat.le_trans hxy (hy z hz')
    · simp only [insertByVal, if_neg hxy]
      refine List.pairwise_cons.mpr ⟨?_, ih hys⟩
      intro z hz
      have hz' : z = x ∨ z ∈ ys := by
        have := (insertByVal_perm x ys).mem_iff.mp hz
        simpa using this
      rcases hz' with rfl | hz''
      · exact Nat.le_of_not_le hxy
      · exact hy z hz''

theorem sortByVal_pairwise (l : List (Nat × Nat)) :
    (sortByVal l).Pairwise (fun u w => u.2 ≤ w.2) := by
  induction l with
  | nil => simp [sortByVal]
  | cons x xs ih =>
    simp only [sortByVal]
    exact insertByVal_pairwise x ih

theorem insertByVal_filter_eq {x : Nat × Nat} {v : Nat} (hv : x.2 = v)
    (l : List (Nat × Nat)) :
    (insertByVal x l).filter (fun kv => kv.2 == v) =
      x :: l.filter (fun kv => kv.2 == v) := by
  induction l with
  | nil => simp [insertByVal, List.filter, hv]
  | cons y ys ih =>
    by_cases hxy : x.2 ≤ y.2
    · simp only [insertByVal, if_pos hxy]
      rw [List.filter_cons_of_pos (by simp [hv])]
    · simp only [insertByVal, if_neg hxy]
      have hyv : ¬ (y.2 = v) := by
        intro hcon
        exact hxy (by omega)
      rw [List.filter_cons_of_neg (by simp [hyv]), ih,
        List.filter_cons_of_neg (by simp [hyv])]

theorem insertByVal_filter_ne {x : Nat × Nat} {v : Nat} (hv : ¬ (x.2 = v))
    (l : List (Nat × Nat)) :
    (insertByVal x l).filter (fun kv => kv.2 == v) =
      l.filter (fun kv => kv.2 == v) := by
  induction l with
  | nil =>
    show List.filter (fun kv => kv.2 == v) [x] = List.filter (fun kv => kv.2 == v) []
    rw [List.filter_cons_of_neg (by simp [hv])]
  | cons y ys ih =>
    by_cases hxy : x.2 ≤ y.2
    · simp only [insertByVal, if_pos hxy]
      rw [List.filter_cons_of_neg (by simp [hv])]
    · simp only [insertByVal, if_neg hxy]
      by_cases hyv : y.2 = v
      · rw [List.filter_cons_of_pos (by simp [hyv]), ih,
          List.filter_cons_of_pos (by simp [hyv])]
      · rw [List.filter_cons_of_neg (by simp [hyv]), ih,
          List.filter_cons_of_neg (by simp [hyv])]

theorem sortByVal_filter (l : List (Nat × Nat)) (v : Nat) :
    (sortByVal l).filter (fun kv => kv.2 == v) =
      l.filter (fun kv => kv.2 == v) := by
  induction l with
  | nil => rfl
  | cons x xs ih =>
    simp only [sortByVal]
    by_cases hv : x.2 = v
    · rw [insertByVal_filter_eq hv, ih, List.filter_cons_of_pos (by simp [hv])]
    · rw [insertByVal_filter_ne hv, ih, List.filter_cons_of_neg (by simp [hv])]

theorem odinit_represents {s : Odict} {acc : List (Nat × Nat)}
    (h : Represents s acc) :
    ∀ data : List (Nat × Nat), (data.map Prod.fst).Nodup →
      (∀ k, k ∈ data.map Prod.fst → k ∉ acc.map Prod.fst) →
      Represents (odinit s data) (acc ++ data) := by
  intro data
  induction data generalizing s acc with
  | nil =>
    intro hnd hfresh
    simpa [odinit] using h
  | cons kv rest ih =>
    intro hnd hfresh
    obtain ⟨k, v⟩ := kv
    simp only [List.map_cons, List.nodup_cons] at hnd
    have hknot : k ∉ acc.map Prod.fst := hfresh k (by simp)
    have hnone : dictGet s.entries k = none := (h.get_none_iff k).mpr hknot
    have h1 : Represents (s.setItem k v) (acc ++ [(k, v)]) :=
      setItem_represents_new h hnone
    have hfresh1 : ∀ k', k' ∈ rest.map Prod.fst →
        k' ∉ (acc ++ [(k, v)]).map Prod.fst := by
      intro k' hk' hin
      simp only [List.map_append, List.map_cons, List.map_nil, List.mem_append,
        List.mem_cons, List.not_mem_nil, or_false] at hin
      rcases hin with hin | hin
      · exact hfresh k' (by simp [hk']) hin
      · exact hnd.1 (hin ▸ hk')
    have hres := ih h1 hnd.2 hfresh1
    have hodeq : odinit s ((k, v) :: rest) = odinit (s.setItem k v) rest := rfl
    rw [hodeq]
    have hshape : (acc ++ [(k, v)]) ++ rest = acc ++ (k, v) :: rest := by simp
    rw [hshape] at hres
    exact hres

/-- A `fromList` construction with pairwise-distinct keys represents its
input list. -/
theorem fromList_represents (data : List (Nat × Nat))
    (hnd : (data.map Prod.fst).Nodup) : Represents (fromList data) data := by
  have := odinit_represents represents_empty data hnd (by simp)
  simpa [fromList] using this

/-- Default `sort` on a represented state: the result represents the stable
value-sort of the pair list. -/
theorem sortDefault_represents {s : Odict} {l : List (Nat × Nat)}
    (h : Represents s l) : Represents s.sortDefault (sortByVal l) := by
  rw [Odict.sortDefault, h.items_eq]
  have hnd : ((sortByVal l).map Prod.fst).Nodup :=
    (((sortByVal_perm l).map Prod.fst).nodup_iff).mpr h.nodup
  have := odinit_represents (clear_represents s) (sortByVal l) hnd (by simp)
  simpa using this

theorem setItem_ex {s : Odict} {l : List (Nat × Nat)} (h : Represents s l)
    (k v : Nat) : ∃ l', Represents (s.setItem k v) l' := by
  rcases hg : dictGet s.entries k with _ | e
  · exact ⟨l ++ [(k, v)], setItem_represents_new h hg⟩
  · exact ⟨updateVal l k v, setItem_represents_mem h hg⟩

theorem delItem_ok_ex {s s' : Odict} {l : List (Nat × Nat)} (h : Represents s l)
    {k : Nat} (hok : s.delItem k = Except.ok s') :
    ∃ l', Represents s' l' := by
  rcases hg : dictGet s.entries k with _ | e
  · simp [Odict.delItem, hg] at hok
  · have hkmem : k ∈ l.map Prod.fst := by
      rw [← h.mem_iff, ← dictGet_isSome_iff, hg]
      rfl
    obtain ⟨l₁, vk, l₂, rfl⟩ := mem_split_pairs hkmem
    obtain ⟨s2, hok2, hrep2⟩ := delItem_represents h
    rw [hok] at hok2
    obtain rfl : s' = s2 := Except.ok.inj hok2
    exact ⟨l₁ ++ l₂, hrep2⟩

theorem swap_ok_ex {s s' : Odict} {l : List (Nat × Nat)} (h : Represents s l)
    {a b : Nat} (hok : s.swap a b = Except.ok s') :
    ∃ l', Represents s' l' := by
  by_cases hab : a = b
  · simp [Odict.swap, if_pos hab] at hok
  · rcases hga : dictGet s.entries a with _ | ea
    · simp [Odict.swap, if_neg hab, hga] at hok
    · rcases hgb : dictGet s.entries b with _ | eb
      · simp [Odict.swap, if_neg hab, hga, hgb] at hok
      · have hamem : a ∈ l.map Prod.fst := by
          rw [← h.mem_iff, ← dictGet_isSome_iff, hga]
          rfl
        have hbmem : b ∈ l.map Prod.fst := by
          rw [← h.mem_iff, ← dictGet_isSome_iff, hgb]
          rfl
        rcases two_mem_split hamem hbmem hab with hsp | hsp
        · obtain ⟨l₁, va, l₂, vb, l₃, rfl⟩ := hsp
          obtain ⟨s2, hok2, hrep2⟩ := swap_represents_ab h hab
          rw [hok] at hok2
          obtain rfl : s' = s2 := Except.ok.inj hok2
          exact ⟨_, hrep2⟩
        · obtain ⟨l₁, vb, l₂, va, l₃, rfl⟩ := hsp
          obtain ⟨s2, hok2, hrep2⟩ := swap_represents_ba h hab
          rw [hok] at hok2
          obtain rfl : s' = s2 := Except.ok.inj hok2
          exact ⟨_, hrep2⟩

theorem movebefore_ok_ex {s s' : Odict} {l : List (Nat × Nat)} (h : Represents s l)
    {ref k : Nat} (hok : s.movebefore ref k = Except.ok s') :
    ∃ l', Represents s' l' := by
  by_cases hrk : ref = k
  · simp [Odict.movebefore, if_pos hrk] at hok
  · rcases hgk : dictGet s.entries k with _ | ek
    · simp [Odict.movebefore, if_neg hrk, hgk] at hok
    · rcases hgr : dictGet s.entries ref with _ | er
      · simp [Odict.movebefore, if_neg hrk, hgk, hgr] at hok
      · have hkmem : k ∈ l.map Prod.fst := by
          rw [← h.mem_iff, ← dictGet_isSome_iff, hgk]
          rfl
        obtain ⟨l₁, vk, l₂, rfl⟩ := mem_split_pairs hkmem
        have hrmem : ref ∈ (l₁ ++ l₂).map Prod.fst := by
          have hrl : ref ∈ ((l₁ ++ (k, vk) :: l₂).map Prod.fst) := by
            rw [← h.mem_iff, ← dictGet_isSome_iff, hgr]
            rfl
          simp only [List.map_append, List.map_cons, List.mem_append,
            List.mem_cons] at hrl ⊢
          rcases hrl with h1 | h1 | h1
          · exact Or.inl h1
          · exact absurd h1 hrk
          · exact Or.inr h1
        obtain ⟨r₁, vr, r₂, hsplit2⟩ := mem_split_pairs hrmem
        obtain ⟨s2, hok2, hrep2⟩ := movebefore_represents h hrk hsplit2
        rw [hok] at hok2
        obtain rfl : s' = s2 := Except.ok.inj hok2
        exact ⟨_, hrep2⟩

theorem moveafter_ok_ex {s s' : Odict} {l : List (Nat × Nat)} (h : Represents s l)
    {ref k : Nat} (hok : s.moveafter ref k = Except.ok s') :
    ∃ l', Represents s' l' := by
  by_cases hrk : ref = k
  · simp [Odict.moveafter, if_pos hrk] at hok
  · rcases hgk : dictGet s.entries k with _ | ek
    · simp [Odict.moveafter, if_neg hrk, hgk] at hok
    · rcases hgr : dictGet s.entries ref with _ | er
      · simp [Odict.moveafter, if_neg hrk, hgk, hgr] at hok
      · have hkmem : k ∈ l.map Prod.fst := by
          rw [← h.mem_iff, ← dictGet_isSome_iff, hgk]
          rfl
        obtain ⟨l₁, vk, l₂, rfl⟩ := mem_split_pairs hkmem
        have hrmem : ref ∈ (l₁ ++ l₂).map Prod.fst := by
          have hrl : ref ∈ ((l₁ ++ (k, vk) :: l₂).map Prod.fst) := by
            rw [← h.mem_iff, ← dictGet_isSome_iff, hgr]
            rfl
          simp only [List.map_append, List.map_cons, List.mem_append,
            List.mem_cons] at hrl ⊢
          rcases hrl with h1 | h1 | h1
          · exact Or.inl h1
          · exact absurd h1 hrk
          · exact Or.inr h1
        obtain ⟨r₁, vr, r₂, hsplit2⟩ := mem_split_pairs hrmem
        obtain ⟨s2, hok2, hrep2⟩ := moveafter_represents h hrk hsplit2
        rw [hok] at hok2
        obtain rfl : s' = s2 := Except.ok.inj hok2
        exact ⟨_, hrep2⟩

theorem insertbefore_ok_ex {s s' : Odict} {l : List (Nat × Nat)} (h : Represents s l)
    {ref k v : Nat} (hnone : dictGet s.entries k = none)
    (hok : s.insertbefore ref k v = Except.ok s') :
    ∃ l', Represents s' l' := by
  by_cases hrk : ref = k
  · simp [Odict.insertbefore, if_pos hrk] at hok
  · rcases hidx : listIndex ref s.keys with _ | i
    · simp [Odict.insertbefore, if_neg hrk, hidx] at hok
    · have hrefk : ref ∈ s.keys := listIndex_some_mem hidx
      rw [h.keys_eq] at hrefk
      obtain ⟨r₁, vr, r₂, rfl⟩ := mem_split_pairs hrefk
      have hknot : k ∉ (r₁ ++ (ref, vr) :: r₂).map Prod.fst := (h.get_none_iff k).mp hnone
      obtain ⟨s2, hok2, hrep2⟩ := insertbefore_represents h hrk hknot
      rw [hok] at hok2
      obtain rfl : s' = s2 := Except.ok.inj hok2
      exact ⟨_, hrep2⟩

theorem insertafter_ok_ex {s s' : Odict} {l : List (Nat × Nat)} (h : Represents s l)
    {ref k v : Nat} (hnone : dictGet s.entries k = none)
    (hok : s.insertafter ref k v = Except.ok s') :
    ∃ l', Represents s' l' := by
  by_cases hrk : ref = k
  · simp [Odict.insertafter, if_pos hrk] at hok
  · rcases hidx : listIndex ref s.keys with _ | i
    · simp [Odict.insertafter, if_neg hrk, hidx] at hok
    · have hrefk : ref ∈ s.keys := listIndex_some_mem hidx
      rw [h.keys_eq] at hrefk
      obtain ⟨r₁, vr, r₂, rfl⟩ := mem_split_pairs hrefk
      have hknot : k ∉ (r₁ ++ (ref, vr) :: r₂).map Prod.fst := (h.get_none_iff k).mp hnone
      obtain ⟨s2, hok2, hrep2⟩ := insertafter_represents h hrk hknot
      rw [hok] at hok2
      obtain rfl : s' = s2 := Except.ok.inj hok2
      exact ⟨_, hrep2⟩

/-- Every reachable state is a well-formed doubly-linked list over its dict. -/
theorem reachable_represents {s : Odict} (h : Reachable s) :
    ∃ l : List (Nat × Nat), Represents s l := by
  induction h with
  | empty => exact ⟨[], represents_empty⟩
  | set k v hr ih =>
    obtain ⟨l, hrep⟩ := ih
    exact setItem_ex hrep k v
  | del k hr hok ih =>
    obtain ⟨l, hrep⟩ := ih
    exact delItem_ok_ex hrep hok
  | swap a b hr hok ih =>
    obtain ⟨l, hrep⟩ := ih
    exact swap_ok_ex hrep hok
  | mvb ref k hr hok ih =>
    obtain ⟨l, hrep⟩ := ih
    exact movebefore_ok_ex hrep hok
  | mva ref k hr hok ih =>
    obtain ⟨l, hrep⟩ := ih
    exact moveafter_ok_ex hrep hok
  | insb ref k v hr hnone hok ih =>
    obtain ⟨l, hrep⟩ := ih
    exact insertbefore_ok_ex hrep hnone hok
  | insa ref k v hr hnone hok ih =>
    obtain ⟨l, hrep⟩ := ih
    exact insertafter_ok_ex hrep hnone hok
  | sort hr ih =>
    obtain ⟨l, hrep⟩ := ih
    exact ⟨sortByVal l, sortDefault_represents hrep⟩
  | clear hr ih =>
    exact ⟨[], clear_represents _⟩

theorem erase_rev_mid (A B : List Nat) (k : Nat) (hkB : k ∉ B) :
    ((A ++ k :: B).reverse).erase k = (A ++ B).reverse := by
  rw [List.reverse_append, List.reverse_cons, List.append_assoc,
    List.erase_append_right _ (by simpa using hkB), List.singleton_append,
    List.erase_cons_head, List.reverse_append]

/-- C1: every state reachable from the empty map by the public operations
(each call succeeding; inserted keys absent) satisfies the linked-structure
invariants: the forward traversal visits every stored key exactly once and
ends at nil after the tail key, the backward traversal is the exact reverse,
prev/next links are mutually consistent, and the map is empty exactly when
head and tail are both nil. -/
theorem C1_reachable_invariants (s : Odict) (h : Reachable s) : Invariants s := by
  obtain ⟨l, hrep⟩ := reachable_represents h
  exact hrep.invariants

theorem C1_witness : Invariants (fromList [(0, 5), (1, 6), (2, 7)]) :=
  C1_reachable_invariants _
    (Reachable.set 2 7 (Reachable.set 1 6 (Reachable.set 0 5 Reachable.empty)))

/-- C2: for distinct present keys `a` and `b` (in either adjacency
configuration, captured by the arbitrary list decomposition), `swap a b`
exchanges exactly the two positions while each key keeps its own value and
everything else stays in place, head and tail following from the represented
order; swapping again restores the original order; and `swap a a` fails with
`InvalidArgument` returning the untouched state. -/
theorem C2_swap (s : Odict) (l₁ l₂ l₃ : List (Nat × Nat)) (a va b vb : Nat) :
    (Represents s (l₁ ++ (a, va) :: (l₂ ++ (b, vb) :: l₃)) → a ≠ b →
      ∃ s', s.swap a b = Except.ok s' ∧
        Represents s' (l₁ ++ (b, vb) :: (l₂ ++ (a, va) :: l₃)) ∧
        ∃ s'', s'.swap a b = Except.ok s'' ∧
          Represents s'' (l₁ ++ (a, va) :: (l₂ ++ (b, vb) :: l₃))) ∧
    s.swap a a = Except.error (Err.invalidArgument, s) := by
  constructor
  · intro h hab
    obtain ⟨s', hok1, hrep1⟩ := swap_represents_ab h hab
    obtain ⟨s'', hok2, hrep2⟩ := swap_represents_ba hrep1 hab
    exact ⟨s', hok1, hrep1, s'', hok2, hrep2⟩
  · rw [Odict.swap, if_pos rfl]

theorem C2_witness :
    ∃ s', (fromList [(0, 1), (1, 2), (2, 3)]).swap 0 2 = Except.ok s' ∧
      Represents s' ([] ++ (2, 3) :: ([(1, 2)] ++ (0, 1) :: [])) ∧
      ∃ s'', s'.swap 0 2 = Except.ok s'' ∧
        Represents s'' ([] ++ (0, 1) :: ([(1, 2)] ++ (2, 3) :: [])) :=
  (C2_swap (fromList [(0, 1), (1, 2), (2, 3)]) [] [(1, 2)] [] 0 1 2 3).1
    (fromList_represents _ (by decide)) (by decide)

/-- C3: `movebefore ref k` yields exactly the order obtained by deleting `k`
and reinserting it immediately before `ref` (values unchanged, head/tail
following, all adjacency and endpoint cases covered by the decomposition);
`moveafter` symmetrically reinserts immediately after; both fail with
`InvalidArgument` on equal arguments without mutation; and `movefirst` of the
current first key returns the state unchanged. -/
theorem C3_move (s : Odict) (l₁ l₂ r₁ r₂ rest : List (Nat × Nat))
    (k vk ref vr k0 v0 : Nat) :
    (Represents s (l₁ ++ (k, vk) :: l₂) → ref ≠ k →
      l₁ ++ l₂ = r₁ ++ (ref, vr) :: r₂ →
      (∃ s', s.movebefore ref k = Except.ok s' ∧
        Represents s' (r₁ ++ (k, vk) :: (ref, vr) :: r₂)) ∧
      (∃ s', s.moveafter ref k = Except.ok s' ∧
        Represents s' (r₁ ++ (ref, vr) :: (k, vk) :: r₂))) ∧
    s.movebefore ref ref = Except.error (Err.invalidArgument, s) ∧
    s.moveafter ref ref = Except.error (Err.invalidArgument, s) ∧
    (Represents s ((k0, v0) :: rest) → s.movefirst k0 = Except.ok s) := by
  refine ⟨?_, ?_, ?_, ?_⟩
  · intro h hrk hsp
    exact ⟨movebefore_represents h hrk hsp, moveafter_represents h hrk hsp⟩
  · rw [Odict.movebefore, if_pos rfl]
  · rw [Odict.moveafter, if_pos rfl]
  · intro h
    have hlen : s.keys.length ≠ 0 := by
      rw [h.keys_eq]
      simp
    have hfk : s.firstkey = Except.ok (s.lh, s) := by
      rw [Odict.firstkey, if_pos hlen]
    have hlh : s.lh = Link.key k0 := h.lh_eq
    simp [Odict.movefirst, hfk, hlh]

theorem C3_witness :
    (∃ s', (fromList [(0, 10), (1, 11), (2, 12)]).movebefore 2 1 = Except.ok s' ∧
      Represents s' ([(0, 10)] ++ (1, 11) :: (2, 12) :: [])) ∧
    (∃ s', (fromList [(0, 10), (1, 11), (2, 12)]).moveafter 2 1 = Except.ok s' ∧
      Represents s' ([(0, 10)] ++ (2, 12) :: (1, 11) :: [])) :=
  (C3_move (fromList [(0, 10), (1, 11), (2, 12)]) [(0, 10)] [(2, 12)] [(0, 10)] []
    [(1, 11), (2, 12)] 1 11 2 12 0 10).1
    (fromList_represents _ (by decide)) (by decide) rfl

/-- C4: `__setitem__` with a present key overwrites the value in place (key
order unchanged; repeated sets keep the position and a lookup returns the
newest value); with an absent key it appends a record linked at the tail
(prev = old tail, next = nil), moves `lt` to the new key, and moves `lh`
there exactly when the map was empty. -/
theorem C4_set (s : Odict) (l l₁ l₂ : List (Nat × Nat)) (k v v1 v2 vk : Nat) :
    (Represents s (l₁ ++ (k, vk) :: l₂) →
      Represents (s.setItem k v) (l₁ ++ (k, v) :: l₂) ∧
      ((s.setItem k v1).setItem k v2).keys = s.keys ∧
      ((s.setItem k v1).setItem k v2).getItem k = Except.ok v2) ∧
    (Represents s l → k ∉ l.map Prod.fst →
      Represents (s.setItem k v) (l ++ [(k, v)]) ∧
      dictGet (s.setItem k v).entries k = some ⟨s.lt, v, Link.nil⟩ ∧
      (s.setItem k v).lt = Link.key k ∧
      (s.setItem k v).lh = (if l = [] then Link.key k else s.lh)) := by
  constructor
  · intro h
    obtain ⟨hkl₁, hkl₂, hdisj, hnd1, hnd2⟩ := nodup_mid h.nodup
    obtain ⟨hs1, hs2⟩ := h.seg.split (l₁) ((k, vk) :: l₂)
    obtain ⟨x1, hgk, hrest, hhd⟩ := hs2.cons_inv
    have hs1eq : s.setItem k v1 =
        ⟨dictSet s.entries k ⟨lastL Link.nil l₁, v1, x1⟩, s.lh, s.lt⟩ := by
      rw [Odict.setItem, hgk]
    have hgk1 : dictGet (s.setItem k v1).entries k =
        some ⟨lastL Link.nil l₁, v1, x1⟩ := by
      rw [hs1eq]
      show dictGet (dictSet s.entries k ⟨lastL Link.nil l₁, v1, x1⟩) k = _
      rw [dictGet_dictSet, if_pos rfl]
    have h1 : Represents (s.setItem k v1)
        (updateVal (l₁ ++ (k, vk) :: l₂) k v1) := setItem_represents_mem h hgk
    have h2 : Represents ((s.setItem k v1).setItem k v2)
        (updateVal (updateVal (l₁ ++ (k, vk) :: l₂) k v1) k v2) :=
      setItem_represents_mem h1 hgk1
    refine ⟨?_, ?_, ?_⟩
    · have hupd : Represents (s.setItem k v) (updateVal (l₁ ++ (k, vk) :: l₂) k v) :=
        setItem_represents_mem h hgk
      rwa [updateVal_mid l₁ l₂ k vk v hkl₁ hkl₂] at hupd
    · rw [h2.keys_eq, h.keys_eq, mapFst_updateVal, mapFst_updateVal]
    · have hg2 : dictGet ((s.setItem k v1).setItem k v2).entries k =
          some ⟨lastL Link.nil l₁, v2, x1⟩ := by
        have hs2eq : (s.setItem k v1).setItem k v2 =
            ⟨dictSet (s.setItem k v1).entries k ⟨lastL Link.nil l₁, v2, x1⟩,
              (s.setItem k v1).lh, (s.setItem k v1).lt⟩ := by
          rw [Odict.setItem, hgk1]
        rw [hs2eq]
        show dictGet (dictSet (s.setItem k v1).entries k
          ⟨lastL Link.nil l₁, v2, x1⟩) k = _
        rw [dictGet_dictSet, if_pos rfl]
      simp [Odict.getItem, hg2]
  · intro h hknot
    have hnone : dictGet s.entries k = none := (h.get_none_iff k).mpr hknot
    have h' : Represents (s.setItem k v) (l ++ [(k, v)]) :=
      setItem_represents_new h hnone
    refine ⟨h', ?_, ?_, ?_⟩
    · obtain ⟨hsa, hsb⟩ := h'.seg.split (l) ([(k, v)])
      obtain ⟨x1, hgk, hrest, hhd⟩ := hsb.cons_inv
      have hx1 : x1 = Link.nil := hrest.nil_inv
      subst hx1
      rw [h.tail_eq]
      exact hgk
    · rw [h'.tail_eq, lastL_concat]
    · have hlh' := h'.lh_eq
      cases l with
      | nil =>
        rw [if_pos rfl]
        exact hlh'
      | cons hd0 lt' =>
        obtain ⟨k0, w0⟩ := hd0
        rw [if_neg (by simp)]
        rw [hlh', h.lh_eq]
        rfl

theorem C4_witness :
    Represents ((fromList [(0, 1), (1, 2)]).setItem 0 5) ([] ++ (0, 5) :: [(1, 2)]) ∧
    Represents ((fromList [(0, 1)]).setItem 5 9) ([(0, 1)] ++ [(5, 9)]) :=
  ⟨((C4_set (fromList [(0, 1), (1, 2)]) [] [] [(1, 2)] 0 5 6 7 1).1
      (fromList_represents _ (by decide))).1,
    ((C4_set (fromList [(0, 1)]) [(0, 1)] [] [] 5 9 6 7 1).2
      (fromList_represents _ (by decide)) (by decide)).1⟩

/-- C5: deleting a present key removes exactly its entry — the represented
order with the key removed, forward keys and backward traversal lose exactly
that key, the length drops by exactly one; deleting an absent key fails with
`KeyNotFound` leaving the state untouched. -/
theorem C5_delete (s : Odict) (l l₁ l₂ : List (Nat × Nat)) (k vk : Nat) :
    (Represents s (l₁ ++ (k, vk) :: l₂) →
      ∃ s', s.delItem k = Except.ok s' ∧ Represents s' (l₁ ++ l₂) ∧
        s'.keys = s.keys.erase k ∧
        s'.rkeys = s.rkeys.erase k ∧
        s'.length + 1 = s.length) ∧
    (Represents s l → k ∉ l.map Prod.fst →
      s.delItem k = Except.error (Err.keyNotFound, s)) := by
  constructor
  · intro h
    obtain ⟨hkl₁, hkl₂, hdisj, hnd1, hnd2⟩ := nodup_mid h.nodup
    obtain ⟨s', hok, hrep'⟩ := delItem_represents h
    refine ⟨s', hok, hrep', ?_, ?_, ?_⟩
    · rw [hrep'.keys_eq, h.keys_eq]
      simp only [List.map_append, List.map_cons]
      rw [erase_mid _ _ _ hkl₁]
    · rw [hrep'.rkeys_eq, h.rkeys_eq]
      simp only [List.map_append, List.map_cons]
      rw [erase_rev_mid _ _ _ hkl₂]
    · rw [hrep'.length_eq, h.length_eq]
      simp only [List.length_append, List.length_cons]
      omega
  · intro h hknot
    have hnone : dictGet s.entries k = none := (h.get_none_iff k).mpr hknot
    simp [Odict.delItem, hnone]

theorem C5_witness :
    ∃ s', (fromList [(0, 1), (1, 2), (2, 3)]).delItem 1 = Except.ok s' ∧
      Represents s' ([(0, 1)] ++ [(2, 3)]) ∧
      s'.keys = (fromList [(0, 1), (1, 2), (2, 3)]).keys.erase 1 ∧
      s'.rkeys = (fromList [(0, 1), (1, 2), (2, 3)]).rkeys.erase 1 ∧
      s'.length + 1 = (fromList [(0, 1), (1, 2), (2, 3)]).length :=
  (C5_delete (fromList [(0, 1), (1, 2), (2, 3)]) [] [(0, 1)] [(2, 3)] 1 2).1
    (fromList_represents _ (by decide))

/-- C6: the default `sort` rebuilds the map as clear plus reinsertion of the
stable ascending-by-value sort of the previous pairs; the sorting function is
a permutation, sorted by value, and stable on ties; and the concrete
three-element example sorts exactly as specified. -/
theorem C6_sort (s : Odict) (l : List (Nat × Nat)) :
    (Represents s l → Represents s.sortDefault (sortByVal l)) ∧
    s.sortDefault = odinit s.clear (sortByVal s.items) ∧
    (sortByVal l).Perm l ∧
    (sortByVal l).Pairwise (fun u w => u.2 ≤ w.2) ∧
    (∀ v, (sortByVal l).filter (fun kv => kv.2 == v) =
      l.filter (fun kv => kv.2 == v)) ∧
    (fromList [(0, 3), (1, 1), (2, 2)]).sortDefault.items = [(1, 1), (2, 2), (0, 3)] :=
  ⟨fun h => sortDefault_represents h, rfl, sortByVal_perm l, sortByVal_pairwise l,
    fun v => sortByVal_filter l v, by decide⟩

theorem C6_witness :
    Represents (fromList [(0, 3), (1, 1), (2, 2)]).sortDefault
      (sortByVal [(0, 3), (1, 1), (2, 2)]) :=
  (C6_sort (fromList [(0, 3), (1, 1), (2, 2)]) [(0, 3), (1, 1), (2, 2)]).1
    (fromList_represents _ (by decide))

/-- C7: every enumerated failing call (delete/pop-without-default on an
absent key, next_key/prev_key on an absent key, swap/move/insert with equal
key arguments, inserts with an absent reference key, firstkey/lastkey/popitem
on the empty map, keyword-style update) returns its error carrying the state
exactly as it was before the call. -/
theorem C7_error_no_mutation (s : Odict) (l : List (Nat × Nat))
    (k ref v : Nat) (data : List (Nat × Nat)) :
    (Represents s l → k ∉ l.map Prod.fst →
      s.delItem k = Except.error (Err.keyNotFound, s) ∧
      s.pop k none = Except.error (Err.keyNotFound, s) ∧
      s.next_key k = Except.error (Err.keyNotFound, s) ∧
      s.prev_key k = Except.error (Err.keyNotFound, s)) ∧
    s.swap k k = Except.error (Err.invalidArgument, s) ∧
    s.movebefore k k = Except.error (Err.invalidArgument, s) ∧
    s.moveafter k k = Except.error (Err.invalidArgument, s) ∧
    s.insertbefore k k v = Except.error (Err.invalidArgument, s) ∧
    s.insertafter k k v = Except.error (Err.invalidArgument, s) ∧
    (Represents s l → ref ∉ l.map Prod.fst → ref ≠ k →
      s.insertbefore ref k v = Except.error (Err.keyNotFound, s) ∧
      s.insertafter ref k v = Except.error (Err.keyNotFound, s)) ∧
    (Represents s [] →
      s.firstkey = Except.error (Err.emptyContainer, s) ∧
      s.lastkey = Except.error (Err.emptyContainer, s) ∧
      s.popitem = Except.error (Err.emptyContainer, s)) ∧
    s.update true data = Except.error (Err.invalidArgument, s) := by
  refine ⟨?_, ?_, ?_, ?_, ?_, ?_, ?_, ?_, ?_⟩
  · intro h hknot
    have hnone : dictGet s.entries k = none := (h.get_none_iff k).mpr hknot
    refine ⟨?_, ?_, ?_, ?_⟩
    · simp [Odict.delItem, hnone]
    · simp [Odict.pop, hnone]
    · simp [Odict.next_key, hnone]
    · simp [Odict.prev_key, hnone]
  · rw [Odict.swap, if_pos rfl]
  · rw [Odict.movebefore, if_pos rfl]
  · rw [Odict.moveafter, if_pos rfl]
  · rw [Odict.insertbefore, if_pos rfl]
  · rw [Odict.insertafter, if_pos rfl]
  · intro h hrefnot hrk
    have hidx : listIndex ref s.keys = none := by
      rw [h.keys_eq]
      exact listIndex_none_of_not_mem hrefnot
    constructor
    · simp [Odict.insertbefore, if_neg hrk, hidx]
    · simp [Odict.insertafter, if_neg hrk, hidx]
  · intro h
    have hkeys : s.keys = [] := by
      rw [h.keys_eq]
      rfl
    have hlt : s.lt = Link.nil := by
      rw [h.tail_eq]
      rfl
    refine ⟨?_, ?_, ?_⟩
    · rw [Odict.firstkey, if_neg (by simp [hkeys])]
    · rw [Odict.lastkey, if_neg (by simp [hkeys])]
    · simp [Odict.popitem, hlt]
  · rw [Odict.update, if_pos rfl]

theorem C7_witness :
    (fromList []).delItem 5 = Except.error (Err.keyNotFound, fromList []) ∧
    (fromList []).insertbefore 7 5 9 = Except.error (Err.keyNotFound, fromList []) ∧
    (fromList []).firstkey = Except.error (Err.emptyContainer, fromList []) := by
  have h := C7_error_no_mutation (fromList []) [] 5 7 9 [(3, 4)]
  refine ⟨(h.1 (fromList_represents _ (by decide)) (by decide)).1, ?_, ?_⟩
  · exact ((h.2.2.2.2.2.2.1) (fromList_represents _ (by decide)) (by decide)
      (by decide)).1
  · exact ((h.2.2.2.2.2.2.2.1) (fromList_represents _ (by decide))).1

/-- C8: next_key fails with `KeyNotFound` on an absent key, with
`NoSuchNeighbor` on the last key, and otherwise returns the immediately
following key (prev_key symmetric); firstkey/lastkey fail with
`EmptyContainer` on the empty map and otherwise return the head/tail key. -/
theorem C8_neighbors (s : Odict) (l l₁ l₂ : List (Nat × Nat))
    (k vk n vn p vp : Nat) :
    (Represents s l → k ∉ l.map Prod.fst →
      s.next_key k = Except.error (Err.keyNotFound, s) ∧
      s.prev_key k = Except.error (Err.keyNotFound, s)) ∧
    (Represents s (l₁ ++ [(k, vk)]) →
      s.next_key k = Except.error (Err.noSuchNeighbor, s) ∧
      s.lastkey = Except.ok (Link.key k, s)) ∧
    (Represents s (l₁ ++ (k, vk) :: (n, vn) :: l₂) →
      s.next_key k = Except.ok (n, s)) ∧
    (Represents s ((k, vk) :: l₂) →
      s.prev_key k = Except.error (Err.noSuchNeighbor, s) ∧
      s.firstkey = Except.ok (Link.key k, s)) ∧
    (Represents s (l₁ ++ (p, vp) :: (k, vk) :: l₂) →
      s.prev_key k = Except.ok (p, s)) ∧
    (Represents s [] →
      s.firstkey = Except.error (Err.emptyContainer, s) ∧
      s.lastkey = Except.error (Err.emptyContainer, s)) := by
  refine ⟨?_, ?_, ?_, ?_, ?_, ?_⟩
  · intro h hknot
    have hnone : dictGet s.entries k = none := (h.get_none_iff k).mpr hknot
    exact ⟨by simp [Odict.next_key, hnone], by simp [Odict.prev_key, hnone]⟩
  · intro h
    obtain ⟨hs1, hs2⟩ := h.seg.split (l₁) ([(k, vk)])
    obtain ⟨x1, hgk, hrest, hhd⟩ := hs2.cons_inv
    have hx1 : x1 = Link.nil := hrest.nil_inv
    subst hx1
    constructor
    · simp [Odict.next_key, hgk]
    · have hlen : s.keys.length ≠ 0 := by
        rw [h.keys_eq]
        simp
      have hlt : s.lt = Link.key k := by
        rw [h.tail_eq, lastL_concat]
      rw [Odict.lastkey, if_pos hlen, hlt]
  · intro h
    obtain ⟨hs1, hs2⟩ := h.seg.split (l₁) ((k, vk) :: (n, vn) :: l₂)
    obtain ⟨x1, hgk, hrest, hhd⟩ := hs2.cons_inv
    have hx1 : x1 = Link.key n := hrest.head_eq
    subst hx1
    simp [Odict.next_key, hgk]
  · intro h
    obtain ⟨x1, hgk, hrest, hhd⟩ := h.seg.cons_inv
    constructor
    · simp [Odict.prev_key, hgk]
    · have hlen : s.keys.length ≠ 0 := by
        rw [h.keys_eq]
        simp
      have hlh : s.lh = Link.key k := h.lh_eq
      rw [Odict.firstkey, if_pos hlen, hlh]
  · intro h
    have hre : l₁ ++ (p, vp) :: (k, vk) :: l₂ = (l₁ ++ [(p, vp)]) ++ (k, vk) :: l₂ := by
      simp
    have hseg := h.seg
    rw [hre] at hseg
    obtain ⟨hs1, hs2⟩ := hseg.split (l₁ ++ [(p, vp)]) ((k, vk) :: l₂)
    obtain ⟨x1, hgk, hrest, hhd⟩ := hs2.cons_inv
    rw [lastL_concat] at hgk
    simp [Odict.prev_key, hgk]
  · intro h
    have hkeys : s.keys = [] := by
      rw [h.keys_eq]
      rfl
    constructor
    · rw [Odict.firstkey, if_neg (by simp [hkeys])]
    · rw [Odict.lastkey, if_neg (by simp [hkeys])]

theorem C8_witness :
    (fromList [(0, 1), (1, 2)]).next_key 0 =
      Except.ok (1, fromList [(0, 1), (1, 2)]) ∧
    (fromList [(0, 1), (1, 2)]).prev_key 1 =
      Except.ok (0, fromList [(0, 1), (1, 2)]) :=
  ⟨(C8_neighbors (fromList [(0, 1), (1, 2)]) [] [] [] 0 1 1 2 0 1).2.2.1
      (fromList_represents _ (by decide)),
    (C8_neighbors (fromList [(0, 1), (1, 2)]) [] [] [] 1 2 0 0 0 1).2.2.2.2.1
      (fromList_represents _ (by decide))⟩

/-- C9: `__getitem__` returns the stored value for a present key and fails
with `KeyNotFound` for an absent one. -/
theorem C9_get (s : Odict) (l l₁ l₂ : List (Nat × Nat)) (k vk : Nat) :
    (Represents s (l₁ ++ (k, vk) :: l₂) → s.getItem k = Except.ok vk) ∧
    (Represents s l → k ∉ l.map Prod.fst →
      s.getItem k = Except.error Err.keyNotFound) := by
  constructor
  · intro h
    obtain ⟨hs1, hs2⟩ := h.seg.split (l₁) ((k, vk) :: l₂)
    obtain ⟨x1, hgk, hrest, hhd⟩ := hs2.cons_inv
    simp [Odict.getItem, hgk]
  · intro h hknot
    have hnone : dictGet s.entries k = none := (h.get_none_iff k).mpr hknot
    simp [Odict.getItem, hnone]

theorem C9_witness :
    (fromList [(0, 1), (1, 2)]).getItem 1 = Except.ok 2 :=
  (C9_get (fromList [(0, 1), (1, 2)]) [] [(0, 1)] [] 1 2).1
    (fromList_represents _ (by decide))

/-- C10: the inserts never check that the inserted key is absent — inserting
the already-present key 0 before ref 2 in the three-key map raises nothing
and corrupts the chain (the forward traversal loses key 1, a recorded
neighbor no longer points back, the invariants fail) — while under the
unstated freshness precondition both inserts do preserve the representation. -/
theorem C10_insert_present_key (s : Odict) (r₁ r₂ : List (Nat × Nat))
    (k v ref vr : Nat) :
    (∃ s', (fromList [(0, 1), (1, 2), (2, 3)]).insertbefore 2 0 9 = Except.ok s' ∧
      s'.entries.map Prod.fst = [0, 1, 2] ∧ s'.keys = [0, 2] ∧
      ¬ s'.keys.Perm (s'.entries.map Prod.fst) ∧
      prevConsistentB s' = false ∧ ¬ Invariants s') ∧
    (Represents s (r₁ ++ (ref, vr) :: r₂) → ref ≠ k →
      k ∉ (r₁ ++ (ref, vr) :: r₂).map Prod.fst →
      (∃ s', s.insertbefore ref k v = Except.ok s' ∧
        Represents s' (r₁ ++ (k, v) :: (ref, vr) :: r₂)) ∧
      (∃ s', s.insertafter ref k v = Except.ok s' ∧
        Represents s' (r₁ ++ (ref, vr) :: (k, v) :: r₂))) := by
  constructor
  · refine ⟨⟨[(0, ⟨Link.key 1, 9, Link.key 2⟩), (1, ⟨Link.key 0, 2, Link.key 0⟩),
      (2, ⟨Link.key 0, 3, Link.nil⟩)], Link.key 0, Link.key 2⟩,
      by decide, by decide, by decide, by decide, by decide, by decide⟩
  · intro h hrk hknot
    exact ⟨insertbefore_represents h hrk hknot, insertafter_represents h hrk hknot⟩

theorem C10_witness :
    (∃ s', (fromList [(0, 5), (1, 6)]).insertbefore 1 7 9 = Except.ok s' ∧
      Represents s' ([(0, 5)] ++ (7, 9) :: (1, 6) :: [])) ∧
    (∃ s', (fromList [(0, 5), (1, 6)]).insertafter 1 7 9 = Except.ok s' ∧
      Represents s' ([(0, 5)] ++ (1, 6) :: (7, 9) :: [])) :=
  (C10_insert_present_key (fromList [(0, 5), (1, 6)]) [(0, 5)] [] 7 9 1 6).2
    (fromList_represents _ (by decide)) (by decide) (by decide)
